import Mathlib

/-!
Maze generation by random wall removal (bunji2/maze, `maze.go`).

A shallow embedding of `maze.go` and a verification of its constructor
(`NewMaze`), its geometry (`getSeparatedCells`), its label array (`updateAreas`,
`margeArea`, `isAllSameArea`), its wall removal step (`removeWall`), its
generation loop (`Build`) and its printer (`Print`, `wallStr`).

Modelling conventions.

* Go `int` is read in two ways.  Over the integers (`NewMaze`,
  `getSeparatedCells`, `removeWall`, `Build`, ...) an `int` is an `Int` and
  arithmetic is exact; the invariants of the algorithm are developed in this
  reading.  On 64-bit integers (`NewMaze64`, `getSeparatedCells64`,
  `removeWall64`, `Build64`, ...) every arithmetic result is reduced to
  `[-2^63, 2^63)` by `wrap64` and `make` refuses a slice beyond the allocation
  limit, as the program does when it runs.  The two readings agree on every
  grid whose sizes do not wrap around (`getSeparatedCells64_eq`, `NewMaze64_eq`,
  `removeWall64_eq`, `Build64_eq`), so that the states of `Reach` are the
  states that the running program reaches on such a grid.
* Slices are `List`s.  Every slice access goes through `index` / `setIndex`,
  which fail with `Panic.indexOutOfRange` exactly when Go's bounds check does.
* A function that can panic returns `Except Panic _`; a method that mutates
  the slices of its receiver returns the new `MazeData`.
* Go's `/` and `%` on `int` are `Int.tdiv` and `Int.tmod` (truncation toward
  zero); a zero divisor is the run-time panic `Panic.divideByZero`.
* The random source `rand.Intn(numWalls)` is a stream `rnd : Nat → Int`; the
  `k`-th call returns `rnd k` (and panics when `numWalls ≤ 0`, as
  `rand.Intn` does).
* The writer `out` of `Print` is the list of the characters written to it;
  `fmt.Fprintln(out, s)` writes `s` and a newline.
* Counted `for` loops recurse on the number of remaining iterations.  The
  `for !m.isAllSameArea()` loop of `Build` recurses on fuel; `Build` supplies
  enough fuel for the iteration cap and `Build_fuel_suffices` proves that the
  fuel never runs out.
-/

namespace Maze

/-- Ways in which the program can stop abnormally: the explicit `panic` calls of
`maze.go` and the run-time panics of the operations it uses. -/
inductive Panic where
  | tooSmall
  | tooLargeLoop
  | abnormalAid
  | widMinus
  | widTooLarge
  | indexOutOfRange
  | divideByZero
  | makeNegativeLen
  | intnNonPositive
  deriving DecidableEq, Repr

deriving instance DecidableEq for Except

/-- The type `MazeData` of `maze.go`. -/
structure MazeData where
  Width : Int
  Height : Int
  Areas : List Int
  Walls : List Int
  Paths : List (List Int)
  deriving DecidableEq, Repr

/-- Slice read `xs[i]` with Go's bounds check. -/
def index {α : Type} (xs : List α) (i : Int) : Except Panic α :=
  if i < 0 then .error .indexOutOfRange
  else
    match xs[i.toNat]? with
    | some x => .ok x
    | none => .error .indexOutOfRange

/-- Slice write `xs[i] = v` with Go's bounds check. -/
def setIndex {α : Type} (xs : List α) (i : Int) (v : α) : Except Panic (List α) :=
  if i < 0 then .error .indexOutOfRange
  else if i.toNat < xs.length then .ok (xs.set i.toNat v)
  else .error .indexOutOfRange

/-- The built-in `make([]T, n)` over the integers: `n` zero values, a panic for a
negative `n`.  `make64` adds the allocation limit. -/
def make {α : Type} (zero : α) (n : Int) : Except Panic (List α) :=
  if n < 0 then .error .makeNegativeLen else .ok (List.replicate n.toNat zero)

/-- The loop `for i := 0; i < w*h; i++ { areas[i] = i }` of `NewMaze`:
`n` iterations remain, the loop variable is `i`. -/
def fillAreas : Nat → Nat → List Int → Except Panic (List Int)
  | 0, _, areas => .ok areas
  | n + 1, i, areas =>
    match setIndex areas (i : Int) (i : Int) with
    | .error e => .error e
    | .ok areas1 => fillAreas n (i + 1) areas1

/-- `NewMaze(w, h)` over the integers; `NewMaze64` is `NewMaze` on 64-bit
integers. -/
def NewMaze (w h : Int) : Except Panic MazeData :=
  if w < 1 ∨ h < 1 then .error .tooSmall
  else
    match make (0 : Int) (w * h) with
    | .error e => .error e
    | .ok areas0 =>
      match fillAreas (w * h).toNat 0 areas0 with
      | .error e => .error e
      | .ok areas =>
        match make (0 : Int) (w * h * 2 - (w + h)) with
        | .error e => .error e
        | .ok walls =>
          match make ([] : List Int) (w * h) with
          | .error e => .error e
          | .ok paths =>
            .ok { Width := w, Height := h, Areas := areas, Walls := walls, Paths := paths }

/-- `getSeparatedCells(wid)` over the integers: the two cells that wall `wid`
separates.  `getSeparatedCells64` is `getSeparatedCells` on 64-bit integers. -/
def getSeparatedCells (m : MazeData) (wid : Int) : Except Panic (Int × Int) :=
  let w := m.Width
  let h := m.Height
  if wid < 0 then .error .widMinus
  else
    let t1 := (w - 1) * h
    let t2 := w * h * 2 - (w + h)
    if wid < t1 then
      if w - 1 = 0 then .error .divideByZero
      else
        let col := Int.tmod wid (w - 1)
        let row := Int.tdiv wid (w - 1)
        let cid1 := col + row * w
        .ok (cid1, cid1 + 1)
    else if wid < t2 then
      let cid1 := wid - t1
      .ok (cid1, cid1 + w)
    else .error .widTooLarge

/-- The loop of `margeArea`: `n` iterations remain, the loop variable is `i`. -/
def margeAreaLoop (oldAid newAid : Int) : Nat → Nat → List Int → Except Panic (List Int)
  | 0, _, areas => .ok areas
  | n + 1, i, areas =>
    match index areas (i : Int) with
    | .error e => .error e
    | .ok a =>
      if a = oldAid then
        match setIndex areas (i : Int) newAid with
        | .error e => .error e
        | .ok areas1 => margeAreaLoop oldAid newAid n (i + 1) areas1
      else margeAreaLoop oldAid newAid n (i + 1) areas

/-- `margeArea(oldAid, newAid)`. -/
def margeArea (m : MazeData) (oldAid newAid : Int) : Except Panic MazeData :=
  let size := m.Width * m.Height
  if oldAid < 0 ∨ oldAid ≥ size ∨ newAid < 0 ∨ newAid ≥ size then .error .abnormalAid
  else
    match margeAreaLoop oldAid newAid size.toNat 0 m.Areas with
    | .error e => .error e
    | .ok areas => .ok { m with Areas := areas }

/-- `updateAreas(cid1, cid2)`. -/
def updateAreas (m : MazeData) (cid1 cid2 : Int) : Except Panic MazeData :=
  match index m.Areas cid1 with
  | .error e => .error e
  | .ok oldAid =>
    match index m.Areas cid2 with
    | .error e => .error e
    | .ok newAid =>
      if newAid > oldAid then margeArea m newAid oldAid
      else margeArea m oldAid newAid

/-- `addPath(cid1, cid2)`. -/
def addPath (m : MazeData) (cid1 cid2 : Int) : Except Panic MazeData :=
  let c1 := if cid2 < cid1 then cid2 else cid1
  let c2 := if cid2 < cid1 then cid1 else cid2
  match index m.Paths c1 with
  | .error e => .error e
  | .ok p =>
    match setIndex m.Paths c1 (p ++ [c2]) with
    | .error e => .error e
    | .ok paths => .ok { m with Paths := paths }

/-- `removeWall(wid)`. -/
def removeWall (m : MazeData) (wid : Int) : Except Panic MazeData :=
  match index m.Walls wid with
  | .error e => .error e
  | .ok wall =>
    if wall = 1 then .ok m
    else
      match getSeparatedCells m wid with
      | .error e => .error e
      | .ok (cid1, cid2) =>
        match index m.Areas cid1 with
        | .error e => .error e
        | .ok aid1 =>
          match index m.Areas cid2 with
          | .error e => .error e
          | .ok aid2 =>
            if aid1 = aid2 then .ok m
            else
              match updateAreas m cid1 cid2 with
              | .error e => .error e
              | .ok m1 =>
                match setIndex m1.Walls wid 1 with
                | .error e => .error e
                | .ok walls => addPath { m1 with Walls := walls } cid1 cid2

/-- The loop of `isAllSameArea`: `n` iterations remain, the loop variable is `i`. -/
def isAllSameAreaLoop (areas : List Int) : Nat → Nat → Except Panic Bool
  | 0, _ => .ok true
  | n + 1, i =>
    match index areas (i : Int) with
    | .error e => .error e
    | .ok a => if a ≠ 0 then .ok false else isAllSameAreaLoop areas n (i + 1)

/-- `isAllSameArea()`. -/
def isAllSameArea (m : MazeData) : Except Panic Bool :=
  isAllSameAreaLoop m.Areas (m.Width * m.Height).toNat 0

/-- `rand.Intn(n)` on the `k`-th call of the random source `rnd`. -/
def Intn (rnd : Nat → Int) (k : Nat) (n : Int) : Except Panic Int :=
  if n ≤ 0 then .error .intnNonPositive else .ok (rnd k)

/-- The loop `for !m.isAllSameArea() { ... }` of `Build`, with its state: the
maze `m`, the remaining `counter` and the number `k` of draws made so far.
The result is the outcome together with the number of draws made; `none`
means that the fuel ran out. -/
def BuildLoop (rnd : Nat → Int) (numWalls : Int) :
    Nat → MazeData → Int → Nat → Option (Except Panic MazeData × Nat)
  | 0, _, _, _ => none
  | fuel + 1, m, counter, k =>
    match isAllSameArea m with
    | .error e => some (.error e, k)
    | .ok true => some (.ok m, k)
    | .ok false =>
      match Intn rnd k numWalls with
      | .error e => some (.error e, k)
      | .ok wid =>
        match removeWall m wid with
        | .error e => some (.error e, k + 1)
        | .ok m1 =>
          if counter - 1 < 0 then some (.error .tooLargeLoop, k + 1)
          else BuildLoop rnd numWalls fuel m1 (counter - 1) (k + 1)

/-- `Build()`, run with the random source `rnd`.  The fuel covers the
`counter + 1` iterations that the cap allows and the final loop test. -/
def Build (m : MazeData) (rnd : Nat → Int) : Option (Except Panic MazeData × Nat) :=
  let numWalls : Int := m.Walls.length
  let counter := m.Width * m.Height * 10
  BuildLoop rnd numWalls ((counter + 1).toNat + 1) m counter 0

/-! ### Specification vocabulary -/

/-- Number of cells of the grid of `m`. -/
def cellCount (m : MazeData) : Int := m.Width * m.Height

/-- Number of interior walls of the grid of `m`. -/
def wallCount (m : MazeData) : Int := m.Width * m.Height * 2 - (m.Width + m.Height)

/-- Wall `wid` is marked removed: `Walls[wid] == 1`. -/
def Removed (m : MazeData) (wid : Int) : Prop := index m.Walls wid = .ok 1

instance (m : MazeData) (wid : Int) : Decidable (Removed m wid) := by
  unfold Removed
  infer_instance

/-- Number of walls marked removed. -/
def removedCount (m : MazeData) : Nat := m.Walls.count 1

/-- Cells `a` and `b` are the pair that `getSeparatedCells` returns, in either
order, for some removed wall. -/
def Linked (m : MazeData) (a b : Int) : Prop :=
  ∃ wid : Int, Removed m wid ∧
    (getSeparatedCells m wid = .ok (a, b) ∨ getSeparatedCells m wid = .ok (b, a))

/-- Cells `a` and `b` are connected by a chain of removed walls. -/
def Connected (m : MazeData) (a b : Int) : Prop := Relation.ReflTransGen (Linked m) a b

/-- The graph on cell indices whose edges are the cell pairs of the removed
walls.  Every integer is a vertex; the integers that are not cell indices have
no edge. -/
def cellGraph (m : MazeData) : SimpleGraph Int where
  Adj a b := a ≠ b ∧ Linked m a b
  symm := by
    intro a b hab
    obtain ⟨hne, wid, hr, hw⟩ := hab
    exact ⟨fun e => hne e.symm, wid, hr, hw.symm⟩
  loopless := by
    intro a ha
    exact ha.1 rfl

/-- States that `removeWall` calls with wall indices in range reach from
`NewMaze(w, h)`. -/
inductive Reach (w h : Int) : MazeData → Prop
  | init {m : MazeData} : NewMaze w h = .ok m → Reach w h m
  | step {m m1 : MazeData} {wid : Int} :
      Reach w h m → 0 ≤ wid → wid < w * h * 2 - (w + h) →
      removeWall m wid = .ok m1 → Reach w h m1

/-- Number of distinct labels in `Areas`, that is the number of partitions. -/
def labelCount (m : MazeData) : Nat := m.Areas.toFinset.card

/-- The relabelling that a merge applies to every cell: label `hi` becomes `lo`. -/
def relabel (hi lo : Int) (x : Int) : Int := if x = hi then lo else x

/-- Shape of a maze state over a `w` by `h` grid: the dimensions, the lengths
of the three slices, and every label being a cell index. -/
structure WF (w h : Int) (m : MazeData) : Prop where
  width : m.Width = w
  height : m.Height = h
  wpos : 1 ≤ w
  hpos : 1 ≤ h
  areasLen : (m.Areas.length : Int) = w * h
  wallsLen : (m.Walls.length : Int) = w * h * 2 - (w + h)
  pathsLen : (m.Paths.length : Int) = w * h
  labels : ∀ a ∈ m.Areas, 0 ≤ a ∧ a < w * h

/-- The state that a merging `removeWall(wid)` produces, for the wall's cells
`cid1`, `cid2` and their labels `aid1`, `aid2`: the larger label is relabelled
to the smaller one, wall `wid` is marked removed, and the larger cell is
appended to the path entry of the smaller cell. -/
def merged (m : MazeData) (wid cid1 cid2 aid1 aid2 : Int) : MazeData :=
  { m with
    Areas := m.Areas.map (relabel (max aid1 aid2) (min aid1 aid2))
    Walls := m.Walls.set wid.toNat 1
    Paths := m.Paths.set (min cid1 cid2).toNat
      ((m.Paths[(min cid1 cid2).toNat]?).getD [] ++ [max cid1 cid2]) }

/-- The situation in which `removeWall(wid)` merges: the wall index is in range,
the wall is present, its cells are `cid1` and `cid2`, and their labels `aid1`
and `aid2` differ. -/
structure MergeStep (w h : Int) (m : MazeData) (wid cid1 cid2 aid1 aid2 : Int) : Prop where
  wid0 : 0 ≤ wid
  wid1 : wid < w * h * 2 - (w + h)
  present : ∃ wall : Int, index m.Walls wid = .ok wall ∧ wall ≠ 1
  cells : getSeparatedCells m wid = .ok (cid1, cid2)
  c0 : 0 ≤ cid1
  c1 : cid1 < cid2
  c2 : cid2 < w * h
  a1 : index m.Areas cid1 = .ok aid1
  a2 : index m.Areas cid2 = .ok aid2
  ne : aid1 ≠ aid2

/-- The maze after `j` draws, `rnd k`, `rnd (k+1)`, ..., have each been given
to `removeWall`, starting from `m`. -/
def afterDraws (rnd : Nat → Int) : Nat → MazeData → Nat → Except Panic MazeData
  | 0, m, _ => .ok m
  | j + 1, m, k =>
    match removeWall m (rnd k) with
    | .error e => .error e
    | .ok m1 => afterDraws rnd j m1 (k + 1)

/-- The grid of `m` is fully connected: removed walls connect every two cells. -/
def FullyConnected (m : MazeData) : Prop :=
  ∀ a b : Int, 0 ≤ a → a < cellCount m → 0 ≤ b → b < cellCount m → Connected m a b

/-- The grid is fully connected after the first `j` draws of `rnd` on `m0`. -/
def ConnectedAfter (rnd : Nat → Int) (m0 : MazeData) (j : Nat) : Prop :=
  ∃ m : MazeData, afterDraws rnd j m0 0 = .ok m ∧ FullyConnected m

/-- `wallStr(wid)`: the string returned is a list of characters. -/
def wallStr (m : MazeData) (wid : Int) : Except Panic (List Char) :=
  if wid < 0 then .error .widMinus
  else
    match index m.Walls wid with
    | .error e => .error e
    | .ok wall =>
      if wall = 1 then .ok [' ']
      else
        let w := m.Width
        let h := m.Height
        let t1 := (w - 1) * h
        let t2 := w * h * 2 - (w + h)
        if wid < t1 then .ok ['|']
        else if wid < t2 then .ok ['-']
        else .error .widTooLarge

/-- The loop `for i := 0; i < w; i++ { fmt.Fprint(out, "-+") }` of `Print`, on
the characters `out` written so far: `n` iterations remain. -/
def printBorder : Nat → List Char → List Char
  | 0, out => out
  | n + 1, out => printBorder n (out ++ ['-', '+'])

/-- The loop `for j := 0; j < w-1; j++` of `Print`, in row `i`: it writes a
space and `wallStr(i*(w-1)+j)`.  `n` iterations remain, the loop variable is `j`. -/
def printRowWalls (m : MazeData) (i : Int) : Nat → Nat → List Char → Except Panic (List Char)
  | 0, _, out => .ok out
  | n + 1, j, out =>
    match wallStr m (i * (m.Width - 1) + j) with
    | .error e => .error e
    | .ok s => printRowWalls m i n (j + 1) (out ++ [' '] ++ s)

/-- The loop `for j := 0; j < w; j++` of `Print`, below row `i`: it writes
`wallStr(t1 + j + i*w)` and a `+`.  `n` iterations remain, the loop variable is `j`. -/
def printSepWalls (m : MazeData) (i : Int) : Nat → Nat → List Char → Except Panic (List Char)
  | 0, _, out => .ok out
  | n + 1, j, out =>
    match wallStr m ((m.Width - 1) * m.Height + j + i * m.Width) with
    | .error e => .error e
    | .ok s => printSepWalls m i n (j + 1) (out ++ s ++ ['+'])

/-- The loop `for i := 0; i < h; i++` of `Print`: `n` iterations remain, the
loop variable is `i`. -/
def printRows (m : MazeData) : Nat → Nat → List Char → Except Panic (List Char)
  | 0, _, out => .ok out
  | n + 1, i, out =>
    match printRowWalls m i (m.Width - 1).toNat 0 (out ++ ['|']) with
    | .error e => .error e
    | .ok out1 =>
      if (i : Int) < m.Height - 1 then
        match printSepWalls m i m.Width.toNat 0 (out1 ++ [' ', '|', '\n'] ++ ['+']) with
        | .error e => .error e
        | .ok out2 => printRows m n (i + 1) (out2 ++ ['\n'])
      else printRows m n (i + 1) (out1 ++ [' ', '|', '\n'])

/-- `Print(out)`: the result is the sequence of characters written to `out`. -/
def Print (m : MazeData) : Except Panic (List Char) :=
  match printRows m m.Height.toNat 0 (printBorder m.Width.toNat ['+'] ++ ['\n']) with
  | .error e => .error e
  | .ok out => .ok (printBorder m.Width.toNat (out ++ ['+']) ++ ['\n'])

/-- The character sequence that consists of the given lines, each followed by a
newline. -/
def joinLines : List (List Char) → List Char
  | [] => []
  | l :: ls => l ++ ['\n'] ++ joinLines ls

/-- The character that `Print` shows for wall `wid`: a space for a removed wall,
`|` for a present vertical wall and `-` for a present horizontal wall. -/
def wallChar (m : MazeData) (wid : Int) : Char :=
  if Removed m wid then ' ' else if wid < (m.Width - 1) * m.Height then '|' else '-'

/-! ### The program on 64-bit integers

The definitions above read Go's `int` as an unbounded integer.  The definitions
below, with names ending in `64`, read it as the program executes it on a
64-bit platform: every arithmetic result is reduced to the range
`[-2^63, 2^63)`, and `make` refuses a slice beyond the allocation limit.  The
arguments are `int` values, that is, integers of that range.  The two readings
agree on every grid whose sizes do not wrap around (`getSeparatedCells64_eq`,
`NewMaze64_eq`, `removeWall64_eq`, `Build64_eq`). -/

/-- The value that an arithmetic operation on `int` yields on a 64-bit platform:
the exact result `x`, reduced to the range `[-2^63, 2^63)`. -/
def wrap64 (x : Int) : Int :=
  (x + 9223372036854775808) % 18446744073709551616 - 9223372036854775808

/-- The largest size in bytes, `2^48`, that the Go run-time system allocates on a
64-bit platform (`maxAlloc` of `runtime/malloc.go`). -/
def maxAlloc : Int := 281474976710656

/-- The built-in `make([]T, n)` as `runtime.makeslice` implements it, for an
element type of `elemSize` bytes: it panics with `makeslice: len out of range`,
which is `Panic.makeNegativeLen` here, when `n` is negative or when the slice
would exceed `maxAlloc` bytes; otherwise it gives `n` zero values.  (A machine
that runs out of memory below that limit stops the program, which no definition
here describes.) -/
def make64 {α : Type} (elemSize : Int) (zero : α) (n : Int) : Except Panic (List α) :=
  if n < 0 ∨ n * elemSize > maxAlloc then .error .makeNegativeLen
  else .ok (List.replicate n.toNat zero)

/-- `NewMaze(w, h)` on 64-bit integers.  An `int` takes 8 bytes, a slice value
`[]int` takes 24. -/
def NewMaze64 (w h : Int) : Except Panic MazeData :=
  if w < 1 ∨ h < 1 then .error .tooSmall
  else
    match make64 8 (0 : Int) (wrap64 (w * h)) with
    | .error e => .error e
    | .ok areas0 =>
      match fillAreas (wrap64 (w * h)).toNat 0 areas0 with
      | .error e => .error e
      | .ok areas =>
        match make64 8 (0 : Int) (wrap64 (wrap64 (wrap64 (w * h) * 2) - wrap64 (w + h))) with
        | .error e => .error e
        | .ok walls =>
          match make64 24 ([] : List Int) (wrap64 (w * h)) with
          | .error e => .error e
          | .ok paths =>
            .ok { Width := w, Height := h, Areas := areas, Walls := walls, Paths := paths }

/-- `getSeparatedCells(wid)` on 64-bit integers. -/
def getSeparatedCells64 (m : MazeData) (wid : Int) : Except Panic (Int × Int) :=
  let w := m.Width
  let h := m.Height
  if wid < 0 then .error .widMinus
  else
    let t1 := wrap64 (wrap64 (w - 1) * h)
    let t2 := wrap64 (wrap64 (wrap64 (w * h) * 2) - wrap64 (w + h))
    if wid < t1 then
      if wrap64 (w - 1) = 0 then .error .divideByZero
      else
        let col := Int.tmod wid (wrap64 (w - 1))
        let row := wrap64 (Int.tdiv wid (wrap64 (w - 1)))
        let cid1 := wrap64 (col + wrap64 (row * w))
        .ok (cid1, wrap64 (cid1 + 1))
    else if wid < t2 then
      let cid1 := wrap64 (wid - t1)
      .ok (cid1, wrap64 (cid1 + w))
    else .error .widTooLarge

/-- `margeArea(oldAid, newAid)` on 64-bit integers. -/
def margeArea64 (m : MazeData) (oldAid newAid : Int) : Except Panic MazeData :=
  let size := wrap64 (m.Width * m.Height)
  if oldAid < 0 ∨ oldAid ≥ size ∨ newAid < 0 ∨ newAid ≥ size then .error .abnormalAid
  else
    match margeAreaLoop oldAid newAid size.toNat 0 m.Areas with
    | .error e => .error e
    | .ok areas => .ok { m with Areas := areas }

/-- `updateAreas(cid1, cid2)` on 64-bit integers. -/
def updateAreas64 (m : MazeData) (cid1 cid2 : Int) : Except Panic MazeData :=
  match index m.Areas cid1 with
  | .error e => .error e
  | .ok oldAid =>
    match index m.Areas cid2 with
    | .error e => .error e
    | .ok newAid =>
      if newAid > oldAid then margeArea64 m newAid oldAid
      else margeArea64 m oldAid newAid

/-- `removeWall(wid)` on 64-bit integers. -/
def removeWall64 (m : MazeData) (wid : Int) : Except Panic MazeData :=
  match index m.Walls wid with
  | .error e => .error e
  | .ok wall =>
    if wall = 1 then .ok m
    else
      match getSeparatedCells64 m wid with
      | .error e => .error e
      | .ok (cid1, cid2) =>
        match index m.Areas cid1 with
        | .error e => .error e
        | .ok aid1 =>
          match index m.Areas cid2 with
          | .error e => .error e
          | .ok aid2 =>
            if aid1 = aid2 then .ok m
            else
              match updateAreas64 m cid1 cid2 with
              | .error e => .error e
              | .ok m1 =>
                match setIndex m1.Walls wid 1 with
                | .error e => .error e
                | .ok walls => addPath { m1 with Walls := walls } cid1 cid2

/-- `isAllSameArea()` on 64-bit integers. -/
def isAllSameArea64 (m : MazeData) : Except Panic Bool :=
  isAllSameAreaLoop m.Areas (wrap64 (m.Width * m.Height)).toNat 0

/-- The loop of `Build` on 64-bit integers; see `BuildLoop`. -/
def BuildLoop64 (rnd : Nat → Int) (numWalls : Int) :
    Nat → MazeData → Int → Nat → Option (Except Panic MazeData × Nat)
  | 0, _, _, _ => none
  | fuel + 1, m, counter, k =>
    match isAllSameArea64 m with
    | .error e => some (.error e, k)
    | .ok true => some (.ok m, k)
    | .ok false =>
      match Intn rnd k numWalls with
      | .error e => some (.error e, k)
      | .ok wid =>
        match removeWall64 m wid with
        | .error e => some (.error e, k + 1)
        | .ok m1 =>
          if wrap64 (counter - 1) < 0 then some (.error .tooLargeLoop, k + 1)
          else BuildLoop64 rnd numWalls fuel m1 (wrap64 (counter - 1)) (k + 1)

/-- `Build()` on 64-bit integers, run with the random source `rnd`.  After its
first decrement the counter is either negative, which ends the loop, or bounds
the number of further iterations; the fuel covers both. -/
def Build64 (m : MazeData) (rnd : Nat → Int) : Option (Except Panic MazeData × Nat) :=
  let numWalls : Int := m.Walls.length
  let counter := wrap64 (wrap64 (m.Width * m.Height) * 10)
  BuildLoop64 rnd numWalls ((wrap64 (counter - 1) + 1).toNat + 2) m counter 0

/-- The maze after `j` draws, `rnd k`, `rnd (k+1)`, ..., have each been given
to `removeWall` on 64-bit integers, starting from `m`. -/
def afterDraws64 (rnd : Nat → Int) : Nat → MazeData → Nat → Except Panic MazeData
  | 0, m, _ => .ok m
  | j + 1, m, k =>
    match removeWall64 m (rnd k) with
    | .error e => .error e
    | .ok m1 => afterDraws64 rnd j m1 (k + 1)

/-- The grid is fully connected after the first `j` draws of `rnd` on `m0`, the
program running on 64-bit integers. -/
def ConnectedAfter64 (rnd : Nat → Int) (m0 : MazeData) (j : Nat) : Prop :=
  ∃ m : MazeData, afterDraws64 rnd j m0 0 = .ok m ∧ FullyConnected m

/-! ## Slice access -/

theorem index_eq_ok {α : Type} (xs : List α) (i : Int) (x : α) :
    index xs i = .ok x ↔ 0 ≤ i ∧ xs[i.toNat]? = some x := by
  unfold index
  by_cases hi : i < 0
  · simp [hi]
  · simp only [hi, if_false]
    cases hx : xs[i.toNat]? with
    | none => simp
    | some y => simp; omega

theorem index_nat {α : Type} (xs : List α) (i : Nat) (x : α) (h : xs[i]? = some x) :
    index xs (i : Int) = .ok x := by
  rw [index_eq_ok]
  exact ⟨by omega, by simpa using h⟩

theorem setIndex_eq_ok {α : Type} (xs : List α) (i : Int) (v : α) (h0 : 0 ≤ i)
    (h1 : i < xs.length) : setIndex xs i v = .ok (xs.set i.toNat v) := by
  unfold setIndex
  have : i.toNat < xs.length := by omega
  simp [not_lt.mpr h0, this]

theorem setIndex_nat {α : Type} (xs : List α) (i : Nat) (v : α) (h1 : i < xs.length) :
    setIndex xs (i : Int) v = .ok (xs.set i v) := by
  rw [setIndex_eq_ok xs i v (by omega) (by omega)]
  simp

/-! ## The loops over the label array -/

theorem margeAreaLoop_spec (oldAid newAid : Int) :
    ∀ (n i : Nat) (areas : List Int), i + n ≤ areas.length →
      ∃ r, margeAreaLoop oldAid newAid n i areas = .ok r ∧ r.length = areas.length ∧
        ∀ j, r[j]? = if i ≤ j ∧ j < i + n then (areas[j]?).map (relabel oldAid newAid)
          else areas[j]? := by
  intro n
  induction n with
  | zero =>
    intro i areas _
    refine ⟨areas, rfl, rfl, ?_⟩
    intro j
    have : ¬ (i ≤ j ∧ j < i + 0) := by omega
    rw [if_neg this]
  | succ n ih =>
    intro i areas hlen
    have hi : i < areas.length := by omega
    have hget : areas[i]? = some areas[i] := List.getElem?_eq_getElem hi
    simp only [margeAreaLoop, index_nat areas i _ hget]
    by_cases ha : areas[i] = oldAid
    · simp only [ha, if_true, setIndex_nat areas i newAid hi]
      obtain ⟨r, hr, hl, hj⟩ := ih (i + 1) (areas.set i newAid) (by simp; omega)
      refine ⟨r, hr, by simpa using hl, ?_⟩
      intro j
      rw [hj j]
      by_cases hji : j = i
      · subst hji
        have h1 : ¬ (j + 1 ≤ j ∧ j < j + 1 + n) := by omega
        have h2 : j ≤ j ∧ j < j + (n + 1) := by omega
        simp [h1, h2, hget, ha, relabel, hi]
      · have e : (areas.set i newAid)[j]? = areas[j]? := by
          rw [List.getElem?_set_ne (fun e => hji e.symm)]
        rw [e]
        by_cases hc : i + 1 ≤ j ∧ j < i + 1 + n
        · have : i ≤ j ∧ j < i + (n + 1) := by omega
          simp [hc, this]
        · have : ¬ (i ≤ j ∧ j < i + (n + 1)) := by omega
          simp [hc, this]
    · simp only [ha, if_false]
      obtain ⟨r, hr, hl, hj⟩ := ih (i + 1) areas (by omega)
      refine ⟨r, hr, hl, ?_⟩
      intro j
      rw [hj j]
      by_cases hji : j = i
      · subst hji
        have h1 : ¬ (j + 1 ≤ j ∧ j < j + 1 + n) := by omega
        have h2 : j ≤ j ∧ j < j + (n + 1) := by omega
        simp [h1, h2, hget, ha, relabel]
      · by_cases hc : i + 1 ≤ j ∧ j < i + 1 + n
        · have : i ≤ j ∧ j < i + (n + 1) := by omega
          simp [hc, this]
        · have : ¬ (i ≤ j ∧ j < i + (n + 1)) := by omega
          simp [hc, this]

/-- The loop of `margeArea`, run over the whole label array, relabels it. -/
theorem margeAreaLoop_full (oldAid newAid : Int) (areas : List Int) :
    margeAreaLoop oldAid newAid areas.length 0 areas = .ok (areas.map (relabel oldAid newAid)) := by
  obtain ⟨r, hr, hl, hj⟩ := margeAreaLoop_spec oldAid newAid areas.length 0 areas (by omega)
  rw [hr]
  congr 1
  apply List.ext_getElem?
  intro j
  rw [hj j, List.getElem?_map]
  by_cases hc : j < areas.length
  · simp [hc]
  · simp [hc, List.getElem?_eq_none (not_lt.mp hc)]

theorem isAllSameAreaLoop_spec (areas : List Int) :
    ∀ (n i : Nat), i + n = areas.length →
      isAllSameAreaLoop areas n i = .ok (decide (∀ x ∈ areas.drop i, x = 0)) := by
  intro n
  induction n with
  | zero =>
    intro i hi
    have : areas.drop i = [] := List.drop_eq_nil_of_le (by omega)
    simp [isAllSameAreaLoop, this]
  | succ n ih =>
    intro i hlen
    have hi : i < areas.length := by omega
    have hget : areas[i]? = some areas[i] := List.getElem?_eq_getElem hi
    have hd : areas.drop i = areas[i] :: areas.drop (i + 1) := List.drop_eq_getElem_cons hi
    simp only [isAllSameAreaLoop, index_nat areas i _ hget]
    by_cases ha : areas[i] = 0
    · simp only [ha, ne_eq, not_true_eq_false, if_false]
      rw [ih (i + 1) (by omega), hd]
      simp [ha]
    · simp only [ha, ne_eq, not_false_eq_true, if_true]
      have : ¬ ∀ x ∈ areas.drop i, x = 0 := by
        intro hall
        exact ha (hall _ (by rw [hd]; exact List.mem_cons_self _ _))
      simp only [this, decide_False]

/-! ## Geometry: `getSeparatedCells` -/

theorem tdiv_tmod_bounds (d n x : Int) (hd : 0 < d) (hx : 0 ≤ x) (hlt : x < d * n) :
    0 ≤ Int.tmod x d ∧ Int.tmod x d < d ∧ 0 ≤ Int.tdiv x d ∧ Int.tdiv x d < n ∧
      x = Int.tdiv x d * d + Int.tmod x d := by
  have e1 : Int.tdiv x d = x / d := Int.tdiv_eq_ediv hx (le_of_lt hd)
  have e2 : Int.tmod x d = x % d := Int.tmod_eq_emod hx (le_of_lt hd)
  rw [e1, e2]
  refine ⟨Int.emod_nonneg _ (ne_of_gt hd), Int.emod_lt_of_pos _ hd,
    Int.ediv_nonneg hx (le_of_lt hd), ?_, ?_⟩
  · exact Int.ediv_lt_of_lt_mul hd (by rw [mul_comm] at hlt; exact hlt)
  · have := Int.emod_add_ediv x d
    rw [mul_comm] at this
    omega

theorem add_mul_div_mod (W r c : Int) (hc0 : 0 ≤ c) (hc1 : c < W) :
    (c + r * W) / W = r ∧ (c + r * W) % W = c := by
  have hW : W ≠ 0 := by omega
  constructor
  · rw [Int.add_mul_ediv_right _ _ hW, Int.ediv_eq_zero_of_lt hc0 hc1]
    simp
  · rw [Int.add_mul_emod_self, Int.emod_eq_of_lt hc0 hc1]

theorem rowcol_unique (W r1 c1 r2 c2 : Int) (h1 : 0 ≤ c1) (h1w : c1 < W) (h2 : 0 ≤ c2)
    (h2w : c2 < W) (h : c1 + r1 * W = c2 + r2 * W) : r1 = r2 ∧ c1 = c2 := by
  have a1 := add_mul_div_mod W r1 c1 h1 h1w
  have a2 := add_mul_div_mod W r2 c2 h2 h2w
  rw [h] at a1
  exact ⟨a1.1.symm.trans a2.1, a1.2.symm.trans a2.2⟩

/-- Closed form of `getSeparatedCells` on a wall index in range: a vertical wall
`wid = row*(Width-1) + col` separates cells `row*Width + col` and its right
neighbour, a horizontal wall `wid` separates cell `wid - (Width-1)*Height` and
the cell below it. -/
theorem getSeparatedCells_shape (m : MazeData) (wid : Int) (hw : 1 ≤ m.Width)
    (h0 : 0 ≤ wid) (h1 : wid < wallCount m) :
    (wid < (m.Width - 1) * m.Height ∧ ∃ row col : Int, 0 ≤ row ∧ row < m.Height ∧ 0 ≤ col ∧
        col < m.Width - 1 ∧ wid = row * (m.Width - 1) + col ∧
        getSeparatedCells m wid = .ok (col + row * m.Width, col + row * m.Width + 1)) ∨
    ((m.Width - 1) * m.Height ≤ wid ∧
        getSeparatedCells m wid =
          .ok (wid - (m.Width - 1) * m.Height, wid - (m.Width - 1) * m.Height + m.Width)) := by
  unfold wallCount at h1
  by_cases hv : wid < (m.Width - 1) * m.Height
  · left
    have hd : 0 < m.Width - 1 := by
      by_contra hc
      have : m.Width - 1 = 0 := by omega
      rw [this] at hv
      simp at hv
      omega
    obtain ⟨b1, b2, b3, b4, b5⟩ := tdiv_tmod_bounds (m.Width - 1) m.Height wid hd h0 hv
    refine ⟨hv, Int.tdiv wid (m.Width - 1), Int.tmod wid (m.Width - 1), b3, b4, b1, b2, b5, ?_⟩
    unfold getSeparatedCells
    simp only [not_lt.mpr h0, hv, if_true, if_false, ne_of_gt hd]
  · right
    refine ⟨not_lt.mp hv, ?_⟩
    unfold getSeparatedCells
    simp only [not_lt.mpr h0, hv, h1, if_true, if_false]

theorem cell_bound (W H row col : Int) (hr0 : 0 ≤ row) (hr : row < H) (hc0 : 0 ≤ col)
    (hc : col < W) : 0 ≤ col + row * W ∧ col + row * W < W * H := by
  have hW : 0 < W := by omega
  constructor
  · have := mul_nonneg hr0 (le_of_lt hW)
    omega
  · have h1 : row * W ≤ (H - 1) * W := mul_le_mul_of_nonneg_right (by omega) (le_of_lt hW)
    have h2 : (H - 1) * W = W * H - W := by ring
    omega

theorem vertical_le_wallCount (m : MazeData) (hw : 1 ≤ m.Width) (hh : 1 ≤ m.Height) :
    (m.Width - 1) * m.Height ≤ wallCount m := by
  unfold wallCount
  have h1 : 0 ≤ m.Width * (m.Height - 1) := mul_nonneg (by omega) (by omega)
  have h2 : m.Width * (m.Height - 1) = m.Width * m.Height - m.Width := by ring
  have h3 : (m.Width - 1) * m.Height = m.Width * m.Height - m.Height := by ring
  omega

/-- On a wall index in range `getSeparatedCells` returns a pair `(cid1, cid2)`
of cells in range with `cid1 < cid2`. -/
theorem getSeparatedCells_ok (m : MazeData) (wid : Int) (hw : 1 ≤ m.Width)
    (h0 : 0 ≤ wid) (h1 : wid < wallCount m) :
    ∃ cid1 cid2 : Int, getSeparatedCells m wid = .ok (cid1, cid2) ∧ 0 ≤ cid1 ∧ cid1 < cid2 ∧
      cid2 < cellCount m := by
  rcases getSeparatedCells_shape m wid hw h0 h1 with ⟨_, row, col, r0, r1, c0, c1, _, hg⟩ |
    ⟨hge, hg⟩
  · obtain ⟨b0, b1⟩ := cell_bound m.Width m.Height row (col + 1) r0 r1 (by omega) (by omega)
    obtain ⟨b2, _⟩ := cell_bound m.Width m.Height row col r0 r1 c0 (by omega)
    refine ⟨_, _, hg, b2, by omega, ?_⟩
    unfold cellCount
    omega
  · refine ⟨_, _, hg, by omega, by omega, ?_⟩
    unfold wallCount at h1
    unfold cellCount
    have h3 : (m.Width - 1) * m.Height = m.Width * m.Height - m.Height := by ring
    omega

/-- Two wall indices in range with the same pair of cells are equal. -/
theorem getSeparatedCells_inj (m : MazeData) (hw : 1 ≤ m.Width)
    (wid1 wid2 a b : Int) (h10 : 0 ≤ wid1) (h11 : wid1 < wallCount m) (h20 : 0 ≤ wid2)
    (h21 : wid2 < wallCount m) (e1 : getSeparatedCells m wid1 = .ok (a, b))
    (e2 : getSeparatedCells m wid2 = .ok (a, b)) : wid1 = wid2 := by
  rcases getSeparatedCells_shape m wid1 hw h10 h11 with
    ⟨_, row1, col1, _, _, c10, c11, hwid1, hg1⟩ | ⟨_, hg1⟩ <;>
  rcases getSeparatedCells_shape m wid2 hw h20 h21 with
    ⟨_, row2, col2, _, _, c20, c21, hwid2, hg2⟩ | ⟨_, hg2⟩ <;>
  rw [e1] at hg1 <;> rw [e2] at hg2 <;>
  simp only [Except.ok.injEq, Prod.mk.injEq] at hg1 hg2
  · obtain ⟨hr, hc⟩ := rowcol_unique m.Width row1 col1 row2 col2 c10 (by omega) c20 (by omega)
      (hg1.1.symm.trans hg2.1)
    rw [hwid1, hwid2, hr, hc]
  · omega
  · omega
  · omega

/-! ## One `removeWall` call on a well-formed state -/

theorem getElem?_of_range {α : Type} (xs : List α) (i n : Int) (hlen : (xs.length : Int) = n)
    (h0 : 0 ≤ i) (h1 : i < n) : ∃ x, xs[i.toNat]? = some x ∧ x ∈ xs := by
  have hi : i.toNat < xs.length := by omega
  exact ⟨xs[i.toNat], List.getElem?_eq_getElem hi, List.getElem_mem hi⟩

theorem margeArea_eq (w h : Int) (m : MazeData) (hwf : WF w h m) (oldAid newAid : Int)
    (ho0 : 0 ≤ oldAid) (ho1 : oldAid < w * h) (hn0 : 0 ≤ newAid) (hn1 : newAid < w * h) :
    margeArea m oldAid newAid = .ok { m with Areas := m.Areas.map (relabel oldAid newAid) } := by
  unfold margeArea
  have hsz : (m.Width * m.Height).toNat = m.Areas.length := by
    rw [hwf.width, hwf.height, ← hwf.areasLen]
    simp
  have hg : ¬ (oldAid < 0 ∨ oldAid ≥ m.Width * m.Height ∨ newAid < 0 ∨
      newAid ≥ m.Width * m.Height) := by
    rw [hwf.width, hwf.height]
    omega
  simp only [hg, if_false, hsz, margeAreaLoop_full]

theorem updateAreas_eq (w h : Int) (m : MazeData) (hwf : WF w h m) (cid1 cid2 aid1 aid2 : Int)
    (h1 : index m.Areas cid1 = .ok aid1) (h2 : index m.Areas cid2 = .ok aid2) :
    updateAreas m cid1 cid2 =
      .ok { m with Areas := m.Areas.map (relabel (max aid1 aid2) (min aid1 aid2)) } := by
  have m1 : aid1 ∈ m.Areas := List.getElem?_mem ((index_eq_ok _ _ _).mp h1).2
  have m2 : aid2 ∈ m.Areas := List.getElem?_mem ((index_eq_ok _ _ _).mp h2).2
  obtain ⟨a10, a11⟩ := hwf.labels _ m1
  obtain ⟨a20, a21⟩ := hwf.labels _ m2
  unfold updateAreas
  simp only [h1, h2]
  by_cases hgt : aid2 > aid1
  · simp only [hgt, if_true]
    rw [margeArea_eq w h m hwf aid2 aid1 a20 a21 a10 a11, max_eq_right (le_of_lt hgt),
      min_eq_left (le_of_lt hgt)]
  · simp only [hgt, if_false]
    rw [margeArea_eq w h m hwf aid1 aid2 a10 a11 a20 a21, max_eq_left (not_lt.mp hgt),
      min_eq_right (not_lt.mp hgt)]

theorem addPath_eq (m : MazeData) (cid1 cid2 : Int) (h0 : 0 ≤ min cid1 cid2)
    (h1 : min cid1 cid2 < m.Paths.length) :
    addPath m cid1 cid2 = .ok { m with Paths := (m.Paths.set (min cid1 cid2).toNat
      ((m.Paths[(min cid1 cid2).toNat]?).getD [] ++ [max cid1 cid2])) } := by
  have hc1 : (if cid2 < cid1 then cid2 else cid1) = min cid1 cid2 := by
    by_cases hlt : cid2 < cid1
    · simp [hlt, min_eq_right (le_of_lt hlt)]
    · simp [hlt, min_eq_left (not_lt.mp hlt)]
  have hc2 : (if cid2 < cid1 then cid1 else cid2) = max cid1 cid2 := by
    by_cases hlt : cid2 < cid1
    · simp [hlt, max_eq_left (le_of_lt hlt)]
    · simp [hlt, max_eq_right (not_lt.mp hlt)]
  have hi : (min cid1 cid2).toNat < m.Paths.length := by omega
  have hget : m.Paths[(min cid1 cid2).toNat]? = some m.Paths[(min cid1 cid2).toNat] :=
    List.getElem?_eq_getElem hi
  have hidx : index m.Paths (min cid1 cid2) = .ok m.Paths[(min cid1 cid2).toNat] :=
    (index_eq_ok _ _ _).mpr ⟨h0, hget⟩
  unfold addPath
  simp only [hc1, hc2, hidx, setIndex_eq_ok m.Paths _ _ h0 h1, hget, Option.getD_some]

/-- What `removeWall(wid)` does on a well-formed state for a wall index in
range: it returns, and the new state is the old one when the wall is already
removed or its two cells carry the same label, and the merged state otherwise. -/
theorem removeWall_eq (w h : Int) (m : MazeData) (hwf : WF w h m) (wid : Int) (h0 : 0 ≤ wid)
    (h1 : wid < w * h * 2 - (w + h)) :
    ∃ wall cid1 cid2 aid1 aid2 : Int, index m.Walls wid = .ok wall ∧
      getSeparatedCells m wid = .ok (cid1, cid2) ∧ 0 ≤ cid1 ∧ cid1 < cid2 ∧ cid2 < w * h ∧
      index m.Areas cid1 = .ok aid1 ∧ index m.Areas cid2 = .ok aid2 ∧
      removeWall m wid =
        .ok (if wall = 1 ∨ aid1 = aid2 then m else merged m wid cid1 cid2 aid1 aid2) := by
  have hwc : wallCount m = w * h * 2 - (w + h) := by
    unfold wallCount
    rw [hwf.width, hwf.height]
  have hcc : cellCount m = w * h := by
    unfold cellCount
    rw [hwf.width, hwf.height]
  obtain ⟨wall, hwall, _⟩ := getElem?_of_range m.Walls wid _ hwf.wallsLen h0 h1
  obtain ⟨cid1, cid2, hg, c0, c1, c2⟩ := getSeparatedCells_ok m wid
    (by rw [hwf.width]; exact hwf.wpos) h0
    (by rw [hwc]; exact h1)
  rw [hcc] at c2
  obtain ⟨aid1, ha1, _⟩ := getElem?_of_range m.Areas cid1 _ hwf.areasLen c0 (by omega)
  obtain ⟨aid2, ha2, _⟩ := getElem?_of_range m.Areas cid2 _ hwf.areasLen (by omega) c2
  have iw : index m.Walls wid = .ok wall := (index_eq_ok _ _ _).mpr ⟨h0, hwall⟩
  have i1 : index m.Areas cid1 = .ok aid1 := (index_eq_ok _ _ _).mpr ⟨c0, ha1⟩
  have i2 : index m.Areas cid2 = .ok aid2 := (index_eq_ok _ _ _).mpr ⟨by omega, ha2⟩
  refine ⟨wall, cid1, cid2, aid1, aid2, iw, hg, c0, c1, c2, i1, i2, ?_⟩
  unfold removeWall
  simp only [iw]
  by_cases hw1 : wall = 1
  · simp [hw1]
  · simp only [hw1, if_false, hg, i1, i2, false_or]
    by_cases hsame : aid1 = aid2
    · simp [hsame]
    · simp only [hsame, if_false, updateAreas_eq w h m hwf cid1 cid2 aid1 aid2 i1 i2]
      rw [setIndex_eq_ok _ _ _ h0 (by rw [hwf.wallsLen]; exact h1)]
      simp only []
      rw [addPath_eq _ _ _ (by rw [min_eq_left (le_of_lt c1)]; exact c0)
        (by rw [min_eq_left (le_of_lt c1)]; simp only []; rw [hwf.pathsLen]; omega)]
      rfl

theorem removeWall_cases (w h : Int) (m m1 : MazeData) (hwf : WF w h m) (wid : Int)
    (h0 : 0 ≤ wid) (h1 : wid < w * h * 2 - (w + h)) (hs : removeWall m wid = .ok m1) :
    m1 = m ∨ ∃ cid1 cid2 aid1 aid2 : Int, MergeStep w h m wid cid1 cid2 aid1 aid2 ∧
      m1 = merged m wid cid1 cid2 aid1 aid2 := by
  obtain ⟨wall, cid1, cid2, aid1, aid2, iw, hg, c0, c1, c2, i1, i2, hr⟩ :=
    removeWall_eq w h m hwf wid h0 h1
  rw [hr] at hs
  by_cases hc : wall = 1 ∨ aid1 = aid2
  · left
    rw [if_pos hc] at hs
    exact (Except.ok.inj hs).symm
  · right
    rw [if_neg hc] at hs
    refine ⟨cid1, cid2, aid1, aid2, ⟨h0, h1, ⟨wall, iw, fun e => hc (Or.inl e)⟩, hg, c0, c1, c2,
      i1, i2, fun e => hc (Or.inr e)⟩, (Except.ok.inj hs).symm⟩

/-! ## `NewMaze` -/

theorem fillAreas_spec :
    ∀ (n i : Nat) (areas : List Int), i + n ≤ areas.length →
      ∃ r, fillAreas n i areas = .ok r ∧ r.length = areas.length ∧
        ∀ j, r[j]? = if i ≤ j ∧ j < i + n then some (j : Int) else areas[j]? := by
  intro n
  induction n with
  | zero =>
    intro i areas _
    refine ⟨areas, rfl, rfl, ?_⟩
    intro j
    have : ¬ (i ≤ j ∧ j < i + 0) := by omega
    rw [if_neg this]
  | succ n ih =>
    intro i areas hlen
    have hi : i < areas.length := by omega
    simp only [fillAreas, setIndex_nat areas i _ hi]
    obtain ⟨r, hr, hl, hj⟩ := ih (i + 1) (areas.set i (i : Int)) (by simp; omega)
    refine ⟨r, hr, by simpa using hl, ?_⟩
    intro j
    rw [hj j]
    by_cases hji : j = i
    · subst hji
      have h1 : ¬ (j + 1 ≤ j ∧ j < j + 1 + n) := by omega
      have h2 : j ≤ j ∧ j < j + (n + 1) := by omega
      simp [h1, h2, hi]
    · rw [List.getElem?_set_ne (fun e => hji e.symm)]
      by_cases hc : i + 1 ≤ j ∧ j < i + 1 + n
      · have : i ≤ j ∧ j < i + (n + 1) := by omega
        simp [hc, this]
      · have : ¬ (i ≤ j ∧ j < i + (n + 1)) := by omega
        simp [hc, this]

theorem fillAreas_full (n : Nat) :
    fillAreas n 0 (List.replicate n 0) = .ok ((List.range n).map Int.ofNat) := by
  obtain ⟨r, hr, hl, hj⟩ := fillAreas_spec n 0 (List.replicate n 0) (by simp)
  rw [hr]
  congr 1
  apply List.ext_getElem?
  intro j
  rw [hj j, List.getElem?_map]
  by_cases hc : j < n
  · simp [hc, List.getElem?_range hc]
  · have e1 : (List.replicate n (0 : Int))[j]? = none :=
      List.getElem?_eq_none (by simp; omega)
    have e2 : (List.range n)[j]? = none := List.getElem?_eq_none (by simp; omega)
    simp [hc, e1, e2]

theorem wallCount_nonneg (w h : Int) (hw : 1 ≤ w) (hh : 1 ≤ h) : 0 ≤ w * h * 2 - (w + h) := by
  have h1 : 0 ≤ (w - 1) * h := mul_nonneg (by omega) (by omega)
  have h2 : 0 ≤ w * (h - 1) := mul_nonneg (by omega) (by omega)
  have h3 : w * h * 2 - (w + h) = (w - 1) * h + w * (h - 1) := by ring
  omega

theorem cellCount_pos (w h : Int) (hw : 1 ≤ w) (hh : 1 ≤ h) : 1 ≤ w * h := by
  have : 0 < w * h := mul_pos (by omega) (by omega)
  omega

/-- Closed form of `NewMaze(w, h)` for `w, h ≥ 1`. -/
theorem NewMaze_eq (w h : Int) (hw : 1 ≤ w) (hh : 1 ≤ h) :
    NewMaze w h = .ok
      { Width := w, Height := h, Areas := (List.range (w * h).toNat).map Int.ofNat,
        Walls := List.replicate (w * h * 2 - (w + h)).toNat 0,
        Paths := List.replicate (w * h).toNat [] } := by
  have hc := cellCount_pos w h hw hh
  have hwc := wallCount_nonneg w h hw hh
  unfold NewMaze make
  have g1 : ¬ (w < 1 ∨ h < 1) := by omega
  have g2 : ¬ (w * h < 0) := by omega
  have g3 : ¬ (w * h * 2 - (w + h) < 0) := by omega
  simp only [g1, g2, g3, if_false, fillAreas_full]

theorem NewMaze_wf (w h : Int) (m : MazeData) (hm : NewMaze w h = .ok m) : WF w h m := by
  have hwh : 1 ≤ w ∧ 1 ≤ h := by
    by_contra hc
    have : w < 1 ∨ h < 1 := by omega
    simp [NewMaze, this] at hm
  obtain ⟨hw, hh⟩ := hwh
  have hc := cellCount_pos w h hw hh
  have hwc := wallCount_nonneg w h hw hh
  rw [NewMaze_eq w h hw hh] at hm
  have := Except.ok.inj hm
  subst this
  refine ⟨rfl, rfl, hw, hh, ?_, ?_, ?_, ?_⟩
  · simp; omega
  · simp; omega
  · simp; omega
  · intro a ha
    simp only [List.mem_map, List.mem_range] at ha
    obtain ⟨i, hi, rfl⟩ := ha
    simp only [Int.ofNat_eq_coe]
    omega

theorem merged_wf (w h : Int) (m : MazeData) (hwf : WF w h m) (wid cid1 cid2 aid1 aid2 : Int)
    (hs : MergeStep w h m wid cid1 cid2 aid1 aid2) : WF w h (merged m wid cid1 cid2 aid1 aid2) := by
  have m1 : aid1 ∈ m.Areas := List.getElem?_mem ((index_eq_ok _ _ _).mp hs.a1).2
  have m2 : aid2 ∈ m.Areas := List.getElem?_mem ((index_eq_ok _ _ _).mp hs.a2).2
  have b1 := hwf.labels _ m1
  have b2 := hwf.labels _ m2
  refine ⟨hwf.width, hwf.height, hwf.wpos, hwf.hpos, ?_, ?_, ?_, ?_⟩
  · simp [merged, hwf.areasLen]
  · simp [merged, hwf.wallsLen]
  · simp [merged, hwf.pathsLen]
  · intro a ha
    simp only [merged, List.mem_map] at ha
    obtain ⟨x, hx, rfl⟩ := ha
    unfold relabel
    by_cases hc : x = max aid1 aid2
    · simp only [hc, if_true]
      rcases min_choice aid1 aid2 with e | e <;> rw [e] <;> assumption
    · simp only [hc, if_false]
      exact hwf.labels _ hx

theorem Reach_wf (w h : Int) (m : MazeData) (hr : Reach w h m) : WF w h m := by
  induction hr with
  | init hm => exact NewMaze_wf w h _ hm
  | step _ h0 h1 hs ih =>
    rcases removeWall_cases w h _ _ ih _ h0 h1 hs with e | ⟨c1, c2, a1, a2, hms, e⟩
    · rw [e]; exact ih
    · rw [e]; exact merged_wf w h _ ih _ _ _ _ _ hms

/-- Induction over the reachable states: a property that holds of the state
`NewMaze` returns and that every merging `removeWall` call preserves holds of
every reachable state (the other `removeWall` calls do not change the state). -/
theorem Reach_induction (w h : Int) (P : MazeData → Prop)
    (hinit : ∀ m, NewMaze w h = .ok m → P m)
    (hmerge : ∀ m wid cid1 cid2 aid1 aid2, Reach w h m → WF w h m → P m →
      MergeStep w h m wid cid1 cid2 aid1 aid2 → P (merged m wid cid1 cid2 aid1 aid2))
    (m : MazeData) (hr : Reach w h m) : P m := by
  induction hr with
  | init hm => exact hinit _ hm
  | step hprev h0 h1 hs ih =>
    have hwf := Reach_wf w h _ hprev
    rcases removeWall_cases w h _ _ hwf _ h0 h1 hs with e | ⟨c1, c2, a1, a2, hms, e⟩
    · rw [e]; exact ih
    · rw [e]; exact hmerge _ _ _ _ _ _ hprev hwf ih hms

/-! ## Counting removed walls and partitions -/

theorem count_set_one (l : List Int) (i : Nat) (x : Int) (hx : l[i]? = some x) (hne : x ≠ 1) :
    (l.set i 1).count 1 = l.count 1 + 1 := by
  obtain ⟨hi, he⟩ := List.getElem?_eq_some.mp hx
  rw [List.count_set 1 1 l i hi, he]
  have : (x == 1) = false := by simpa using hne
  simp [this]

theorem toFinset_relabel (l : List Int) (hi lo : Int) (hlo : lo ∈ l)
    (hne : hi ≠ lo) : (l.map (relabel hi lo)).toFinset = l.toFinset.erase hi := by
  ext x
  simp only [List.mem_toFinset, List.mem_map, Finset.mem_erase]
  constructor
  · rintro ⟨y, hy, rfl⟩
    unfold relabel
    by_cases hc : y = hi
    · simp only [hc, if_true]
      exact ⟨fun e => hne e.symm, hlo⟩
    · simp only [hc, if_false]
      exact ⟨hc, hy⟩
  · rintro ⟨hx, hxl⟩
    exact ⟨x, hxl, by simp [relabel, hx]⟩

theorem max_ne_min (a b : Int) (h : a ≠ b) : max a b ≠ min a b := by
  rcases le_total a b with hab | hab
  · rw [max_eq_right hab, min_eq_left hab]; exact fun e => h e.symm
  · rw [max_eq_left hab, min_eq_right hab]; exact h

theorem max_mem_of (l : List Int) (a b : Int) (ha : a ∈ l) (hb : b ∈ l) : max a b ∈ l := by
  rcases max_choice a b with e | e <;> rw [e] <;> assumption

theorem min_mem_of (l : List Int) (a b : Int) (ha : a ∈ l) (hb : b ∈ l) : min a b ∈ l := by
  rcases min_choice a b with e | e <;> rw [e] <;> assumption

/-- In every reachable state the removed walls and the partitions together
number as many as the cells. -/
theorem Reach_count (w h : Int) (m : MazeData) (hr : Reach w h m) :
    removedCount m + labelCount m = (w * h).toNat := by
  refine Reach_induction w h (fun m => removedCount m + labelCount m = (w * h).toNat) ?_ ?_ m hr
  · intro m hm
    have hwf := NewMaze_wf w h m hm
    rw [NewMaze_eq w h hwf.wpos hwf.hpos] at hm
    have := Except.ok.inj hm
    subst this
    have hnd : ((List.range (w * h).toNat).map Int.ofNat).Nodup :=
      (List.nodup_range _).map (fun a b hab => by simpa using hab)
    simp only [removedCount, labelCount, List.toFinset_card_of_nodup hnd, List.length_map,
      List.length_range]
    rw [List.count_replicate]
    simp
  · intro m wid cid1 cid2 aid1 aid2 _ _ ih hs
    obtain ⟨wall, hwall, hne1⟩ := hs.present
    have m1 : aid1 ∈ m.Areas := List.getElem?_mem ((index_eq_ok _ _ _).mp hs.a1).2
    have m2 : aid2 ∈ m.Areas := List.getElem?_mem ((index_eq_ok _ _ _).mp hs.a2).2
    have hmax := max_mem_of _ _ _ m1 m2
    have e1 : removedCount (merged m wid cid1 cid2 aid1 aid2) = removedCount m + 1 :=
      count_set_one m.Walls wid.toNat wall ((index_eq_ok _ _ _).mp hwall).2 hne1
    have e2 : labelCount (merged m wid cid1 cid2 aid1 aid2) = labelCount m - 1 := by
      simp only [labelCount, merged]
      rw [toFinset_relabel _ _ _ (min_mem_of _ _ _ m1 m2) (max_ne_min _ _ hs.ne),
        Finset.card_erase_of_mem (List.mem_toFinset.mpr hmax)]
    have hpos : 0 < labelCount m := by
      unfold labelCount
      exact Finset.card_pos.mpr ⟨_, List.mem_toFinset.mpr hmax⟩
    simp only [] at ih ⊢
    omega

/-! ## `isAllSameArea` and the loop of `Build` -/

theorem isAllSameArea_eq (w h : Int) (m : MazeData) (hwf : WF w h m) :
    isAllSameArea m = .ok (decide (∀ x ∈ m.Areas, x = 0)) := by
  have hsz : (m.Width * m.Height).toNat = m.Areas.length := by
    rw [hwf.width, hwf.height, ← hwf.areasLen]
    simp
  unfold isAllSameArea
  rw [hsz, isAllSameAreaLoop_spec m.Areas m.Areas.length 0 (by omega)]
  simp

theorem Intn_eq_ok (rnd : Nat → Int) (k : Nat) (n wid : Int) (h : Intn rnd k n = .ok wid) :
    wid = rnd k := by
  unfold Intn at h
  by_cases hn : n ≤ 0
  · simp [hn] at h
  · simp only [hn, if_false] at h
    exact (Except.ok.inj h).symm

/-- The draw counter only grows. -/
theorem BuildLoop_draws_le (rnd : Nat → Int) (numWalls : Int) :
    ∀ (fuel : Nat) (m : MazeData) (counter : Int) (k : Nat) (r : Except Panic MazeData)
      (k1 : Nat), BuildLoop rnd numWalls fuel m counter k = some (r, k1) → k ≤ k1 := by
  intro fuel
  induction fuel with
  | zero => intro m counter k r k1 hb; simp [BuildLoop] at hb
  | succ fuel ih =>
    intro m counter k r k1 hb
    unfold BuildLoop at hb
    cases hsame : isAllSameArea m with
    | error e => simp [hsame] at hb; omega
    | ok b =>
      cases b with
      | true => simp [hsame] at hb; omega
      | false =>
        simp only [hsame] at hb
        cases hdraw : Intn rnd k numWalls with
        | error e => simp [hdraw] at hb; omega
        | ok wid =>
          simp only [hdraw] at hb
          cases hrm : removeWall m wid with
          | error e => simp [hrm] at hb; omega
          | ok m1 =>
            simp only [hrm] at hb
            by_cases hc : counter - 1 < 0
            · simp [hc] at hb; omega
            · simp only [hc, if_false] at hb
              have := ih _ _ _ _ _ hb
              omega

/-- A successful run of the loop of `Build` from a reachable state ends in a
reachable state on which `isAllSameArea` answers `true`. -/
theorem BuildLoop_ok (w h : Int) (rnd : Nat → Int) (numWalls : Int) :
    ∀ (fuel : Nat) (m : MazeData) (counter : Int) (k : Nat) (m1 : MazeData) (k1 : Nat),
      Reach w h m → BuildLoop rnd numWalls fuel m counter k = some (.ok m1, k1) →
      (∀ j, k ≤ j → j < k1 → 0 ≤ rnd j ∧ rnd j < w * h * 2 - (w + h)) →
      Reach w h m1 ∧ isAllSameArea m1 = .ok true := by
  intro fuel
  induction fuel with
  | zero => intro m counter k m1 k1 _ hb; simp [BuildLoop] at hb
  | succ fuel ih =>
    intro m counter k m1 k1 hr hb hrnd
    unfold BuildLoop at hb
    cases hsame : isAllSameArea m with
    | error e => simp [hsame] at hb
    | ok b =>
      cases b with
      | true =>
        simp only [hsame, Option.some.injEq, Prod.mk.injEq, Except.ok.injEq] at hb
        rw [← hb.1]
        exact ⟨hr, hsame⟩
      | false =>
        simp only [hsame] at hb
        cases hdraw : Intn rnd k numWalls with
        | error e => simp [hdraw] at hb
        | ok wid =>
          simp only [hdraw] at hb
          cases hrm : removeWall m wid with
          | error e => simp [hrm] at hb
          | ok m2 =>
            simp only [hrm] at hb
            by_cases hc : counter - 1 < 0
            · simp [hc] at hb
            · simp only [hc, if_false] at hb
              have hle := BuildLoop_draws_le rnd numWalls _ _ _ _ _ _ hb
              have hwid := Intn_eq_ok rnd k numWalls wid hdraw
              obtain ⟨r0, r1⟩ := hrnd k (le_refl k) (by omega)
              rw [← hwid] at r0 r1
              exact ih m2 (counter - 1) (k + 1) m1 k1 (Reach.step hr r0 r1 hrm) hb
                (fun j hj hj1 => hrnd j (by omega) hj1)

theorem Build_ok (w h : Int) (rnd : Nat → Int) (m0 m : MazeData) (k : Nat)
    (h0 : NewMaze w h = .ok m0) (hb : Build m0 rnd = some (.ok m, k))
    (hrnd : ∀ j, j < k → 0 ≤ rnd j ∧ rnd j < w * h * 2 - (w + h)) :
    Reach w h m ∧ ∀ x ∈ m.Areas, x = 0 := by
  unfold Build at hb
  obtain ⟨hr, hsame⟩ := BuildLoop_ok w h rnd _ _ m0 _ 0 m k (Reach.init h0) hb
    (fun j _ hj => hrnd j hj)
  refine ⟨hr, ?_⟩
  rw [isAllSameArea_eq w h m (Reach_wf w h m hr)] at hsame
  simpa using hsame

theorem labelCount_of_all_zero (w h : Int) (m : MazeData) (hwf : WF w h m)
    (hz : ∀ x ∈ m.Areas, x = 0) : labelCount m = 1 := by
  have hc := cellCount_pos w h hwf.wpos hwf.hpos
  have hlen : 0 < m.Areas.length := by
    have := hwf.areasLen
    omega
  have hmem : (0 : Int) ∈ m.Areas := by
    have := List.getElem_mem hlen
    rwa [hz _ this] at this
  have : m.Areas.toFinset = {0} := by
    ext x
    simp only [List.mem_toFinset, Finset.mem_singleton]
    exact ⟨hz x, fun e => e ▸ hmem⟩
  unfold labelCount
  rw [this]
  rfl

/-! ## Removed walls and linked cells -/

theorem index_map {α β : Type} (f : α → β) (xs : List α) (i : Int) :
    index (xs.map f) i = Except.map f (index xs i) := by
  unfold index
  by_cases hi : i < 0
  · simp [hi, Except.map]
  · simp only [hi, if_false, List.getElem?_map]
    cases xs[i.toNat]? <;> simp [Except.map]

theorem index_set_eq_ok {α : Type} (xs : List α) (i j : Int) (v x : α) (hi0 : 0 ≤ i)
    (hi1 : i < xs.length) :
    index (xs.set i.toNat v) j = .ok x ↔ (j = i ∧ x = v) ∨ (j ≠ i ∧ index xs j = .ok x) := by
  rw [index_eq_ok, index_eq_ok]
  by_cases hji : j = i
  · subst hji
    have : j.toNat < xs.length := by omega
    simp [List.getElem?_set, this, hi0, eq_comm]
  · constructor
    · rintro ⟨hj0, hj⟩
      have : i.toNat ≠ j.toNat := by omega
      rw [List.getElem?_set_ne this] at hj
      exact Or.inr ⟨hji, hj0, hj⟩
    · rintro (⟨e, _⟩ | ⟨_, hj0, hj⟩)
      · exact absurd e hji
      · have : i.toNat ≠ j.toNat := by omega
        rw [List.getElem?_set_ne this]
        exact ⟨hj0, hj⟩

theorem Removed_range (w h : Int) (m : MazeData) (hwf : WF w h m) (wid : Int)
    (hrem : Removed m wid) : 0 ≤ wid ∧ wid < w * h * 2 - (w + h) := by
  obtain ⟨h0, hg⟩ := (index_eq_ok _ _ _).mp hrem
  obtain ⟨hlt, _⟩ := List.getElem?_eq_some.mp hg
  have := hwf.wallsLen
  omega

theorem Linked_range (w h : Int) (m : MazeData) (hwf : WF w h m) (a b : Int)
    (hl : Linked m a b) : 0 ≤ a ∧ a < w * h ∧ 0 ≤ b ∧ b < w * h ∧ a ≠ b := by
  obtain ⟨wid, hrem, hg⟩ := hl
  obtain ⟨r0, r1⟩ := Removed_range w h m hwf wid hrem
  have hcc : cellCount m = w * h := by
    unfold cellCount
    rw [hwf.width, hwf.height]
  obtain ⟨c1, c2, hc, b0, b1, b2⟩ := getSeparatedCells_ok m wid
    (by rw [hwf.width]; exact hwf.wpos) r0
    (by unfold wallCount; rw [hwf.width, hwf.height]; exact r1)
  rw [hcc] at b2
  rw [hc] at hg
  simp only [Except.ok.injEq, Prod.mk.injEq] at hg
  omega

theorem Linked_symm (m : MazeData) (a b : Int) (hl : Linked m a b) : Linked m b a := by
  obtain ⟨wid, hrem, hg⟩ := hl
  exact ⟨wid, hrem, hg.symm⟩

theorem Connected_symm (m : MazeData) (a b : Int) (hc : Connected m a b) : Connected m b a := by
  unfold Connected at hc ⊢
  induction hc with
  | refl => exact Relation.ReflTransGen.refl
  | tail _ hl ih => exact Relation.ReflTransGen.head (Linked_symm m _ _ hl) ih

theorem Removed_merged (w h : Int) (m : MazeData) (hwf : WF w h m)
    (wid cid1 cid2 aid1 aid2 : Int) (hs : MergeStep w h m wid cid1 cid2 aid1 aid2) (wid1 : Int) :
    Removed (merged m wid cid1 cid2 aid1 aid2) wid1 ↔ Removed m wid1 ∨ wid1 = wid := by
  obtain ⟨wall, hwall, hne⟩ := hs.present
  unfold Removed
  show index (m.Walls.set wid.toNat 1) wid1 = .ok 1 ↔ _
  rw [index_set_eq_ok m.Walls wid wid1 1 1 hs.wid0 (by rw [hwf.wallsLen]; exact hs.wid1)]
  constructor
  · rintro (⟨e, _⟩ | ⟨_, hr⟩)
    · exact Or.inr e
    · exact Or.inl hr
  · rintro (hr | e)
    · by_cases hc : wid1 = wid
      · exact Or.inl ⟨hc, rfl⟩
      · exact Or.inr ⟨hc, hr⟩
    · exact Or.inl ⟨e, rfl⟩

theorem Linked_merged (w h : Int) (m : MazeData) (hwf : WF w h m)
    (wid cid1 cid2 aid1 aid2 : Int) (hs : MergeStep w h m wid cid1 cid2 aid1 aid2) (a b : Int) :
    Linked (merged m wid cid1 cid2 aid1 aid2) a b ↔
      Linked m a b ∨ (a = cid1 ∧ b = cid2) ∨ (a = cid2 ∧ b = cid1) := by
  have hg : ∀ x, getSeparatedCells (merged m wid cid1 cid2 aid1 aid2) x =
      getSeparatedCells m x := fun _ => rfl
  constructor
  · rintro ⟨wid1, hrem, hc⟩
    rw [hg] at hc
    rcases (Removed_merged w h m hwf wid cid1 cid2 aid1 aid2 hs wid1).mp hrem with hr | e
    · exact Or.inl ⟨wid1, hr, hc⟩
    · right
      rw [e, hs.cells] at hc
      simp only [Except.ok.injEq, Prod.mk.injEq] at hc
      rcases hc with ⟨e1, e2⟩ | ⟨e1, e2⟩
      · exact Or.inl ⟨e1.symm, e2.symm⟩
      · exact Or.inr ⟨e2.symm, e1.symm⟩
  · rintro (⟨wid1, hr, hc⟩ | ⟨e1, e2⟩ | ⟨e1, e2⟩)
    · exact ⟨wid1, (Removed_merged w h m hwf wid cid1 cid2 aid1 aid2 hs wid1).mpr (Or.inl hr),
        by rw [hg]; exact hc⟩
    · exact ⟨wid, (Removed_merged w h m hwf wid cid1 cid2 aid1 aid2 hs wid).mpr (Or.inr rfl),
        by rw [hg, e1, e2]; exact Or.inl hs.cells⟩
    · exact ⟨wid, (Removed_merged w h m hwf wid cid1 cid2 aid1 aid2 hs wid).mpr (Or.inr rfl),
        by rw [hg, e1, e2]; exact Or.inr hs.cells⟩

theorem NewMaze_not_removed (w h : Int) (m : MazeData) (hm : NewMaze w h = .ok m) (wid : Int) :
    ¬ Removed m wid := by
  have hwf := NewMaze_wf w h m hm
  rw [NewMaze_eq w h hwf.wpos hwf.hpos] at hm
  have := Except.ok.inj hm
  subst this
  intro hrem
  obtain ⟨_, hg⟩ := (index_eq_ok _ _ _).mp hrem
  have hmem := List.getElem?_mem hg
  simp at hmem

theorem NewMaze_not_linked (w h : Int) (m : MazeData) (hm : NewMaze w h = .ok m) (a b : Int) :
    ¬ Linked m a b := by
  rintro ⟨wid, hrem, _⟩
  exact NewMaze_not_removed w h m hm wid hrem

theorem NewMaze_label (w h : Int) (m : MazeData) (hm : NewMaze w h = .ok m) (a : Int)
    (h0 : 0 ≤ a) (h1 : a < w * h) : index m.Areas a = .ok a := by
  have hwf := NewMaze_wf w h m hm
  rw [NewMaze_eq w h hwf.wpos hwf.hpos] at hm
  have := Except.ok.inj hm
  subst this
  rw [index_eq_ok]
  refine ⟨h0, ?_⟩
  have hlt : a.toNat < (w * h).toNat := by omega
  simp only [List.getElem?_map, List.getElem?_range hlt, Option.map_some', Int.ofNat_eq_coe]
  congr 1
  omega

/-! ## Labels and connectivity -/

theorem relabel_eq_cases (hi lo x y : Int) (h : relabel hi lo x = relabel hi lo y)
    (hne : x ≠ y) : (x = hi ∧ y = lo) ∨ (x = lo ∧ y = hi) := by
  unfold relabel at h
  by_cases hx : x = hi <;> by_cases hy : y = hi <;>
    simp only [hx, hy, if_true, if_false] at h
  · exact absurd (hx.trans hy.symm) hne
  · exact Or.inl ⟨hx, h.symm⟩
  · exact Or.inr ⟨h, hy⟩
  · exact absurd h hne

theorem relabel_max_min_left (a b : Int) : relabel (max a b) (min a b) a = min a b := by
  unfold relabel
  rcases le_total a b with hab | hab
  · rw [max_eq_right hab, min_eq_left hab]
    by_cases e : a = b <;> simp [e]
  · rw [max_eq_left hab, min_eq_right hab]
    simp

theorem relabel_max_min_right (a b : Int) : relabel (max a b) (min a b) b = min a b := by
  unfold relabel
  rcases le_total a b with hab | hab
  · rw [max_eq_right hab, min_eq_left hab]
    simp
  · rw [max_eq_left hab, min_eq_right hab]
    by_cases e : b = a <;> simp [e]

theorem mem_pair_of_max_or_min (a b x : Int) (h : x = max a b ∨ x = min a b) :
    x = a ∨ x = b := by
  rcases h with e | e
  · rcases max_choice a b with e1 | e1 <;> rw [e1] at e
    · exact Or.inl e
    · exact Or.inr e
  · rcases min_choice a b with e1 | e1 <;> rw [e1] at e
    · exact Or.inl e
    · exact Or.inr e

/-- In every reachable state two cells carry the same label exactly when a chain
of removed walls connects them. -/
theorem Reach_connected (w h : Int) (m : MazeData) (hr : Reach w h m) :
    ∀ a b : Int, 0 ≤ a → a < w * h → 0 ≤ b → b < w * h →
      (index m.Areas a = index m.Areas b ↔ Connected m a b) := by
  refine Reach_induction w h (fun m => ∀ a b : Int, 0 ≤ a → a < w * h → 0 ≤ b → b < w * h →
      (index m.Areas a = index m.Areas b ↔ Connected m a b)) ?_ ?_ m hr
  · intro m hm a b a0 a1 b0 b1
    rw [NewMaze_label w h m hm a a0 a1, NewMaze_label w h m hm b b0 b1]
    constructor
    · intro e
      have := Except.ok.inj e
      subst this
      exact Relation.ReflTransGen.refl
    · intro hc
      rcases Relation.ReflTransGen.cases_head hc with e | ⟨c, hl, _⟩
      · rw [e]
      · exact absurd hl (NewMaze_not_linked w h m hm a c)
  · intro m wid cid1 cid2 aid1 aid2 _ hwf ih hs a b a0 a1 b0 b1
    have hc1 := hs.c1
    have hc2 := hs.c2
    have hc0 := hs.c0
    have hmono : ∀ u v, Connected m u v → Connected (merged m wid cid1 cid2 aid1 aid2) u v :=
      fun u v hc => Relation.ReflTransGen.mono
        (fun x y hl => (Linked_merged w h m hwf wid cid1 cid2 aid1 aid2 hs x y).mpr (Or.inl hl)) hc
    have hnew : Linked (merged m wid cid1 cid2 aid1 aid2) cid1 cid2 :=
      (Linked_merged w h m hwf wid cid1 cid2 aid1 aid2 hs cid1 cid2).mpr
        (Or.inr (Or.inl ⟨rfl, rfl⟩))
    have hlab : ∀ u, index (merged m wid cid1 cid2 aid1 aid2).Areas u =
        Except.map (relabel (max aid1 aid2) (min aid1 aid2)) (index m.Areas u) :=
      fun u => index_map _ _ _
    have hG : ∀ u x, 0 ≤ u → u < w * h → index m.Areas u = .ok x → (x = aid1 ∨ x = aid2) →
        Connected (merged m wid cid1 cid2 aid1 aid2) u cid1 := by
      intro u x u0 u1 hx hcase
      rcases hcase with e | e
      · exact hmono _ _ ((ih u cid1 u0 u1 hc0 (by omega)).mp (by rw [hx, hs.a1, e]))
      · have := hmono _ _ ((ih u cid2 u0 u1 (by omega) hc2).mp (by rw [hx, hs.a2, e]))
        exact Relation.ReflTransGen.tail this (Linked_symm _ _ _ hnew)
    have hback : ∀ u v, Connected (merged m wid cid1 cid2 aid1 aid2) u v →
        index (merged m wid cid1 cid2 aid1 aid2).Areas u =
          index (merged m wid cid1 cid2 aid1 aid2).Areas v := by
      intro u v hc
      unfold Connected at hc
      induction hc with
      | refl => rfl
      | tail _ hl ih2 =>
        rw [ih2]
        rcases (Linked_merged w h m hwf wid cid1 cid2 aid1 aid2 hs _ _).mp hl with
          hl0 | ⟨e1, e2⟩ | ⟨e1, e2⟩
        · obtain ⟨r0, r1, r2, r3, _⟩ := Linked_range w h m hwf _ _ hl0
          rw [hlab, hlab, (ih _ _ r0 r1 r2 r3).mpr (Relation.ReflTransGen.single hl0)]
        · rw [e1, e2, hlab, hlab, hs.a1, hs.a2]
          simp only [Except.map, relabel_max_min_left, relabel_max_min_right]
        · rw [e1, e2, hlab, hlab, hs.a1, hs.a2]
          simp only [Except.map, relabel_max_min_left, relabel_max_min_right]
    constructor
    · intro e
      obtain ⟨x, hx, _⟩ := getElem?_of_range m.Areas a _ hwf.areasLen a0 a1
      obtain ⟨y, hy, _⟩ := getElem?_of_range m.Areas b _ hwf.areasLen b0 b1
      have ix : index m.Areas a = .ok x := (index_eq_ok _ _ _).mpr ⟨a0, hx⟩
      have iy : index m.Areas b = .ok y := (index_eq_ok _ _ _).mpr ⟨b0, hy⟩
      rw [hlab, hlab, ix, iy] at e
      simp only [Except.map, Except.ok.injEq] at e
      by_cases hxy : x = y
      · exact hmono _ _ ((ih a b a0 a1 b0 b1).mp (by rw [ix, iy, hxy]))
      · have hcases := relabel_eq_cases _ _ x y e hxy
        have hx12 : x = aid1 ∨ x = aid2 :=
          mem_pair_of_max_or_min aid1 aid2 x (by rcases hcases with c | c
                                                 · exact Or.inl c.1
                                                 · exact Or.inr c.1)
        have hy12 : y = aid1 ∨ y = aid2 :=
          mem_pair_of_max_or_min aid1 aid2 y (by rcases hcases with c | c
                                                 · exact Or.inr c.2
                                                 · exact Or.inl c.2)
        exact Relation.ReflTransGen.trans (hG a x a0 a1 ix hx12)
          (Connected_symm _ _ _ (hG b y b0 b1 iy hy12))
    · exact hback a b

/-! ## Acyclicity -/

/-- Adding one edge between two vertices that were not connected keeps a graph
free of cycles. -/
theorem isAcyclic_of_add_edge {V : Type} (G G1 : SimpleGraph V) (a b : V) (hG : G.IsAcyclic)
    (hnr : ¬ G.Reachable a b) (hadj : ∀ x y, G1.Adj x y → G.Adj x y ∨ s(x, y) = s(a, b)) :
    G1.IsAcyclic := by
  intro v c hc
  by_cases he : s(a, b) ∈ c.edges
  · have hcyc : G1.Adj a b ∧ (G1 \ SimpleGraph.fromEdgeSet {s(a, b)}).Reachable a b :=
      SimpleGraph.adj_and_reachable_delete_edges_iff_exists_cycle.mpr ⟨v, c, hc, he⟩
    apply hnr
    refine hcyc.2.mono ?_
    intro x y hxy
    rw [SimpleGraph.sdiff_adj, SimpleGraph.fromEdgeSet_adj] at hxy
    rcases hadj x y hxy.1 with hg | hs
    · exact hg
    · exact absurd ⟨hs, hxy.1.ne⟩ hxy.2
  · have hall : ∀ e, e ∈ c.edges → e ∈ G.edgeSet := by
      intro e
      induction e using Sym2.ind with
      | _ x y =>
        intro hmem
        rcases hadj x y (c.adj_of_mem_edges hmem) with hg | hs
        · exact hg
        · rw [hs] at hmem
          exact absurd hmem he
    exact hG (c.transfer G hall) (hc.transfer hall)

theorem Connected_of_reachable (m : MazeData) (a b : Int)
    (hr : (cellGraph m).Reachable a b) : Connected m a b := by
  rw [SimpleGraph.reachable_iff_reflTransGen] at hr
  exact Relation.ReflTransGen.mono (fun _ _ hxy => hxy.2) hr

theorem reachable_of_Connected (w h : Int) (m : MazeData) (hwf : WF w h m) (a b : Int)
    (hc : Connected m a b) : (cellGraph m).Reachable a b := by
  rw [SimpleGraph.reachable_iff_reflTransGen]
  exact Relation.ReflTransGen.mono
    (fun x y hxy => ⟨(Linked_range w h m hwf x y hxy).2.2.2.2, hxy⟩) hc

/-- In every reachable state the removed walls form a forest on the cells. -/
theorem Reach_acyclic (w h : Int) (m : MazeData) (hr : Reach w h m) :
    (cellGraph m).IsAcyclic := by
  refine Reach_induction w h (fun m => (cellGraph m).IsAcyclic) ?_ ?_ m hr
  · intro m hm
    have : cellGraph m = ⊥ := by
      rw [eq_bot_iff]
      intro x y hxy
      exact absurd hxy.2 (NewMaze_not_linked w h m hm x y)
    rw [this]
    exact SimpleGraph.isAcyclic_bot
  · intro m wid cid1 cid2 aid1 aid2 hreach hwf ih hs
    have hc1 := hs.c1
    have hc2 := hs.c2
    have hc0 := hs.c0
    refine isAcyclic_of_add_edge (cellGraph m) _ cid1 cid2 ih ?_ ?_
    · intro hre
      have hconn := Connected_of_reachable m cid1 cid2 hre
      have := (Reach_connected w h m hreach cid1 cid2 hc0 (by omega) (by omega) hc2).mpr hconn
      rw [hs.a1, hs.a2] at this
      exact hs.ne (Except.ok.inj this)
    · intro x y hxy
      rcases (Linked_merged w h m hwf wid cid1 cid2 aid1 aid2 hs x y).mp hxy.2 with
        hl | ⟨e1, e2⟩ | ⟨e1, e2⟩
      · exact Or.inl ⟨hxy.1, hl⟩
      · right
        rw [e1, e2]
      · right
        rw [e1, e2]
        exact Sym2.eq_swap

/-! ## The path list -/

theorem not_removed_of_present (w h : Int) (m : MazeData) (wid cid1 cid2 aid1 aid2 : Int)
    (hs : MergeStep w h m wid cid1 cid2 aid1 aid2) : ¬ Removed m wid := by
  obtain ⟨wall, hwall, hne⟩ := hs.present
  intro hrem
  unfold Removed at hrem
  rw [hwall] at hrem
  exact hne (Except.ok.inj hrem)

/-- In every reachable state the entry `Paths[a]` of a cell `a` lists, without
repetition, exactly the cells `b` for which a removed wall separates `(a, b)`. -/
theorem Reach_paths (w h : Int) (m : MazeData) (hr : Reach w h m) :
    ∀ a : Int, 0 ≤ a → a < w * h → ∃ p : List Int, index m.Paths a = .ok p ∧ p.Nodup ∧
      ∀ b : Int, b ∈ p ↔ ∃ wid : Int, Removed m wid ∧ getSeparatedCells m wid = .ok (a, b) := by
  refine Reach_induction w h (fun m => ∀ a : Int, 0 ≤ a → a < w * h →
      ∃ p : List Int, index m.Paths a = .ok p ∧ p.Nodup ∧ ∀ b : Int, b ∈ p ↔
        ∃ wid : Int, Removed m wid ∧ getSeparatedCells m wid = .ok (a, b)) ?_ ?_ m hr
  · intro m hm a a0 a1
    have hnr := NewMaze_not_removed w h m hm
    have hwf := NewMaze_wf w h m hm
    obtain ⟨p, hp, hmem⟩ := getElem?_of_range m.Paths a _ hwf.pathsLen a0 a1
    rw [NewMaze_eq w h hwf.wpos hwf.hpos] at hm
    have := Except.ok.inj hm
    subst this
    have hnil : p = [] := (List.mem_replicate.mp hmem).2
    subst hnil
    refine ⟨[], (index_eq_ok _ _ _).mpr ⟨a0, hp⟩, List.nodup_nil, ?_⟩
    intro b
    constructor
    · intro hb
      simp at hb
    · rintro ⟨wid, hrem, _⟩
      exact absurd hrem (hnr wid)
  · intro m wid cid1 cid2 aid1 aid2 _ hwf ih hs a a0 a1
    have hc1 := hs.c1
    have hc2 := hs.c2
    have hc0 := hs.c0
    have hwpos : 1 ≤ m.Width := by rw [hwf.width]; exact hwf.wpos
    have hwc : wallCount m = w * h * 2 - (w + h) := by
      unfold wallCount
      rw [hwf.width, hwf.height]
    have hg : ∀ x, getSeparatedCells (merged m wid cid1 cid2 aid1 aid2) x =
        getSeparatedCells m x := fun _ => rfl
    have hrm := Removed_merged w h m hwf wid cid1 cid2 aid1 aid2 hs
    have hmin : min cid1 cid2 = cid1 := min_eq_left (le_of_lt hc1)
    have hmax : max cid1 cid2 = cid2 := max_eq_right (le_of_lt hc1)
    obtain ⟨p, hp, hnd, hmem⟩ := ih a a0 a1
    obtain ⟨p1, hp1, _, hmem1⟩ := ih cid1 hc0 (by omega)
    have hget1 : m.Paths[cid1.toNat]? = some p1 := ((index_eq_ok _ _ _).mp hp1).2
    have hpaths : (merged m wid cid1 cid2 aid1 aid2).Paths =
        m.Paths.set cid1.toNat (p1 ++ [cid2]) := by
      simp only [merged, hmin, hmax, hget1, Option.getD_some]
    have hlen : cid1 < m.Paths.length := by
      rw [hwf.pathsLen]
      omega
    by_cases hac : a = cid1
    · subst hac
      have e := Except.ok.inj (hp.symm.trans hp1)
      subst e
      refine ⟨p ++ [cid2], ?_, ?_, ?_⟩
      · rw [hpaths, index_set_eq_ok m.Paths a a _ _ hc0 hlen]
        exact Or.inl ⟨rfl, rfl⟩
      · refine List.Nodup.append hnd (List.nodup_singleton _) ?_
        intro x hx hx2
        rw [List.mem_singleton] at hx2
        subst hx2
        obtain ⟨wid1, hrem1, hg1⟩ := (hmem x).mp hx
        obtain ⟨r0, r1⟩ := Removed_range w h m hwf wid1 hrem1
        have := getSeparatedCells_inj m hwpos wid1 wid a x r0 (by rw [hwc]; exact r1)
          hs.wid0 (by rw [hwc]; exact hs.wid1) hg1 hs.cells
        rw [this] at hrem1
        exact not_removed_of_present w h m wid a x aid1 aid2 hs hrem1
      · intro b
        rw [List.mem_append, List.mem_singleton, hmem b]
        constructor
        · rintro (⟨wid1, hrem1, hg1⟩ | e)
          · exact ⟨wid1, (hrm wid1).mpr (Or.inl hrem1), by rw [hg]; exact hg1⟩
          · exact ⟨wid, (hrm wid).mpr (Or.inr rfl), by rw [hg, e]; exact hs.cells⟩
        · rintro ⟨wid1, hrem1, hg1⟩
          rw [hg] at hg1
          rcases (hrm wid1).mp hrem1 with hr0 | e
          · exact Or.inl ⟨wid1, hr0, hg1⟩
          · right
            rw [e, hs.cells] at hg1
            simp only [Except.ok.injEq, Prod.mk.injEq] at hg1
            exact hg1.2.symm
    · refine ⟨p, ?_, hnd, ?_⟩
      · rw [hpaths, index_set_eq_ok m.Paths cid1 a _ _ hc0 hlen]
        exact Or.inr ⟨hac, hp⟩
      · intro b
        rw [hmem b]
        constructor
        · rintro ⟨wid1, hrem1, hg1⟩
          exact ⟨wid1, (hrm wid1).mpr (Or.inl hrem1), by rw [hg]; exact hg1⟩
        · rintro ⟨wid1, hrem1, hg1⟩
          rw [hg] at hg1
          rcases (hrm wid1).mp hrem1 with hr0 | e
          · exact ⟨wid1, hr0, hg1⟩
          · rw [e, hs.cells] at hg1
            simp only [Except.ok.injEq, Prod.mk.injEq] at hg1
            exact absurd hg1.1.symm hac

/-! ## `Build` always halts -/

theorem BuildLoop_fuel (rnd : Nat → Int) (numWalls : Int) :
    ∀ (fuel : Nat) (m : MazeData) (counter : Int) (k : Nat),
      (counter + 1).toNat + 1 ≤ fuel → BuildLoop rnd numWalls fuel m counter k ≠ none := by
  intro fuel
  induction fuel with
  | zero => intro m counter k hf; omega
  | succ fuel ih =>
    intro m counter k hf
    unfold BuildLoop
    cases hsame : isAllSameArea m with
    | error e => simp
    | ok b =>
      cases b with
      | true => simp
      | false =>
        simp only []
        cases hdraw : Intn rnd k numWalls with
        | error e => simp
        | ok wid =>
          simp only []
          cases hrm : removeWall m wid with
          | error e => simp
          | ok m1 =>
            simp only []
            by_cases hc : counter - 1 < 0
            · simp [hc]
            · simp only [hc, if_false]
              exact ih m1 (counter - 1) (k + 1) (by omega)

/-- The fuel that `Build` supplies never runs out: on every maze and every
random source `Build` halts, with a result or with a panic. -/
theorem Build_fuel_suffices (m : MazeData) (rnd : Nat → Int) : Build m rnd ≠ none :=
  BuildLoop_fuel rnd _ _ m _ 0 (le_refl _)

/-! ## The maze that `Build` returns -/

/-- C1: if `Build` returns successfully on the maze made by `NewMaze(w, h)` (which
exists exactly for `w, h ≥ 1`), with every drawn wall index in `[0, wallCount)`,
then the number of walls marked removed is exactly `w*h - 1`. -/
theorem Build_removedCount (w h : Int) (rnd : Nat → Int) (m0 m : MazeData) (k : Nat)
    (h0 : NewMaze w h = .ok m0) (hb : Build m0 rnd = some (.ok m, k))
    (hrnd : ∀ j, j < k → 0 ≤ rnd j ∧ rnd j < w * h * 2 - (w + h)) :
    (removedCount m : Int) = w * h - 1 := by
  obtain ⟨hr, hz⟩ := Build_ok w h rnd m0 m k h0 hb hrnd
  have hwf := Reach_wf w h m hr
  have hcnt := Reach_count w h m hr
  have hc := cellCount_pos w h hwf.wpos hwf.hpos
  rw [labelCount_of_all_zero w h m hwf hz] at hcnt
  omega

theorem Build_removedCount_witness :
    Build ⟨2, 2, [0, 1, 2, 3], [0, 0, 0, 0], [[], [], [], []]⟩ (fun k => [0, 0, 2, 1].getD k 0) =
        some (.ok ⟨2, 2, [0, 0, 0, 0], [1, 1, 1, 0], [[1, 2], [], [3], []]⟩, 4) ∧
      (removedCount ⟨2, 2, [0, 0, 0, 0], [1, 1, 1, 0], [[1, 2], [], [3], []]⟩ : Int) = 2 * 2 - 1 :=
  ⟨by decide, Build_removedCount 2 2 (fun k => [0, 0, 2, 1].getD k 0)
    ⟨2, 2, [0, 1, 2, 3], [0, 0, 0, 0], [[], [], [], []]⟩
    ⟨2, 2, [0, 0, 0, 0], [1, 1, 1, 0], [[1, 2], [], [3], []]⟩ 4 (by decide) (by decide) (by decide)⟩

/-- C2: if `Build` returns successfully on the maze made by `NewMaze(w, h)`, with
every drawn wall index in range, then every cell in `[0, w*h)` is reachable from
cell 0 by a chain of cells in which each consecutive pair is the pair that
`getSeparatedCells` returns (in either order) for some removed wall. -/
theorem Build_connected (w h : Int) (rnd : Nat → Int) (m0 m : MazeData) (k : Nat)
    (h0 : NewMaze w h = .ok m0) (hb : Build m0 rnd = some (.ok m, k))
    (hrnd : ∀ j, j < k → 0 ≤ rnd j ∧ rnd j < w * h * 2 - (w + h)) :
    ∀ c : Int, 0 ≤ c → c < w * h → Connected m 0 c := by
  intro c c0 c1
  obtain ⟨hr, hz⟩ := Build_ok w h rnd m0 m k h0 hb hrnd
  have hwf := Reach_wf w h m hr
  have hc := cellCount_pos w h hwf.wpos hwf.hpos
  refine (Reach_connected w h m hr 0 c (le_refl 0) (by omega) c0 c1).mp ?_
  obtain ⟨x, hx, hxm⟩ := getElem?_of_range m.Areas 0 _ hwf.areasLen (le_refl 0) (by omega)
  obtain ⟨y, hy, hym⟩ := getElem?_of_range m.Areas c _ hwf.areasLen c0 c1
  rw [(index_eq_ok _ _ _).mpr ⟨le_refl 0, hx⟩, (index_eq_ok _ _ _).mpr ⟨c0, hy⟩, hz x hxm,
    hz y hym]

theorem Build_connected_witness :
    Connected ⟨2, 2, [0, 0, 0, 0], [1, 1, 1, 0], [[1, 2], [], [3], []]⟩ 0 3 :=
  Build_connected 2 2 (fun k => [0, 0, 2, 1].getD k 0)
    ⟨2, 2, [0, 1, 2, 3], [0, 0, 0, 0], [[], [], [], []]⟩
    ⟨2, 2, [0, 0, 0, 0], [1, 1, 1, 0], [[1, 2], [], [3], []]⟩ 4 (by decide) (by decide)
    (by decide) 3 (by decide) (by decide)

/-- C3: if `Build` returns successfully on the maze made by `NewMaze(w, h)`, with
every drawn wall index in range, then the graph on the cells whose edges are the
cell pairs of the removed walls contains no cycle, and between any two cells
there is exactly one simple path: the removed walls form a spanning tree. -/
theorem Build_spanning_tree (w h : Int) (rnd : Nat → Int) (m0 m : MazeData) (k : Nat)
    (h0 : NewMaze w h = .ok m0) (hb : Build m0 rnd = some (.ok m, k))
    (hrnd : ∀ j, j < k → 0 ≤ rnd j ∧ rnd j < w * h * 2 - (w + h)) :
    (cellGraph m).IsAcyclic ∧
      ∀ a b : Int, 0 ≤ a → a < w * h → 0 ≤ b → b < w * h →
        ∃! p : (cellGraph m).Walk a b, p.IsPath := by
  obtain ⟨hr, hz⟩ := Build_ok w h rnd m0 m k h0 hb hrnd
  have hwf := Reach_wf w h m hr
  have hacyc := Reach_acyclic w h m hr
  refine ⟨hacyc, ?_⟩
  intro a b a0 a1 b0 b1
  have hconn : Connected m a b := by
    refine (Reach_connected w h m hr a b a0 a1 b0 b1).mp ?_
    obtain ⟨x, hx, hxm⟩ := getElem?_of_range m.Areas a _ hwf.areasLen a0 a1
    obtain ⟨y, hy, hym⟩ := getElem?_of_range m.Areas b _ hwf.areasLen b0 b1
    rw [(index_eq_ok _ _ _).mpr ⟨a0, hx⟩, (index_eq_ok _ _ _).mpr ⟨b0, hy⟩, hz x hxm, hz y hym]
  obtain ⟨walk⟩ := reachable_of_Connected w h m hwf a b hconn
  refine ⟨walk.toPath.1, walk.toPath.2, ?_⟩
  intro q hq
  exact congrArg Subtype.val (hacyc.path_unique ⟨q, hq⟩ walk.toPath)

theorem Build_spanning_tree_witness :
    (cellGraph ⟨2, 2, [0, 0, 0, 0], [1, 1, 1, 0], [[1, 2], [], [3], []]⟩).IsAcyclic ∧
      ∃! p : (cellGraph ⟨2, 2, [0, 0, 0, 0], [1, 1, 1, 0], [[1, 2], [], [3], []]⟩).Walk 1 2,
        p.IsPath :=
  have key := Build_spanning_tree 2 2 (fun k => [0, 0, 2, 1].getD k 0)
    ⟨2, 2, [0, 1, 2, 3], [0, 0, 0, 0], [[], [], [], []]⟩
    ⟨2, 2, [0, 0, 0, 0], [1, 1, 1, 0], [[1, 2], [], [3], []]⟩ 4 (by decide) (by decide)
    (by decide)
  ⟨key.1, key.2 1 2 (by decide) (by decide) (by decide) (by decide)⟩

/-! ## The invariants of the reachable states -/

/-- A state reached from `NewMaze(2, 2)` by `removeWall(0)`. -/
theorem Reach_example :
    Reach 2 2 ⟨2, 2, [0, 0, 2, 3], [1, 0, 0, 0], [[1], [], [], []]⟩ :=
  @Reach.step 2 2 ⟨2, 2, [0, 1, 2, 3], [0, 0, 0, 0], [[], [], [], []]⟩
    ⟨2, 2, [0, 0, 2, 3], [1, 0, 0, 0], [[1], [], [], []]⟩ 0
    (Reach.init (by decide)) (by decide) (by decide) (by decide)

/-- C4: in every maze state reachable from `NewMaze(w, h)` by `removeWall` calls
with wall indices in range, two cells `a` and `b` have labels, and
`Areas[a] == Areas[b]` if and only if `a` and `b` are connected by a chain of
removed walls. -/
theorem label_eq_iff_connected (w h : Int) (m : MazeData) (hr : Reach w h m) (a b : Int)
    (a0 : 0 ≤ a) (a1 : a < w * h) (b0 : 0 ≤ b) (b1 : b < w * h) :
    ∃ la lb : Int, index m.Areas a = .ok la ∧ index m.Areas b = .ok lb ∧
      (la = lb ↔ Connected m a b) := by
  have hwf := Reach_wf w h m hr
  obtain ⟨x, hx, _⟩ := getElem?_of_range m.Areas a _ hwf.areasLen a0 a1
  obtain ⟨y, hy, _⟩ := getElem?_of_range m.Areas b _ hwf.areasLen b0 b1
  have ix : index m.Areas a = .ok x := (index_eq_ok _ _ _).mpr ⟨a0, hx⟩
  have iy : index m.Areas b = .ok y := (index_eq_ok _ _ _).mpr ⟨b0, hy⟩
  refine ⟨x, y, ix, iy, ?_⟩
  rw [← Reach_connected w h m hr a b a0 a1 b0 b1, ix, iy]
  exact ⟨fun e => by rw [e], fun e => Except.ok.inj e⟩

theorem label_eq_iff_connected_witness :
    ∃ la lb : Int,
      index (MazeData.mk 2 2 [0, 0, 2, 3] [1, 0, 0, 0] [[1], [], [], []]).Areas 0 = .ok la ∧
      index (MazeData.mk 2 2 [0, 0, 2, 3] [1, 0, 0, 0] [[1], [], [], []]).Areas 1 = .ok lb ∧
      (la = lb ↔ Connected ⟨2, 2, [0, 0, 2, 3], [1, 0, 0, 0], [[1], [], [], []]⟩ 0 1) :=
  label_eq_iff_connected 2 2 _ Reach_example 0 1 (by decide) (by decide) (by decide) (by decide)

/-- C5: in a reachable state, for a wall index in range, if the wall is already
removed, or the two cells that `getSeparatedCells` returns carry the same label,
then `removeWall` returns the state unchanged: `Areas`, `Walls` and `Paths` are
all as before, no merge is performed. -/
theorem removeWall_noop (w h : Int) (m : MazeData) (hr : Reach w h m) (wid : Int)
    (h0 : 0 ≤ wid) (h1 : wid < w * h * 2 - (w + h))
    (hcase : Removed m wid ∨ ∃ a b : Int, getSeparatedCells m wid = .ok (a, b) ∧
      index m.Areas a = index m.Areas b) :
    removeWall m wid = .ok m := by
  obtain ⟨wall, cid1, cid2, aid1, aid2, iw, hg, _, _, _, i1, i2, hrw⟩ :=
    removeWall_eq w h m (Reach_wf w h m hr) wid h0 h1
  rw [hrw]
  have hc : wall = 1 ∨ aid1 = aid2 := by
    rcases hcase with hrem | ⟨a, b, hab, hl⟩
    · unfold Removed at hrem
      rw [iw] at hrem
      exact Or.inl (Except.ok.inj hrem)
    · rw [hg] at hab
      simp only [Except.ok.injEq, Prod.mk.injEq] at hab
      rw [← hab.1, ← hab.2, i1, i2] at hl
      exact Or.inr (Except.ok.inj hl)
  rw [if_pos hc]

theorem removeWall_noop_witness :
    removeWall ⟨2, 2, [0, 0, 2, 3], [1, 0, 0, 0], [[1], [], [], []]⟩ 0 =
      .ok ⟨2, 2, [0, 0, 2, 3], [1, 0, 0, 0], [[1], [], [], []]⟩ :=
  removeWall_noop 2 2 _ Reach_example 0 (by decide) (by decide) (Or.inl (by decide))

/-- C6: in a reachable state, for a wall index `wid` in range whose wall is not
removed and whose two cells `(a, b) = getSeparatedCells(wid)` carry different
labels `la` and `lb`, `removeWall(wid)` returns the state in which `Walls`
differs from before only at `wid`, which is now 1; every cell that carried
`max la lb` now carries `min la lb` and every other label is unchanged; and
`max a b` is appended to the end of `Paths[min a b]`, every other entry of
`Paths` being unchanged.  The dimensions stay as they were. -/
theorem removeWall_merge (w h : Int) (m : MazeData) (hr : Reach w h m) (wid a b la lb : Int)
    (h0 : 0 ≤ wid) (h1 : wid < w * h * 2 - (w + h)) (hpres : ¬ Removed m wid)
    (hcells : getSeparatedCells m wid = .ok (a, b)) (hla : index m.Areas a = .ok la)
    (hlb : index m.Areas b = .ok lb) (hne : la ≠ lb) :
    ∃ (m1 : MazeData) (p : List Int), removeWall m wid = .ok m1 ∧
      m1.Width = m.Width ∧ m1.Height = m.Height ∧
      m1.Walls = m.Walls.set wid.toNat 1 ∧
      m1.Areas = m.Areas.map (fun x => if x = max la lb then min la lb else x) ∧
      index m.Paths (min a b) = .ok p ∧
      m1.Paths = m.Paths.set (min a b).toNat (p ++ [max a b]) := by
  have hwf := Reach_wf w h m hr
  obtain ⟨wall, cid1, cid2, aid1, aid2, iw, hg, c0, c1, c2, i1, i2, hrw⟩ :=
    removeWall_eq w h m hwf wid h0 h1
  rw [hg] at hcells
  simp only [Except.ok.injEq, Prod.mk.injEq] at hcells
  obtain ⟨e1, e2⟩ := hcells
  subst e1 e2
  have ea := Except.ok.inj (i1.symm.trans hla)
  have eb := Except.ok.inj (i2.symm.trans hlb)
  subst ea eb
  have hc : ¬ (wall = 1 ∨ aid1 = aid2) := by
    rintro (e | e)
    · exact hpres (by unfold Removed; rw [iw, e])
    · exact hne e
  rw [if_neg hc] at hrw
  have hmin : min cid1 cid2 = cid1 := min_eq_left (le_of_lt c1)
  obtain ⟨p, hp, _⟩ := getElem?_of_range m.Paths cid1 _ hwf.pathsLen c0 (by omega)
  refine ⟨merged m wid cid1 cid2 aid1 aid2, p, hrw, rfl, rfl, rfl, rfl, ?_, ?_⟩
  · rw [hmin]
    exact (index_eq_ok _ _ _).mpr ⟨c0, hp⟩
  · simp only [merged, hmin, hp, Option.getD_some]

theorem removeWall_merge_witness :
    ∃ (m1 : MazeData) (p : List Int),
      removeWall ⟨2, 2, [0, 0, 2, 3], [1, 0, 0, 0], [[1], [], [], []]⟩ 2 = .ok m1 ∧
      m1.Width = 2 ∧ m1.Height = 2 ∧
      m1.Walls = [1, 0, 0, 0].set (2 : Int).toNat 1 ∧
      m1.Areas = [0, 0, 2, 3].map (fun x => if x = max 0 2 then min 0 2 else x) ∧
      index [[1], [], [], []] (min 0 2) = .ok p ∧
      m1.Paths = [[1], [], [], []].set (min (0 : Int) 2).toNat (p ++ [max 0 2]) :=
  removeWall_merge 2 2 _ Reach_example 2 0 2 0 2 (by decide) (by decide) (by decide) (by decide)
    (by decide) (by decide) (by decide)

/-- C7: in every reachable state the path list, viewed as an edge set, is exactly
the set of removed walls: for every cell `a` the entry `Paths[a]` exists, holds
no cell twice, holds only cells `b` in range with `a < b`, and holds `b` if and
only if some removed wall `wid` has `getSeparatedCells(wid) = (a, b)`. -/
theorem paths_eq_removed_walls (w h : Int) (m : MazeData) (hr : Reach w h m) (a : Int)
    (a0 : 0 ≤ a) (a1 : a < w * h) :
    ∃ p : List Int, index m.Paths a = .ok p ∧ p.Nodup ∧
      (∀ b : Int, b ∈ p → a < b ∧ b < w * h) ∧
      ∀ b : Int, b ∈ p ↔
        ∃ wid : Int, Removed m wid ∧ getSeparatedCells m wid = .ok (a, b) := by
  have hwf := Reach_wf w h m hr
  obtain ⟨p, hp, hnd, hmem⟩ := Reach_paths w h m hr a a0 a1
  refine ⟨p, hp, hnd, ?_, hmem⟩
  intro b hb
  obtain ⟨wid, hrem, hg⟩ := (hmem b).mp hb
  obtain ⟨r0, r1⟩ := Removed_range w h m hwf wid hrem
  obtain ⟨c1, c2, hc, _, b1, b2⟩ := getSeparatedCells_ok m wid
    (by rw [hwf.width]; exact hwf.wpos) r0
    (by unfold wallCount; rw [hwf.width, hwf.height]; exact r1)
  unfold cellCount at b2
  rw [hwf.width, hwf.height] at b2
  rw [hc] at hg
  simp only [Except.ok.injEq, Prod.mk.injEq] at hg
  omega

theorem paths_eq_removed_walls_witness :
    ∃ p : List Int,
      index (MazeData.mk 2 2 [0, 0, 2, 3] [1, 0, 0, 0] [[1], [], [], []]).Paths 0 = .ok p ∧
      p.Nodup ∧ (∀ b : Int, b ∈ p → 0 < b ∧ b < 2 * 2) ∧
      ∀ b : Int, b ∈ p ↔
        ∃ wid : Int, Removed ⟨2, 2, [0, 0, 2, 3], [1, 0, 0, 0], [[1], [], [], []]⟩ wid ∧
          getSeparatedCells ⟨2, 2, [0, 0, 2, 3], [1, 0, 0, 0], [[1], [], [], []]⟩ wid =
            .ok (0, b) :=
  paths_eq_removed_walls 2 2 _ Reach_example 0 (by decide) (by decide)

/-! ## The geometry of the walls -/

/-- Over the integers (see `getSeparatedCells64_adjacent` for the program on
64-bit integers): for `Width, Height ≥ 1` and a wall index `wid` in
`[0, wallCount)`, `getSeparatedCells(wid)` returns two distinct cells `(cid1, cid2)`, both in
`[0, Width*Height)`, that are adjacent in the grid: for
`wid < (Width-1)*Height` they lie in the same row with `cid2 = cid1 + 1` and
`cid1` not in the last column, and otherwise they lie in the same column with
`cid2 = cid1 + Width`. -/
theorem getSeparatedCells_adjacent (m : MazeData) (hw : 1 ≤ m.Width) (hh : 1 ≤ m.Height)
    (wid : Int) (h0 : 0 ≤ wid) (h1 : wid < wallCount m) :
    ∃ cid1 cid2 : Int, getSeparatedCells m wid = .ok (cid1, cid2) ∧ cid1 ≠ cid2 ∧
      0 ≤ cid1 ∧ cid1 < cellCount m ∧ 0 ≤ cid2 ∧ cid2 < cellCount m ∧
      (wid < (m.Width - 1) * m.Height →
        cid2 = cid1 + 1 ∧ cid1 / m.Width = cid2 / m.Width ∧ cid1 % m.Width ≠ m.Width - 1) ∧
      (¬ wid < (m.Width - 1) * m.Height →
        cid2 = cid1 + m.Width ∧ cid1 % m.Width = cid2 % m.Width) := by
  have hpos : 1 ≤ cellCount m := cellCount_pos m.Width m.Height hw hh
  obtain ⟨c1, c2, hg, b0, b1, b2⟩ := getSeparatedCells_ok m wid hw h0 h1
  refine ⟨c1, c2, hg, by omega, b0, by omega, by omega, b2, ?_, ?_⟩
  · intro hv
    rcases getSeparatedCells_shape m wid hw h0 h1 with ⟨_, row, col, _, _, k0, k1, _, hs⟩ |
      ⟨hge, _⟩
    · rw [hg] at hs
      simp only [Except.ok.injEq, Prod.mk.injEq] at hs
      obtain ⟨e1, e2⟩ := hs
      have d1 := add_mul_div_mod m.Width row col k0 (by omega)
      have d2 := add_mul_div_mod m.Width row (col + 1) (by omega) (by omega)
      have e3 : c2 = col + 1 + row * m.Width := by omega
      rw [e1, e3, d1.1, d1.2, d2.1]
      exact ⟨by omega, rfl, by omega⟩
    · omega
  · intro hv
    rcases getSeparatedCells_shape m wid hw h0 h1 with ⟨hlt, _⟩ | ⟨_, hs⟩
    · exact absurd hlt hv
    · rw [hg] at hs
      simp only [Except.ok.injEq, Prod.mk.injEq] at hs
      obtain ⟨e1, e2⟩ := hs
      refine ⟨by omega, ?_⟩
      rw [e2, ← e1, Int.add_emod_self]

/-- C9: for `Width ≥ 1` (and any `Height`: for `Height < 1` no wall index is in
range), `getSeparatedCells` is injective on `[0, wallCount)` up to order: two
wall indices in range whose pairs of cells are the same, in the same or in the
opposite order, are equal. -/
theorem getSeparatedCells_injective (m : MazeData) (hw : 1 ≤ m.Width)
    (wid1 wid2 a b c d : Int) (h10 : 0 ≤ wid1) (h11 : wid1 < wallCount m) (h20 : 0 ≤ wid2)
    (h21 : wid2 < wallCount m) (e1 : getSeparatedCells m wid1 = .ok (a, b))
    (e2 : getSeparatedCells m wid2 = .ok (c, d))
    (hpair : (a = c ∧ b = d) ∨ (a = d ∧ b = c)) : wid1 = wid2 := by
  rcases hpair with ⟨hac, hbd⟩ | ⟨had, hbc⟩
  · subst hac hbd
    exact getSeparatedCells_inj m hw wid1 wid2 a b h10 h11 h20 h21 e1 e2
  · obtain ⟨x1, y1, g1, _, lt1, _⟩ := getSeparatedCells_ok m wid1 hw h10 h11
    obtain ⟨x2, y2, g2, _, lt2, _⟩ := getSeparatedCells_ok m wid2 hw h20 h21
    rw [e1] at g1
    rw [e2] at g2
    simp only [Except.ok.injEq, Prod.mk.injEq] at g1 g2
    omega

theorem getSeparatedCells_injective_witness : (5 : Int) = 5 :=
  getSeparatedCells_injective ⟨3, 2, [], [], []⟩ (by decide) 5 5 1 4 1 4
    (by decide) (by decide) (by decide) (by decide) (by decide) (by decide)
    (Or.inl ⟨rfl, rfl⟩)

/-- Over the integers (see `getSeparatedCells64_panics_iff` for the program on
64-bit integers): for `Width, Height ≥ 1` and every integer `wid`,
`getSeparatedCells(wid)` panics if and only if `wid < 0` or `wid ≥ wallCount`; the panic is never a
division by zero (in particular not when `Width = 1`). -/
theorem getSeparatedCells_panics_iff (m : MazeData) (hw : 1 ≤ m.Width) (hh : 1 ≤ m.Height)
    (wid : Int) :
    ((∃ e : Panic, getSeparatedCells m wid = .error e) ↔ (wid < 0 ∨ wallCount m ≤ wid)) ∧
      getSeparatedCells m wid ≠ .error .divideByZero := by
  by_cases hneg : wid < 0
  · have hg : getSeparatedCells m wid = .error .widMinus := by
      unfold getSeparatedCells
      simp only [hneg, if_true]
    rw [hg]
    exact ⟨⟨fun _ => Or.inl hneg, fun _ => ⟨_, rfl⟩⟩, by simp⟩
  · by_cases hlt : wid < wallCount m
    · obtain ⟨c1, c2, hg, _⟩ := getSeparatedCells_ok m wid hw (not_lt.mp hneg) hlt
      rw [hg]
      refine ⟨⟨?_, ?_⟩, by simp⟩
      · rintro ⟨e, he⟩
        simp at he
      · intro hc
        omega
    · have hv := vertical_le_wallCount m hw hh
      have hlt1 : ¬ wid < (m.Width - 1) * m.Height := by omega
      have hg : getSeparatedCells m wid = .error .widTooLarge := by
        unfold wallCount at hlt
        unfold getSeparatedCells
        simp only [hneg, hlt1, hlt, if_false]
      rw [hg]
      exact ⟨⟨fun _ => Or.inr (not_lt.mp hlt), fun _ => ⟨_, rfl⟩⟩, by simp⟩

/-! ## `NewMaze`: failure and result -/

/-- Over the integers (see `NewMaze64_panics_iff` for the program on 64-bit
integers): for all integers `w` and `h`, `NewMaze(w, h)` panics if and only if
`w < 1` or `h < 1`, and then with its own panic, raised before any slice is
made; in particular `NewMaze(0, 5)` and `NewMaze(5, -1)` both fail. -/
theorem NewMaze_panics_iff (w h : Int) :
    ((∃ e : Panic, NewMaze w h = .error e) ↔ (w < 1 ∨ h < 1)) ∧
      ((w < 1 ∨ h < 1) → NewMaze w h = .error .tooSmall) ∧
      NewMaze 0 5 = .error .tooSmall ∧ NewMaze 5 (-1) = .error .tooSmall := by
  have hsmall : (w < 1 ∨ h < 1) → NewMaze w h = .error .tooSmall := by
    intro hc
    unfold NewMaze
    rw [if_pos hc]
  refine ⟨⟨?_, fun hc => ⟨_, hsmall hc⟩⟩, hsmall, by decide, by decide⟩
  rintro ⟨e, he⟩
  by_contra hc
  rw [NewMaze_eq w h (by omega) (by omega)] at he
  simp at he

/-- Over the integers (see `NewMaze64_result` for the program on 64-bit
integers): for `w, h ≥ 1`, `NewMaze(w, h)` returns a maze with `Width = w`,
`Height = h`, `Areas` of length `w*h` with `Areas[i] = i` for every `i`, `Walls`
of length `w*h*2 - (w+h)` with every wall present (0), and `Paths` of length
`w*h` with every entry empty. -/
theorem NewMaze_result (w h : Int) (hw : 1 ≤ w) (hh : 1 ≤ h) :
    ∃ m : MazeData, NewMaze w h = .ok m ∧ m.Width = w ∧ m.Height = h ∧
      (m.Areas.length : Int) = w * h ∧
      (∀ i : Int, 0 ≤ i → i < w * h → index m.Areas i = .ok i) ∧
      (m.Walls.length : Int) = w * h * 2 - (w + h) ∧ (∀ x ∈ m.Walls, x = 0) ∧
      (m.Paths.length : Int) = w * h ∧ (∀ p ∈ m.Paths, p = []) := by
  have hm := NewMaze_eq w h hw hh
  have hwf := NewMaze_wf w h _ hm
  refine ⟨_, hm, rfl, rfl, hwf.areasLen, fun i i0 i1 => NewMaze_label w h _ hm i i0 i1,
    hwf.wallsLen, ?_, hwf.pathsLen, ?_⟩
  · intro x hx
    exact (List.mem_replicate.mp hx).2
  · intro p hp
    exact (List.mem_replicate.mp hp).2

/-- C15: for `w = 1` and `h = 1`, `NewMaze` gives a maze without walls
(`wallCount = 0`), and `Build` returns successfully at once, whatever the random
source, having made no draw; it leaves zero removed walls and an empty path
list. -/
theorem Build_one_by_one (rnd : Nat → Int) :
    ∃ m0 : MazeData, NewMaze 1 1 = .ok m0 ∧ wallCount m0 = 0 ∧ m0.Walls = [] ∧
      Build m0 rnd = some (.ok m0, 0) ∧ removedCount m0 = 0 ∧ ∀ p ∈ m0.Paths, p = [] := by
  refine ⟨⟨1, 1, [0], [], [[]]⟩, by decide, by decide, rfl, rfl, by decide, by decide⟩

/-! ## Every pair of adjacent cells has its wall -/

theorem wall_of_right_neighbour (m : MazeData) (hw : 1 ≤ m.Width) (a : Int) (a0 : 0 ≤ a)
    (a1 : a + 1 < cellCount m) (hrow : a / m.Width = (a + 1) / m.Width) :
    ∃ wid : Int, 0 ≤ wid ∧ wid < wallCount m ∧ getSeparatedCells m wid = .ok (a, a + 1) := by
  have hWpos : 0 < m.Width := by omega
  have hdecomp : a % m.Width + m.Width * (a / m.Width) = a := Int.emod_add_ediv a m.Width
  have hc0 : 0 ≤ a % m.Width := Int.emod_nonneg _ (ne_of_gt hWpos)
  have hc1 : a % m.Width < m.Width := Int.emod_lt_of_pos _ hWpos
  have hr0 : 0 ≤ a / m.Width := Int.ediv_nonneg a0 (le_of_lt hWpos)
  have hr1 : a / m.Width < m.Height := by
    apply Int.ediv_lt_of_lt_mul hWpos
    unfold cellCount at a1
    rw [mul_comm]
    omega
  have hcol : a % m.Width + 1 < m.Width := by
    by_contra hc
    have hlast : a % m.Width = m.Width - 1 := by omega
    have hb : a + 1 = 0 + (a / m.Width + 1) * m.Width := by
      have : (a / m.Width + 1) * m.Width = m.Width * (a / m.Width) + m.Width := by ring
      omega
    have := (add_mul_div_mod m.Width (a / m.Width + 1) 0 (le_refl 0) hWpos).1
    rw [← hb, ← hrow] at this
    omega
  have hd : 0 < m.Width - 1 := by omega
  have hwid0 : 0 ≤ a / m.Width * (m.Width - 1) + a % m.Width := by
    have := mul_nonneg hr0 (le_of_lt hd)
    omega
  have hwid1 : a / m.Width * (m.Width - 1) + a % m.Width < (m.Width - 1) * m.Height := by
    have h1 : a / m.Width * (m.Width - 1) ≤ (m.Height - 1) * (m.Width - 1) :=
      mul_le_mul_of_nonneg_right (by omega) (le_of_lt hd)
    have h2 : (m.Height - 1) * (m.Width - 1) = (m.Width - 1) * m.Height - (m.Width - 1) := by
      ring
    omega
  have hle : (m.Width - 1) * m.Height ≤ wallCount m := by
    unfold wallCount
    have h1 : 0 ≤ m.Width * (m.Height - 1) := mul_nonneg (by omega) (by omega)
    have h2 : m.Width * (m.Height - 1) = m.Width * m.Height - m.Width := by ring
    have h3 : (m.Width - 1) * m.Height = m.Width * m.Height - m.Height := by ring
    omega
  refine ⟨a / m.Width * (m.Width - 1) + a % m.Width, hwid0, by omega, ?_⟩
  rcases getSeparatedCells_shape m _ hw hwid0 (by omega) with
    ⟨_, row, col, _, _, k0, k1, hwid, hg⟩ | ⟨hge, _⟩
  · have e : a % m.Width + a / m.Width * (m.Width - 1) = col + row * (m.Width - 1) := by omega
    obtain ⟨er, ec⟩ := rowcol_unique (m.Width - 1) _ _ _ _ hc0 (by omega) k0 k1 e
    rw [hg, ← er, ← ec]
    have : a % m.Width + a / m.Width * m.Width = a := by
      rw [mul_comm (a / m.Width)]
      exact hdecomp
    rw [this]
  · omega

theorem wall_of_lower_neighbour (m : MazeData) (hw : 1 ≤ m.Width) (a : Int) (a0 : 0 ≤ a)
    (a1 : a + m.Width < cellCount m) :
    ∃ wid : Int, 0 ≤ wid ∧ wid < wallCount m ∧
      getSeparatedCells m wid = .ok (a, a + m.Width) := by
  unfold cellCount at a1
  have hwc : wallCount m = (m.Width - 1) * m.Height + (m.Width * m.Height - m.Width) := by
    unfold wallCount
    ring
  have ht0 : 0 ≤ (m.Width - 1) * m.Height := by
    have hH : 0 ≤ m.Height := by
      by_contra hc
      have : m.Width * m.Height ≤ 0 := mul_nonpos_of_nonneg_of_nonpos (by omega) (by omega)
      omega
    exact mul_nonneg (by omega) hH
  have hwid0 : 0 ≤ (m.Width - 1) * m.Height + a := by omega
  refine ⟨(m.Width - 1) * m.Height + a, hwid0, by omega, ?_⟩
  rcases getSeparatedCells_shape m _ hw hwid0 (by omega) with ⟨hlt, _⟩ | ⟨_, hg⟩
  · omega
  · rw [hg]
    congr 2
    · omega
    · omega

/-- Over the integers (see `adjacent_cells_have_wall64` for the program on 64-bit
integers): for `Width ≥ 1` (`Height ≥ 1` follows from the cells being in the grid)
and two cells `a`, `b` of the grid that are adjacent, `b` being the right
neighbour of `a` (`b = a + 1` in the same row) or the cell below `a`
(`b = a + Width`), exactly one wall index in `[0, wallCount)` has
`getSeparatedCells(wid) = (a, b)`; and
`wallCount = (Width-1)*Height + Width*(Height-1)`. -/
theorem adjacent_cells_have_wall (m : MazeData) (hw : 1 ≤ m.Width)
    (a b : Int) (a0 : 0 ≤ a) (b1 : b < cellCount m)
    (hadj : (b = a + 1 ∧ a / m.Width = b / m.Width) ∨ b = a + m.Width) :
    wallCount m = (m.Width - 1) * m.Height + m.Width * (m.Height - 1) ∧
      ∃! wid : Int, 0 ≤ wid ∧ wid < wallCount m ∧ getSeparatedCells m wid = .ok (a, b) := by
  constructor
  · unfold wallCount
    ring
  · have hex : ∃ wid : Int, 0 ≤ wid ∧ wid < wallCount m ∧
        getSeparatedCells m wid = .ok (a, b) := by
      rcases hadj with ⟨e, hrow⟩ | e
      · subst e
        exact wall_of_right_neighbour m hw a a0 b1 hrow
      · subst e
        exact wall_of_lower_neighbour m hw a a0 b1
    obtain ⟨wid, h0, h1, hg⟩ := hex
    refine ⟨wid, ⟨h0, h1, hg⟩, ?_⟩
    rintro wid2 ⟨k0, k1, kg⟩
    exact getSeparatedCells_inj m hw wid2 wid a b k0 k1 h0 h1 kg hg

/-! ## The smallest-index convention of the labels -/

/-- In every reachable state the label of a cell is at most the cell and is its
own label. -/
theorem Reach_min_label (w h : Int) (m : MazeData) (hr : Reach w h m) :
    ∀ i : Int, 0 ≤ i → i < w * h →
      ∃ l : Int, index m.Areas i = .ok l ∧ l ≤ i ∧ index m.Areas l = .ok l := by
  refine Reach_induction w h (fun m => ∀ i : Int, 0 ≤ i → i < w * h →
      ∃ l : Int, index m.Areas i = .ok l ∧ l ≤ i ∧ index m.Areas l = .ok l) ?_ ?_ m hr
  · intro m hm i i0 i1
    exact ⟨i, NewMaze_label w h m hm i i0 i1, le_refl i, NewMaze_label w h m hm i i0 i1⟩
  · intro m wid cid1 cid2 aid1 aid2 _ _ ih hs i i0 i1
    have hc1 := hs.c1
    have hc2 := hs.c2
    have hc0 := hs.c0
    have hlab : ∀ u, index (merged m wid cid1 cid2 aid1 aid2).Areas u =
        Except.map (relabel (max aid1 aid2) (min aid1 aid2)) (index m.Areas u) :=
      fun u => index_map _ _ _
    obtain ⟨l, hl, hle, hll⟩ := ih i i0 i1
    obtain ⟨l1, hl1, _, hll1⟩ := ih cid1 hc0 (by omega)
    obtain ⟨l2, hl2, _, hll2⟩ := ih cid2 (by omega) hc2
    have e1 := Except.ok.inj (hl1.symm.trans hs.a1)
    have e2 := Except.ok.inj (hl2.symm.trans hs.a2)
    subst e1 e2
    have hlo : index m.Areas (min l1 l2) = .ok (min l1 l2) := by
      rcases min_choice l1 l2 with e | e <;> rw [e] <;> assumption
    by_cases hc : l = max l1 l2
    · refine ⟨min l1 l2, ?_, ?_, ?_⟩
      · rw [hlab, hl]
        simp [Except.map, relabel, hc]
      · have := min_le_max (a := l1) (b := l2)
        omega
      · rw [hlab, hlo]
        simp [Except.map, relabel]
    · refine ⟨l, ?_, hle, ?_⟩
      · rw [hlab, hl]
        simp [Except.map, relabel, hc]
      · rw [hlab, hll]
        simp [Except.map, relabel, hc]

/-- C17: in every reachable state, the label of each cell is the smallest cell
index among the cells carrying that label: for every cell `i` with label `l`,
`0 ≤ l ≤ i`, `l < w*h`, `Areas[l] = l`, and every cell carrying `l` is at least
`l`; hence `Areas[0] = 0`. -/
theorem label_is_smallest_cell (w h : Int) (m : MazeData) (hr : Reach w h m) :
    (∀ i : Int, 0 ≤ i → i < w * h →
      ∃ l : Int, index m.Areas i = .ok l ∧ 0 ≤ l ∧ l ≤ i ∧ l < w * h ∧
        index m.Areas l = .ok l ∧
        ∀ j : Int, 0 ≤ j → j < w * h → index m.Areas j = .ok l → l ≤ j) ∧
      index m.Areas 0 = .ok 0 := by
  have hwf := Reach_wf w h m hr
  have hpos := cellCount_pos w h hwf.wpos hwf.hpos
  have hmin := Reach_min_label w h m hr
  constructor
  · intro i i0 i1
    obtain ⟨l, hl, hle, hll⟩ := hmin i i0 i1
    obtain ⟨l0, _⟩ := hwf.labels l (List.getElem?_mem ((index_eq_ok _ _ _).mp hl).2)
    refine ⟨l, hl, l0, hle, by omega, hll, ?_⟩
    intro j j0 j1 hj
    obtain ⟨l2, hl2, hle2, _⟩ := hmin j j0 j1
    have := Except.ok.inj (hl2.symm.trans hj)
    omega
  · obtain ⟨l, hl, hle, _⟩ := hmin 0 (le_refl 0) (by omega)
    obtain ⟨l0, _⟩ := hwf.labels l (List.getElem?_mem ((index_eq_ok _ _ _).mp hl).2)
    have : l = 0 := by omega
    rw [hl, this]

theorem label_is_smallest_cell_witness :
    (∀ i : Int, 0 ≤ i → i < 2 * 2 →
      ∃ l : Int, index (MazeData.mk 2 2 [0, 0, 2, 3] [1, 0, 0, 0] [[1], [], [], []]).Areas i =
          .ok l ∧ 0 ≤ l ∧ l ≤ i ∧ l < 2 * 2 ∧
        index (MazeData.mk 2 2 [0, 0, 2, 3] [1, 0, 0, 0] [[1], [], [], []]).Areas l = .ok l ∧
        ∀ j : Int, 0 ≤ j → j < 2 * 2 →
          index (MazeData.mk 2 2 [0, 0, 2, 3] [1, 0, 0, 0] [[1], [], [], []]).Areas j = .ok l →
          l ≤ j) ∧
      index (MazeData.mk 2 2 [0, 0, 2, 3] [1, 0, 0, 0] [[1], [], [], []]).Areas 0 = .ok 0 :=
  label_is_smallest_cell 2 2 _ Reach_example

/-! ## `isAllSameArea` on the reachable states -/

theorem Reach_label_zero (w h : Int) (m : MazeData) (hr : Reach w h m) :
    index m.Areas 0 = .ok 0 := by
  have hwf := Reach_wf w h m hr
  have hpos := cellCount_pos w h hwf.wpos hwf.hpos
  obtain ⟨l, hl, hle, _⟩ := Reach_min_label w h m hr 0 (le_refl 0) (by omega)
  obtain ⟨l0, _⟩ := hwf.labels l (List.getElem?_mem ((index_eq_ok _ _ _).mp hl).2)
  have : l = 0 := by omega
  rw [hl, this]

/-- In a reachable state every label is 0 exactly when all cells share one label. -/
theorem all_zero_iff_same_label (w h : Int) (m : MazeData) (hr : Reach w h m) :
    (∀ x ∈ m.Areas, x = 0) ↔
      ∀ i j : Int, 0 ≤ i → i < w * h → 0 ≤ j → j < w * h →
        index m.Areas i = index m.Areas j := by
  have hwf := Reach_wf w h m hr
  have hpos := cellCount_pos w h hwf.wpos hwf.hpos
  constructor
  · intro hz i j i0 i1 j0 j1
    obtain ⟨x, hx, hxm⟩ := getElem?_of_range m.Areas i _ hwf.areasLen i0 i1
    obtain ⟨y, hy, hym⟩ := getElem?_of_range m.Areas j _ hwf.areasLen j0 j1
    rw [(index_eq_ok _ _ _).mpr ⟨i0, hx⟩, (index_eq_ok _ _ _).mpr ⟨j0, hy⟩, hz x hxm, hz y hym]
  · intro hsame x hx
    obtain ⟨n, hn⟩ := List.mem_iff_getElem?.mp hx
    obtain ⟨hlt, _⟩ := List.getElem?_eq_some.mp hn
    have hlen := hwf.areasLen
    have hidx : index m.Areas (n : Int) = .ok x := index_nat m.Areas n x hn
    have := hsame (n : Int) 0 (by omega) (by omega) (le_refl 0) (by omega)
    rw [hidx, Reach_label_zero w h m hr] at this
    exact Except.ok.inj this

/-- C13: in every reachable state `isAllSameArea` returns, and it returns `true`
if and only if all cells share one label. -/
theorem isAllSameArea_iff (w h : Int) (m : MazeData) (hr : Reach w h m) :
    ∃ b : Bool, isAllSameArea m = .ok b ∧
      (b = true ↔ ∀ i j : Int, 0 ≤ i → i < w * h → 0 ≤ j → j < w * h →
        index m.Areas i = index m.Areas j) := by
  refine ⟨_, isAllSameArea_eq w h m (Reach_wf w h m hr), ?_⟩
  rw [← all_zero_iff_same_label w h m hr]
  simp

theorem isAllSameArea_iff_witness :
    ∃ b : Bool, isAllSameArea ⟨2, 2, [0, 0, 2, 3], [1, 0, 0, 0], [[1], [], [], []]⟩ = .ok b ∧
      (b = true ↔ ∀ i j : Int, 0 ≤ i → i < 2 * 2 → 0 ≤ j → j < 2 * 2 →
        index (MazeData.mk 2 2 [0, 0, 2, 3] [1, 0, 0, 0] [[1], [], [], []]).Areas i =
          index (MazeData.mk 2 2 [0, 0, 2, 3] [1, 0, 0, 0] [[1], [], [], []]).Areas j) :=
  isAllSameArea_iff 2 2 _ Reach_example

/-! ## Each merge removes one wall and one partition -/

theorem merged_removedCount (w h : Int) (m : MazeData) (wid cid1 cid2 aid1 aid2 : Int)
    (hs : MergeStep w h m wid cid1 cid2 aid1 aid2) :
    removedCount (merged m wid cid1 cid2 aid1 aid2) = removedCount m + 1 := by
  obtain ⟨wall, hwall, hne1⟩ := hs.present
  exact count_set_one m.Walls wid.toNat wall ((index_eq_ok _ _ _).mp hwall).2 hne1

theorem merged_labelCount (w h : Int) (m : MazeData) (wid cid1 cid2 aid1 aid2 : Int)
    (hs : MergeStep w h m wid cid1 cid2 aid1 aid2) :
    labelCount (merged m wid cid1 cid2 aid1 aid2) + 1 = labelCount m := by
  have m1 : aid1 ∈ m.Areas := List.getElem?_mem ((index_eq_ok _ _ _).mp hs.a1).2
  have m2 : aid2 ∈ m.Areas := List.getElem?_mem ((index_eq_ok _ _ _).mp hs.a2).2
  have hmax := max_mem_of _ _ _ m1 m2
  have e2 : labelCount (merged m wid cid1 cid2 aid1 aid2) = labelCount m - 1 := by
    simp only [labelCount, merged]
    rw [toFinset_relabel _ _ _ (min_mem_of _ _ _ m1 m2) (max_ne_min _ _ hs.ne),
      Finset.card_erase_of_mem (List.mem_toFinset.mpr hmax)]
  have hpos : 0 < labelCount m := by
    unfold labelCount
    exact Finset.card_pos.mpr ⟨_, List.mem_toFinset.mpr hmax⟩
  omega

/-- C18: in every reachable state the number of removed walls plus the number of
distinct labels equals `w*h`; and a `removeWall` call with a wall index in range
that changes the state decreases the number of distinct labels by exactly one
and increases the number of removed walls by exactly one. -/
theorem removed_plus_labels (w h : Int) (m : MazeData) (hr : Reach w h m) :
    (removedCount m : Int) + (labelCount m : Int) = w * h ∧
      ∀ (wid : Int) (m1 : MazeData), 0 ≤ wid → wid < w * h * 2 - (w + h) →
        removeWall m wid = .ok m1 → m1 ≠ m →
        labelCount m1 + 1 = labelCount m ∧ removedCount m1 = removedCount m + 1 := by
  have hwf := Reach_wf w h m hr
  have hpos := cellCount_pos w h hwf.wpos hwf.hpos
  constructor
  · have := Reach_count w h m hr
    omega
  · intro wid m1 h0 h1 hrm hne
    rcases removeWall_cases w h m m1 hwf wid h0 h1 hrm with e | ⟨c1, c2, a1, a2, hs, e⟩
    · exact absurd e hne
    · rw [e]
      exact ⟨merged_labelCount w h m wid c1 c2 a1 a2 hs,
        merged_removedCount w h m wid c1 c2 a1 a2 hs⟩

theorem removed_plus_labels_witness :
    (removedCount ⟨2, 2, [0, 0, 2, 3], [1, 0, 0, 0], [[1], [], [], []]⟩ : Int) +
        (labelCount ⟨2, 2, [0, 0, 2, 3], [1, 0, 0, 0], [[1], [], [], []]⟩ : Int) = 2 * 2 ∧
      ∀ (wid : Int) (m1 : MazeData), 0 ≤ wid → wid < 2 * 2 * 2 - (2 + 2) →
        removeWall ⟨2, 2, [0, 0, 2, 3], [1, 0, 0, 0], [[1], [], [], []]⟩ wid = .ok m1 →
        m1 ≠ ⟨2, 2, [0, 0, 2, 3], [1, 0, 0, 0], [[1], [], [], []]⟩ →
        labelCount m1 + 1 = labelCount ⟨2, 2, [0, 0, 2, 3], [1, 0, 0, 0], [[1], [], [], []]⟩ ∧
          removedCount m1 =
            removedCount ⟨2, 2, [0, 0, 2, 3], [1, 0, 0, 0], [[1], [], [], []]⟩ + 1 :=
  removed_plus_labels 2 2 _ Reach_example

/-! ## The run of `Build`, draw by draw -/

/-- On a reachable state `isAllSameArea` answers `true` exactly when the grid is
fully connected. -/
theorem isAllSameArea_iff_fullyConnected (w h : Int) (m : MazeData) (hr : Reach w h m) :
    isAllSameArea m = .ok true ↔ FullyConnected m := by
  have hwf := Reach_wf w h m hr
  have hcc : cellCount m = w * h := by
    unfold cellCount
    rw [hwf.width, hwf.height]
  rw [isAllSameArea_eq w h m hwf]
  have e : (Except.ok (decide (∀ x ∈ m.Areas, x = 0)) : Except Panic Bool) = .ok true ↔
      ∀ x ∈ m.Areas, x = 0 := by simp
  rw [e, all_zero_iff_same_label w h m hr]
  unfold FullyConnected
  rw [hcc]
  constructor
  · intro hs a b a0 a1 b0 b1
    exact (Reach_connected w h m hr a b a0 a1 b0 b1).mp (hs a b a0 a1 b0 b1)
  · intro hc a b a0 a1 b0 b1
    exact (Reach_connected w h m hr a b a0 a1 b0 b1).mpr (hc a b a0 a1 b0 b1)

theorem isAllSameArea_false_of_not (w h : Int) (m : MazeData) (hr : Reach w h m)
    (hn : ¬ isAllSameArea m = .ok true) : isAllSameArea m = .ok false := by
  rw [isAllSameArea_eq w h m (Reach_wf w h m hr)] at hn ⊢
  cases hd : decide (∀ x ∈ m.Areas, x = 0) with
  | true => rw [hd] at hn; exact absurd rfl hn
  | false => rfl

/-- A grid without walls has one cell, and `isAllSameArea` answers `true` on it. -/
theorem isAllSameArea_of_no_wall (w h : Int) (m : MazeData) (hwf : WF w h m)
    (hnw : ¬ 0 < w * h * 2 - (w + h)) : isAllSameArea m = .ok true := by
  have hw := hwf.wpos
  have hh := hwf.hpos
  have h1 : 0 ≤ (w - 1) * h := mul_nonneg (by omega) (by omega)
  have h2 : 0 ≤ w * (h - 1) := mul_nonneg (by omega) (by omega)
  have h3 : w * h * 2 - (w + h) = (w - 1) * h + w * (h - 1) := by ring
  have h4 : (w - 1) * h = w * h - h := by ring
  have h5 : w * (h - 1) = w * h - w := by ring
  have hone : w * h = 1 := by
    have hz1 : (w - 1) * h = 0 := by omega
    have hz2 : w * (h - 1) = 0 := by omega
    have ew : w = 1 := by
      rcases mul_eq_zero.mp hz1 with e | e <;> omega
    have eh : h = 1 := by
      rcases mul_eq_zero.mp hz2 with e | e <;> omega
    rw [ew, eh]
    rfl
  rw [isAllSameArea_eq w h m hwf]
  have : ∀ x ∈ m.Areas, x = 0 := by
    intro x hx
    have := hwf.labels x hx
    omega
  simpa using this

theorem removeWall_reach (w h : Int) (m : MazeData) (hr : Reach w h m) (wid : Int)
    (h0 : 0 ≤ wid) (h1 : wid < w * h * 2 - (w + h)) :
    ∃ m1 : MazeData, removeWall m wid = .ok m1 ∧ Reach w h m1 := by
  obtain ⟨wall, c1, c2, a1, a2, _, _, _, _, _, _, _, hrw⟩ :=
    removeWall_eq w h m (Reach_wf w h m hr) wid h0 h1
  exact ⟨_, hrw, Reach.step hr h0 h1 hrw⟩

/-- The loop of `Build`, started with `counter ≥ 0` on a reachable state after
`k` draws: either some `j ≤ counter` further draws lead to the first state on
which `isAllSameArea` answers `true`, and the loop returns that state after
those `j` draws; or no `j ≤ counter` does, and the loop panics with the
iteration-cap panic after `counter + 1` further draws. -/
theorem BuildLoop_run (w h : Int) (rnd : Nat → Int)
    (hrnd : ∀ j, 0 < w * h * 2 - (w + h) → 0 ≤ rnd j ∧ rnd j < w * h * 2 - (w + h)) :
    ∀ (fuel : Nat) (m : MazeData) (counter : Int) (k : Nat), Reach w h m → 0 ≤ counter →
      counter.toNat + 2 ≤ fuel →
      (∃ (j : Nat) (m1 : MazeData), (j : Int) ≤ counter ∧ afterDraws rnd j m k = .ok m1 ∧
          Reach w h m1 ∧ isAllSameArea m1 = .ok true ∧
          (∀ i, i < j → ∀ m2, afterDraws rnd i m k = .ok m2 → isAllSameArea m2 = .ok false) ∧
          BuildLoop rnd (w * h * 2 - (w + h)) fuel m counter k = some (.ok m1, k + j)) ∨
        ((∀ (j : Nat) (m2 : MazeData), (j : Int) ≤ counter → afterDraws rnd j m k = .ok m2 →
            isAllSameArea m2 = .ok false) ∧
          BuildLoop rnd (w * h * 2 - (w + h)) fuel m counter k =
            some (.error .tooLargeLoop, k + counter.toNat + 1)) := by
  intro fuel
  induction fuel with
  | zero => intro m counter k _ _ hf; omega
  | succ fuel ih =>
    intro m counter k hr hc hf
    by_cases hsame : isAllSameArea m = .ok true
    · left
      refine ⟨0, m, by omega, rfl, hr, hsame, fun i hi => by omega, ?_⟩
      unfold BuildLoop
      simp only [hsame, Nat.add_zero]
    · have hfalse := isAllSameArea_false_of_not w h m hr hsame
      have hwalls : 0 < w * h * 2 - (w + h) := by
        by_contra hnw
        exact hsame (isAllSameArea_of_no_wall w h m (Reach_wf w h m hr) hnw)
      obtain ⟨r0, r1⟩ := hrnd k hwalls
      obtain ⟨m1, hrm, hr1⟩ := removeWall_reach w h m hr (rnd k) r0 r1
      have hdraw : Intn rnd k (w * h * 2 - (w + h)) = .ok (rnd k) := by
        unfold Intn
        rw [if_neg (by omega)]
      have hunf : BuildLoop rnd (w * h * 2 - (w + h)) (fuel + 1) m counter k =
          if counter - 1 < 0 then some (.error .tooLargeLoop, k + 1)
          else BuildLoop rnd (w * h * 2 - (w + h)) fuel m1 (counter - 1) (k + 1) := by
        rw [BuildLoop]
        simp only [hfalse, hdraw, hrm]
      have hstep : ∀ (j : Nat), afterDraws rnd (j + 1) m k = afterDraws rnd j m1 (k + 1) := by
        intro j
        rw [afterDraws]
        simp only [hrm]
      by_cases hzero : counter - 1 < 0
      · right
        have hc0 : counter = 0 := by omega
        constructor
        · intro j m2 hj hm2
          have hj0 : j = 0 := by omega
          subst hj0
          have : m2 = m := (Except.ok.inj hm2).symm
          rw [this]
          exact hfalse
        · rw [hunf, if_pos hzero, hc0]
          rfl
      · rw [hunf, if_neg hzero]
        rcases ih m1 (counter - 1) (k + 1) hr1 (by omega) (by omega) with
          ⟨j, m3, hj, hrun, hr3, hs3, hmin, hres⟩ | ⟨hnone, hres⟩
        · left
          refine ⟨j + 1, m3, by push_cast; omega, by rw [hstep]; exact hrun, hr3, hs3, ?_, ?_⟩
          · intro i hi m2 hm2
            cases i with
            | zero =>
              have : m2 = m := (Except.ok.inj hm2).symm
              rw [this]
              exact hfalse
            | succ i =>
              rw [hstep] at hm2
              exact hmin i (by omega) m2 hm2
          · rw [hres]
            congr 2
            omega
        · right
          constructor
          · intro j m2 hj hm2
            cases j with
            | zero =>
              have : m2 = m := (Except.ok.inj hm2).symm
              rw [this]
              exact hfalse
            | succ j =>
              rw [hstep] at hm2
              exact hnone j m2 (by push_cast at hj; omega) hm2
          · rw [hres]
            congr 2
            omega

theorem afterDraws_reach (w h : Int) (rnd : Nat → Int) :
    ∀ (j : Nat) (m m1 : MazeData) (k : Nat), Reach w h m →
      (∀ i, 0 ≤ rnd i ∧ rnd i < w * h * 2 - (w + h)) →
      afterDraws rnd j m k = .ok m1 → Reach w h m1 := by
  intro j
  induction j with
  | zero =>
    intro m m1 k hr _ hrun
    have : m1 = m := (Except.ok.inj hrun).symm
    rw [this]
    exact hr
  | succ j ih =>
    intro m m1 k hr hrnd hrun
    obtain ⟨r0, r1⟩ := hrnd k
    obtain ⟨m2, hrm, hr2⟩ := removeWall_reach w h m hr (rnd k) r0 r1
    rw [afterDraws] at hrun
    simp only [hrm] at hrun
    exact ih m2 m1 (k + 1) hr2 hrnd hrun

/-- The run of `Build` on the maze of `NewMaze(w, h)`, in terms of
`isAllSameArea`: see `BuildLoop_run`. -/
theorem Build_run (w h : Int) (rnd : Nat → Int) (m0 : MazeData) (h0 : NewMaze w h = .ok m0)
    (hrnd : ∀ j, 0 < w * h * 2 - (w + h) → 0 ≤ rnd j ∧ rnd j < w * h * 2 - (w + h)) :
    (∃ (j : Nat) (m1 : MazeData), (j : Int) ≤ w * h * 10 ∧ afterDraws rnd j m0 0 = .ok m1 ∧
        Reach w h m1 ∧ isAllSameArea m1 = .ok true ∧
        (∀ i, i < j → ∀ m2, afterDraws rnd i m0 0 = .ok m2 → isAllSameArea m2 = .ok false) ∧
        Build m0 rnd = some (.ok m1, j)) ∨
      ((∀ (j : Nat) (m2 : MazeData), (j : Int) ≤ w * h * 10 → afterDraws rnd j m0 0 = .ok m2 →
          isAllSameArea m2 = .ok false) ∧
        Build m0 rnd = some (.error .tooLargeLoop, (w * h * 10).toNat + 1)) := by
  have hwf := NewMaze_wf w h m0 h0
  have hpos := cellCount_pos w h hwf.wpos hwf.hpos
  have hb : Build m0 rnd = BuildLoop rnd (w * h * 2 - (w + h)) ((w * h * 10 + 1).toNat + 1) m0
      (w * h * 10) 0 := by
    unfold Build
    simp only [hwf.wallsLen, hwf.width, hwf.height]
  rw [hb]
  have := BuildLoop_run w h rnd hrnd ((w * h * 10 + 1).toNat + 1) m0 (w * h * 10) 0
    (Reach.init h0) (by omega) (by omega)
  simpa using this

/-- Over the integers (see `Build64_halts` for the program on 64-bit integers):
`Build`, run on the maze of `NewMaze(w, h)` with cap `N = w*h*10` and a
random source whose draws lie in `[0, wallCount)` (whenever that range is not
empty), always halts, in one of two ways.  Either the grid is fully connected
after some `k ≤ N` draws, and then `Build` returns successfully the maze reached
after the smallest such `k`, having made exactly `k` draws, and that maze is
fully connected.  Or the grid is fully connected after no `k ≤ N` draws, and
then `Build` panics with the iteration-cap panic after exactly `N + 1` draws. -/
theorem Build_halts (w h : Int) (rnd : Nat → Int) (m0 : MazeData) (h0 : NewMaze w h = .ok m0)
    (hrnd : ∀ j, 0 < w * h * 2 - (w + h) → 0 ≤ rnd j ∧ rnd j < w * h * 2 - (w + h)) :
    (∃ (k : Nat) (m : MazeData), (k : Int) ≤ w * h * 10 ∧ afterDraws rnd k m0 0 = .ok m ∧
        FullyConnected m ∧ (∀ j, j < k → ¬ ConnectedAfter rnd m0 j) ∧
        Build m0 rnd = some (.ok m, k)) ∨
      ((∀ k : Nat, (k : Int) ≤ w * h * 10 → ¬ ConnectedAfter rnd m0 k) ∧
        Build m0 rnd = some (.error .tooLargeLoop, (w * h * 10).toNat + 1)) := by
  have hwf := NewMaze_wf w h m0 h0
  have hnot : ∀ (j : Nat), (∀ m2, afterDraws rnd j m0 0 = .ok m2 → isAllSameArea m2 = .ok false) →
      0 < w * h * 2 - (w + h) → ¬ ConnectedAfter rnd m0 j := by
    rintro j hfalse hwalls ⟨m2, hrun, hfc⟩
    have hr2 := afterDraws_reach w h rnd j m0 m2 0 (Reach.init h0) (fun i => hrnd i hwalls) hrun
    have ht := (isAllSameArea_iff_fullyConnected w h m2 hr2).mpr hfc
    rw [hfalse m2 hrun] at ht
    simp at ht
  rcases Build_run w h rnd m0 h0 hrnd with ⟨j, m1, hj, hrun, hr1, hs1, hmin, hres⟩ | ⟨hnone, hres⟩
  · left
    refine ⟨j, m1, hj, hrun, (isAllSameArea_iff_fullyConnected w h m1 hr1).mp hs1, ?_, hres⟩
    intro i hi
    by_cases hwalls : 0 < w * h * 2 - (w + h)
    · exact hnot i (hmin i hi) hwalls
    · have ht := isAllSameArea_of_no_wall w h m0 hwf hwalls
      have hf := hmin 0 (by omega) m0 rfl
      rw [hf] at ht
      simp at ht
  · right
    refine ⟨?_, hres⟩
    intro k hk
    by_cases hwalls : 0 < w * h * 2 - (w + h)
    · exact hnot k (fun m2 hm2 => hnone k m2 hk hm2) hwalls
    · have hpos := cellCount_pos w h hwf.wpos hwf.hpos
      have ht := isAllSameArea_of_no_wall w h m0 hwf hwalls
      have hf := hnone 0 m0 (by omega) rfl
      rw [hf] at ht
      simp at ht

/-- Over the integers (see `Build64_safe` for the program on 64-bit integers):
`Build`, run on the maze of `NewMaze(w, h)` with a random source whose
draws lie in `[0, wallCount)` (whenever that range is not empty), halts and
raises no panic other than the iteration-cap panic: no slice access is out of
bounds, `getSeparatedCells` and `margeArea` do not panic, and `rand.Intn` is not
called on an empty range; a draw is made only when `wallCount > 0`. -/
theorem Build_safe (w h : Int) (rnd : Nat → Int) (m0 : MazeData) (h0 : NewMaze w h = .ok m0)
    (hrnd : ∀ j, 0 < w * h * 2 - (w + h) → 0 ≤ rnd j ∧ rnd j < w * h * 2 - (w + h)) :
    ∃ (r : Except Panic MazeData) (k : Nat), Build m0 rnd = some (r, k) ∧
      ((∃ m : MazeData, r = .ok m) ∨ r = .error .tooLargeLoop) ∧
      (0 < k → 0 < w * h * 2 - (w + h)) := by
  have hwf := NewMaze_wf w h m0 h0
  have hpos := cellCount_pos w h hwf.wpos hwf.hpos
  rcases Build_run w h rnd m0 h0 hrnd with ⟨j, m1, _, _, _, _, hmin, hres⟩ | ⟨hnone, hres⟩
  · refine ⟨_, _, hres, Or.inl ⟨m1, rfl⟩, ?_⟩
    intro hj
    by_contra hwalls
    have ht := isAllSameArea_of_no_wall w h m0 hwf hwalls
    rw [hmin 0 hj m0 rfl] at ht
    simp at ht
  · refine ⟨_, _, hres, Or.inr rfl, ?_⟩
    intro _
    by_contra hwalls
    have ht := isAllSameArea_of_no_wall w h m0 hwf hwalls
    rw [hnone 0 m0 (by omega) rfl] at ht
    simp at ht

/-! ## `Print` -/

theorem wallStr_eq (m : MazeData) (hlen : (m.Walls.length : Int) = wallCount m) (wid : Int)
    (h0 : 0 ≤ wid) (h1 : wid < wallCount m) : wallStr m wid = .ok [wallChar m wid] := by
  obtain ⟨wall, hwall, _⟩ := getElem?_of_range m.Walls wid _ hlen h0 h1
  have iw : index m.Walls wid = .ok wall := (index_eq_ok _ _ _).mpr ⟨h0, hwall⟩
  unfold wallCount at h1
  unfold wallStr wallChar Removed
  simp only [not_lt.mpr h0, if_false, iw]
  by_cases hw1 : wall = 1
  · simp [hw1]
  · have hne : ¬ (Except.ok wall : Except Panic Int) = .ok 1 := fun e => hw1 (Except.ok.inj e)
    simp only [hw1, hne, if_false]
    by_cases hv : wid < (m.Width - 1) * m.Height
    · simp only [hv, if_true]
    · simp only [hv, h1, if_true, if_false]

theorem wallChar_ne_newline (m : MazeData) (wid : Int) : wallChar m wid ≠ '\n' := by
  unfold wallChar
  split_ifs <;> decide

theorem printBorder_spec :
    ∀ (n : Nat) (out : List Char), ∃ seg : List Char, printBorder n out = out ++ seg ∧
      seg.length = 2 * n ∧ '\n' ∉ seg := by
  intro n
  induction n with
  | zero =>
    intro out
    exact ⟨[], by simp [printBorder], rfl, by simp⟩
  | succ n ih =>
    intro out
    obtain ⟨seg, hs, hl, hn⟩ := ih (out ++ ['-', '+'])
    refine ⟨['-', '+'] ++ seg, ?_, ?_, ?_⟩
    · rw [printBorder, hs, List.append_assoc]
    · simp only [List.length_append, List.length_cons, List.length_nil, hl]
      omega
    · intro hmem
      rcases List.mem_append.mp hmem with h | h
      · revert h
        decide
      · exact hn h

theorem printRowWalls_spec (m : MazeData) (hw : 1 ≤ m.Width)
    (hlen : (m.Walls.length : Int) = wallCount m) (i : Nat) (hi : (i : Int) < m.Height) :
    ∀ (n j : Nat) (out : List Char), ((j + n : Nat) : Int) = m.Width - 1 →
      ∃ seg : List Char, printRowWalls m i n j out = .ok (out ++ seg) ∧ seg.length = 2 * n ∧
        '\n' ∉ seg ∧
        ∀ t, t < n → seg[2 * t + 1]? =
          some (wallChar m ((i : Int) * (m.Width - 1) + ((j + t : Nat) : Int))) := by
  have hle := vertical_le_wallCount m hw (by omega)
  intro n
  induction n with
  | zero =>
    intro j out _
    exact ⟨[], by simp [printRowWalls], rfl, by simp, fun t ht => by omega⟩
  | succ n ih =>
    intro j out hj
    have hwid0 : 0 ≤ (i : Int) * (m.Width - 1) + (j : Int) := by
      have := mul_nonneg (Int.ofNat_nonneg i) (by omega : (0 : Int) ≤ m.Width - 1)
      omega
    have hwid1 : (i : Int) * (m.Width - 1) + (j : Int) < (m.Width - 1) * m.Height := by
      have h1 : (i : Int) * (m.Width - 1) ≤ (m.Height - 1) * (m.Width - 1) :=
        mul_le_mul_of_nonneg_right (by omega) (by omega)
      have h2 : (m.Height - 1) * (m.Width - 1) = (m.Width - 1) * m.Height - (m.Width - 1) := by
        ring
      push_cast at hj
      omega
    obtain ⟨seg, hs, hl, hn, hidx⟩ := ih (j + 1)
      (out ++ [' '] ++ [wallChar m ((i : Int) * (m.Width - 1) + (j : Int))])
      (by push_cast at hj ⊢; omega)
    refine ⟨[' ', wallChar m ((i : Int) * (m.Width - 1) + (j : Int))] ++ seg, ?_, ?_, ?_, ?_⟩
    · rw [printRowWalls]
      simp only [wallStr_eq m hlen _ hwid0 (by omega), hs]
      simp
    · simp only [List.length_append, List.length_cons, List.length_nil, hl]
      omega
    · intro hmem
      simp only [List.cons_append, List.nil_append, List.mem_cons] at hmem
      rcases hmem with h | h | h
      · revert h
        decide
      · exact wallChar_ne_newline m _ h.symm
      · exact hn h
    · intro t ht
      cases t with
      | zero => simp
      | succ t =>
        have := hidx t (by omega)
        have e1 : 2 * (t + 1) + 1 = (2 * t + 1) + 1 + 1 := by omega
        have e2 : j + 1 + t = j + (t + 1) := by omega
        rw [e1]
        simp only [List.cons_append, List.nil_append, List.getElem?_cons_succ]
        rw [this, e2]

theorem printSepWalls_spec (m : MazeData) (hw : 1 ≤ m.Width)
    (hlen : (m.Walls.length : Int) = wallCount m) (i : Nat) (hi : (i : Int) + 1 < m.Height) :
    ∀ (n j : Nat) (out : List Char), ((j + n : Nat) : Int) = m.Width →
      ∃ seg : List Char, printSepWalls m i n j out = .ok (out ++ seg) ∧ seg.length = 2 * n ∧
        '\n' ∉ seg ∧
        ∀ t, t < n → seg[2 * t]? =
          some (wallChar m ((m.Width - 1) * m.Height + ((j + t : Nat) : Int) +
            (i : Int) * m.Width)) := by
  have hle := vertical_le_wallCount m hw (by omega)
  have ht0 : 0 ≤ (m.Width - 1) * m.Height := mul_nonneg (by omega) (by omega)
  have hwc : wallCount m = (m.Width - 1) * m.Height + (m.Height - 1) * m.Width := by
    unfold wallCount
    ring
  intro n
  induction n with
  | zero =>
    intro j out _
    exact ⟨[], by simp [printSepWalls], rfl, by simp, fun t ht => by omega⟩
  | succ n ih =>
    intro j out hj
    have hiw0 : 0 ≤ (i : Int) * m.Width := mul_nonneg (Int.ofNat_nonneg i) (by omega)
    have hiw1 : (i : Int) * m.Width ≤ (m.Height - 2) * m.Width :=
      mul_le_mul_of_nonneg_right (by omega) (by omega)
    have hexp : (m.Height - 1) * m.Width = (m.Height - 2) * m.Width + m.Width := by ring
    push_cast at hj
    obtain ⟨seg, hs, hl, hn, hidx⟩ := ih (j + 1)
      (out ++ [wallChar m ((m.Width - 1) * m.Height + (j : Int) + (i : Int) * m.Width)] ++ ['+'])
      (by push_cast; omega)
    refine ⟨[wallChar m ((m.Width - 1) * m.Height + (j : Int) + (i : Int) * m.Width), '+'] ++ seg,
      ?_, ?_, ?_, ?_⟩
    · rw [printSepWalls]
      simp only [wallStr_eq m hlen _ (by omega : 0 ≤ (m.Width - 1) * m.Height + (j : Int) +
        (i : Int) * m.Width) (by omega), hs]
      simp
    · simp only [List.length_append, List.length_cons, List.length_nil, hl]
      omega
    · intro hmem
      simp only [List.cons_append, List.nil_append, List.mem_cons] at hmem
      rcases hmem with h | h | h
      · exact wallChar_ne_newline m _ h.symm
      · revert h
        decide
      · exact hn h
    · intro t ht
      cases t with
      | zero => simp
      | succ t =>
        have := hidx t (by omega)
        have e1 : 2 * (t + 1) = 2 * t + 1 + 1 := by omega
        have e2 : j + 1 + t = j + (t + 1) := by omega
        rw [e1]
        simp only [List.cons_append, List.nil_append, List.getElem?_cons_succ]
        rw [this, e2]

/-- The line that `Print` writes for row `i`: `2*Width + 1` characters, the one
to the right of cell `(i, c)` being the character of wall `i*(Width-1) + c`. -/
theorem printRow_line (m : MazeData) (hw : 1 ≤ m.Width)
    (hlen : (m.Walls.length : Int) = wallCount m) (i : Nat) (hi : (i : Int) < m.Height)
    (out : List Char) :
    ∃ l out1 : List Char, printRowWalls m i (m.Width - 1).toNat 0 (out ++ ['|']) = .ok out1 ∧
      out1 ++ [' ', '|', '\n'] = out ++ (l ++ ['\n']) ∧ (l.length : Int) = 2 * m.Width + 1 ∧
      '\n' ∉ l ∧
      ∀ c : Nat, (c : Int) + 1 < m.Width →
        l[2 * c + 2]? = some (wallChar m ((i : Int) * (m.Width - 1) + (c : Int))) := by
  obtain ⟨seg, hs, hl, hn, hidx⟩ := printRowWalls_spec m hw hlen i hi (m.Width - 1).toNat 0
    (out ++ ['|']) (by push_cast; omega)
  refine ⟨['|'] ++ seg ++ [' ', '|'], _, hs, by simp, ?_, ?_, ?_⟩
  · simp only [List.length_append, List.length_cons, List.length_nil, hl]
    push_cast
    omega
  · intro hmem
    simp only [List.cons_append, List.nil_append, List.mem_cons, List.mem_append,
      List.not_mem_nil, or_false] at hmem
    rcases hmem with h | h | h | h
    · revert h
      decide
    · exact hn h
    · revert h
      decide
    · revert h
      decide
  · intro c hc
    have hlt : 2 * c + 1 < seg.length := by omega
    have := hidx c (by omega)
    simp only [Nat.zero_add] at this
    simp only [List.cons_append, List.nil_append, List.getElem?_cons_succ]
    rw [List.getElem?_append_left hlt, this]

/-- The line that `Print` writes below row `i`: `2*Width + 1` characters, the
one below cell `(i, c)` being the character of wall `t1 + c + i*Width`. -/
theorem printSep_line (m : MazeData) (hw : 1 ≤ m.Width)
    (hlen : (m.Walls.length : Int) = wallCount m) (i : Nat) (hi : (i : Int) + 1 < m.Height)
    (out : List Char) :
    ∃ l out2 : List Char, printSepWalls m i m.Width.toNat 0 (out ++ ['+']) = .ok out2 ∧
      out2 ++ ['\n'] = out ++ (l ++ ['\n']) ∧ (l.length : Int) = 2 * m.Width + 1 ∧
      '\n' ∉ l ∧
      ∀ c : Nat, (c : Int) < m.Width →
        l[2 * c + 1]? = some (wallChar m ((m.Width - 1) * m.Height + (c : Int) +
          (i : Int) * m.Width)) := by
  obtain ⟨seg, hs, hl, hn, hidx⟩ := printSepWalls_spec m hw hlen i hi m.Width.toNat 0
    (out ++ ['+']) (by push_cast; omega)
  refine ⟨['+'] ++ seg, _, hs, by simp, ?_, ?_, ?_⟩
  · simp only [List.length_append, List.length_cons, List.length_nil, hl]
    push_cast
    omega
  · intro hmem
    simp only [List.cons_append, List.nil_append, List.mem_cons] at hmem
    rcases hmem with h | h
    · revert h
      decide
    · exact hn h
  · intro c hc
    have := hidx c (by omega)
    simp only [Nat.zero_add] at this
    simp only [List.cons_append, List.nil_append, List.getElem?_cons_succ]
    exact this

/-- The lines that the loop over the rows of `Print` writes, from row `i` on. -/
theorem printRows_spec (m : MazeData) (hw : 1 ≤ m.Width)
    (hlen : (m.Walls.length : Int) = wallCount m) :
    ∀ (n i : Nat) (out : List Char), ((i + n : Nat) : Int) = m.Height →
      ∃ lines : List (List Char), printRows m n i out = .ok (out ++ joinLines lines) ∧
        lines.length = 2 * n - 1 ∧
        (∀ l ∈ lines, (l.length : Int) = 2 * m.Width + 1 ∧ '\n' ∉ l) ∧
        (∀ t, t < n → ∃ l, lines[2 * t]? = some l ∧
          ∀ c : Nat, (c : Int) + 1 < m.Width →
            l[2 * c + 2]? = some (wallChar m (((i + t : Nat) : Int) * (m.Width - 1) + (c : Int)))) ∧
        (∀ t, t + 1 < n → ∃ l, lines[2 * t + 1]? = some l ∧
          ∀ c : Nat, (c : Int) < m.Width →
            l[2 * c + 1]? = some (wallChar m ((m.Width - 1) * m.Height + (c : Int) +
              ((i + t : Nat) : Int) * m.Width))) := by
  intro n
  induction n with
  | zero =>
    intro i out _
    exact ⟨[], by simp [printRows, joinLines], rfl, by simp, fun t ht => by omega,
      fun t ht => by omega⟩
  | succ n ih =>
    intro i out hi
    push_cast at hi
    obtain ⟨lr, out1, hrow, hrjoin, hrlen, hrnl, hridx⟩ :=
      printRow_line m hw hlen i (by omega) out
    by_cases hlast : (i : Int) < m.Height - 1
    · obtain ⟨ls, out2, hsep, hsjoin, hslen, hsnl, hsidx⟩ :=
        printSep_line m hw hlen i (by omega) (out1 ++ [' ', '|', '\n'])
      obtain ⟨lines, hrest, hlines, hall, hrows, hseps⟩ := ih (i + 1) (out2 ++ ['\n'])
        (by push_cast; omega)
      refine ⟨lr :: ls :: lines, ?_, ?_, ?_, ?_, ?_⟩
      · rw [printRows]
        simp only [hrow, hlast, if_true, hsep, hrest]
        rw [hsjoin, hrjoin]
        simp [joinLines, List.append_assoc]
      · simp only [List.length_cons, hlines]
        have : 1 ≤ n := by omega
        omega
      · intro l hl
        simp only [List.mem_cons] at hl
        rcases hl with e | e | e
        · rw [e]; exact ⟨hrlen, hrnl⟩
        · rw [e]; exact ⟨hslen, hsnl⟩
        · exact hall l e
      · intro t ht
        cases t with
        | zero => exact ⟨lr, rfl, by simpa using hridx⟩
        | succ t =>
          obtain ⟨l, hl, hc⟩ := hrows t (by omega)
          have e1 : 2 * (t + 1) = 2 * t + 1 + 1 := by omega
          have e2 : i + 1 + t = i + (t + 1) := by omega
          rw [e2] at hc
          exact ⟨l, by rw [e1]; simpa using hl, hc⟩
      · intro t ht
        cases t with
        | zero => exact ⟨ls, by simp, by simpa using hsidx⟩
        | succ t =>
          obtain ⟨l, hl, hc⟩ := hseps t (by omega)
          have e1 : 2 * (t + 1) + 1 = 2 * t + 1 + 1 + 1 := by omega
          have e2 : i + 1 + t = i + (t + 1) := by omega
          rw [e2] at hc
          exact ⟨l, by rw [e1]; simpa using hl, hc⟩
    · have hn0 : n = 0 := by omega
      subst hn0
      refine ⟨[lr], ?_, rfl, ?_, ?_, ?_⟩
      · rw [printRows]
        simp only [hrow, hlast, if_false, printRows]
        rw [hrjoin]
        simp [joinLines]
      · intro l hl
        rw [List.mem_singleton] at hl
        rw [hl]
        exact ⟨hrlen, hrnl⟩
      · intro t ht
        have : t = 0 := by omega
        subst this
        exact ⟨lr, rfl, by simpa using hridx⟩
      · intro t ht
        omega

theorem joinLines_append (xs ys : List (List Char)) :
    joinLines (xs ++ ys) = joinLines xs ++ joinLines ys := by
  induction xs with
  | nil => rfl
  | cons x xs ih => simp [joinLines, ih]

theorem getSeparatedCells_range (m : MazeData) (hw : 1 ≤ m.Width) (hh : 1 ≤ m.Height)
    (wid : Int) (p : Int × Int) (hg : getSeparatedCells m wid = .ok p) :
    0 ≤ wid ∧ wid < wallCount m := by
  have hv := vertical_le_wallCount m hw hh
  unfold wallCount at hv ⊢
  unfold getSeparatedCells at hg
  by_cases hneg : wid < 0
  · simp [hneg] at hg
  · refine ⟨not_lt.mp hneg, ?_⟩
    by_contra hlt
    have hlt1 : ¬ wid < (m.Width - 1) * m.Height := by omega
    simp [hneg, hlt1, hlt] at hg

theorem wid_of_right_wall (m : MazeData) (hw : 1 ≤ m.Width) (hh : 1 ≤ m.Height)
    (r c wid : Int) (c0 : 0 ≤ c) (c1 : c + 1 < m.Width)
    (hg : getSeparatedCells m wid = .ok (r * m.Width + c, r * m.Width + c + 1)) :
    wid = r * (m.Width - 1) + c ∧ wid < (m.Width - 1) * m.Height := by
  obtain ⟨h0, h1⟩ := getSeparatedCells_range m hw hh wid _ hg
  rcases getSeparatedCells_shape m wid hw h0 h1 with
    ⟨hv, row, col, _, _, k0, k1, hwid, hs⟩ | ⟨_, hs⟩
  · rw [hg] at hs
    simp only [Except.ok.injEq, Prod.mk.injEq] at hs
    obtain ⟨er, ec⟩ := rowcol_unique m.Width r c row col c0 (by omega) k0 (by omega)
      (by omega)
    rw [hwid, ← er, ← ec]
    exact ⟨rfl, by rw [er, ec, ← hwid]; exact hv⟩
  · rw [hg] at hs
    simp only [Except.ok.injEq, Prod.mk.injEq] at hs
    omega

theorem wid_of_lower_wall (m : MazeData) (hw : 1 ≤ m.Width) (hh : 1 ≤ m.Height)
    (r c wid : Int)
    (hg : getSeparatedCells m wid = .ok (r * m.Width + c, (r + 1) * m.Width + c)) :
    wid = (m.Width - 1) * m.Height + c + r * m.Width ∧ ¬ wid < (m.Width - 1) * m.Height := by
  obtain ⟨h0, h1⟩ := getSeparatedCells_range m hw hh wid _ hg
  have hexp : (r + 1) * m.Width = r * m.Width + m.Width := by ring
  rcases getSeparatedCells_shape m wid hw h0 h1 with
    ⟨_, row, col, _, _, k0, k1, _, hs⟩ | ⟨hge, hs⟩
  · rw [hg] at hs
    simp only [Except.ok.injEq, Prod.mk.injEq] at hs
    omega
  · rw [hg] at hs
    simp only [Except.ok.injEq, Prod.mk.injEq] at hs
    exact ⟨by omega, by omega⟩

/-- C20: for a maze with `Width, Height ≥ 1` and `Walls` of length `wallCount`,
`Print` raises no panic (no access to `Walls` is out of range, `wallStr` does
not panic) and writes `2*Height + 1` lines of `2*Width + 1` characters each.
The character between cell `(r, c)` and its right neighbour (line `2r+1`,
position `2c+2`) is a space if the wall `wid` with
`getSeparatedCells(wid) = (r*Width + c, r*Width + c + 1)` is removed and `|`
otherwise; the character between cell `(r, c)` and the cell below (line `2r+2`,
position `2c+1`) is a space if the wall `wid` with
`getSeparatedCells(wid) = (r*Width + c, (r+1)*Width + c)` is removed and `-`
otherwise. -/
theorem Print_agrees (m : MazeData) (hw : 1 ≤ m.Width) (hh : 1 ≤ m.Height)
    (hlen : (m.Walls.length : Int) = wallCount m) :
    ∃ lines : List (List Char), Print m = .ok (joinLines lines) ∧
      (lines.length : Int) = 2 * m.Height + 1 ∧
      (∀ l ∈ lines, (l.length : Int) = 2 * m.Width + 1 ∧ '\n' ∉ l) ∧
      (∀ (r c : Nat) (wid : Int), (r : Int) < m.Height → (c : Int) + 1 < m.Width →
        getSeparatedCells m wid =
          .ok ((r : Int) * m.Width + (c : Int), (r : Int) * m.Width + (c : Int) + 1) →
        ∃ l, lines[2 * r + 1]? = some l ∧
          l[2 * c + 2]? = some (if Removed m wid then ' ' else '|')) ∧
      (∀ (r c : Nat) (wid : Int), (r : Int) + 1 < m.Height → (c : Int) < m.Width →
        getSeparatedCells m wid =
          .ok ((r : Int) * m.Width + (c : Int), ((r : Int) + 1) * m.Width + (c : Int)) →
        ∃ l, lines[2 * r + 2]? = some l ∧
          l[2 * c + 1]? = some (if Removed m wid then ' ' else '-')) := by
  obtain ⟨seg1, hb1, hl1, hn1⟩ := printBorder_spec m.Width.toNat ['+']
  obtain ⟨lines, hrows, hlines, hall, hrow, hsep⟩ := printRows_spec m hw hlen m.Height.toNat 0
    (['+'] ++ seg1 ++ ['\n']) (by push_cast; omega)
  obtain ⟨seg2, hb2, hl2, hn2⟩ := printBorder_spec m.Width.toNat
    (['+'] ++ seg1 ++ ['\n'] ++ joinLines lines ++ ['+'])
  have hborder : ∀ seg : List Char, seg.length = 2 * m.Width.toNat → '\n' ∉ seg →
      ((['+'] ++ seg).length : Int) = 2 * m.Width + 1 ∧ '\n' ∉ ['+'] ++ seg := by
    intro seg hl hn
    constructor
    · simp only [List.length_append, List.length_cons, List.length_nil, hl]
      push_cast
      omega
    · intro hmem
      simp only [List.cons_append, List.nil_append, List.mem_cons] at hmem
      rcases hmem with h | h
      · revert h
        decide
      · exact hn h
  refine ⟨(['+'] ++ seg1) :: lines ++ [['+'] ++ seg2], ?_, ?_, ?_, ?_, ?_⟩
  · unfold Print
    simp only [hb1, hrows, hb2]
    simp [joinLines, joinLines_append, List.append_assoc]
  · simp only [List.length_append, List.length_cons, List.length_nil, hlines]
    push_cast
    omega
  · intro l hl
    simp only [List.cons_append, List.mem_cons, List.mem_append, List.not_mem_nil,
      or_false] at hl
    rcases hl with e | e | e
    · rw [e]; exact hborder seg1 hl1 hn1
    · exact hall l e
    · rw [e]; exact hborder seg2 hl2 hn2
  · intro r c wid hr hc hg
    obtain ⟨hwid, hv⟩ := wid_of_right_wall m hw hh r c wid (by omega) hc hg
    obtain ⟨l, hl, hch⟩ := hrow r (by omega)
    refine ⟨l, ?_, ?_⟩
    · have hlt : 2 * r < lines.length := (List.getElem?_eq_some.mp hl).1
      rw [List.cons_append, List.getElem?_cons_succ, List.getElem?_append_left hlt, hl]
    · rw [hch c hc]
      simp only [Nat.zero_add]
      rw [← hwid]
      unfold wallChar
      simp only [hv, if_true]
  · intro r c wid hr hc hg
    obtain ⟨hwid, hv⟩ := wid_of_lower_wall m hw hh r c wid hg
    obtain ⟨l, hl, hch⟩ := hsep r (by omega)
    refine ⟨l, ?_, ?_⟩
    · have hlt : 2 * r + 1 < lines.length := (List.getElem?_eq_some.mp hl).1
      rw [List.cons_append, List.getElem?_cons_succ, List.getElem?_append_left hlt, hl]
    · rw [hch c hc]
      simp only [Nat.zero_add]
      rw [← hwid]
      unfold wallChar
      simp only [hv, if_false]

theorem Print_agrees_witness :
    ∃ lines : List (List Char),
      Print ⟨2, 2, [0, 0, 0, 0], [1, 1, 1, 0], [[1, 2], [], [3], []]⟩ = .ok (joinLines lines) ∧
      (lines.length : Int) = 2 * 2 + 1 ∧
      (∀ l ∈ lines, (l.length : Int) = 2 * 2 + 1 ∧ '\n' ∉ l) ∧
      (∀ (r c : Nat) (wid : Int), (r : Int) < 2 → (c : Int) + 1 < 2 →
        getSeparatedCells ⟨2, 2, [0, 0, 0, 0], [1, 1, 1, 0], [[1, 2], [], [3], []]⟩ wid =
          .ok ((r : Int) * 2 + (c : Int), (r : Int) * 2 + (c : Int) + 1) →
        ∃ l, lines[2 * r + 1]? = some l ∧
          l[2 * c + 2]? = some
            (if Removed ⟨2, 2, [0, 0, 0, 0], [1, 1, 1, 0], [[1, 2], [], [3], []]⟩ wid then ' '
              else '|')) ∧
      (∀ (r c : Nat) (wid : Int), (r : Int) + 1 < 2 → (c : Int) < 2 →
        getSeparatedCells ⟨2, 2, [0, 0, 0, 0], [1, 1, 1, 0], [[1, 2], [], [3], []]⟩ wid =
          .ok ((r : Int) * 2 + (c : Int), ((r : Int) + 1) * 2 + (c : Int)) →
        ∃ l, lines[2 * r + 2]? = some l ∧
          l[2 * c + 1]? = some
            (if Removed ⟨2, 2, [0, 0, 0, 0], [1, 1, 1, 0], [[1, 2], [], [3], []]⟩ wid then ' '
              else '-')) :=
  Print_agrees ⟨2, 2, [0, 0, 0, 0], [1, 1, 1, 0], [[1, 2], [], [3], []]⟩ (by decide) (by decide)
    (by decide)

/-! ## The program on 64-bit integers agrees with the program on integers -/

theorem wrap64_eq (x : Int) (h0 : -9223372036854775808 ≤ x) (h1 : x < 9223372036854775808) :
    wrap64 x = x := by
  unfold wrap64
  omega

theorem wrap64_range (x : Int) :
    -9223372036854775808 ≤ wrap64 x ∧ wrap64 x < 9223372036854775808 := by
  unfold wrap64
  omega

/-- Sizes of a grid with `w, h ≥ 1`, in terms of the number `w*h` of cells. -/
theorem grid_sizes (w h : Int) (hw : 1 ≤ w) (hh : 1 ≤ h) :
    w ≤ w * h ∧ h ≤ w * h ∧ (w - 1) * h = w * h - h ∧ w * (h - 1) = w * h - w := by
  refine ⟨?_, ?_, by ring, by ring⟩
  · exact le_mul_of_one_le_right (by omega) hh
  · exact le_mul_of_one_le_left (by omega) hw

/-- On a grid whose sizes do not wrap around, `getSeparatedCells` computes on
64-bit integers what it computes on integers. -/
theorem getSeparatedCells64_eq (m : MazeData) (hw : 1 ≤ m.Width) (hh : 1 ≤ m.Height)
    (hfit : m.Width * m.Height * 2 < 9223372036854775808) (wid : Int) :
    getSeparatedCells64 m wid = getSeparatedCells m wid := by
  obtain ⟨g1, g2, g3, g4⟩ := grid_sizes m.Width m.Height hw hh
  have hd : wrap64 (m.Width - 1) = m.Width - 1 := wrap64_eq _ (by omega) (by omega)
  have ht1 : wrap64 ((m.Width - 1) * m.Height) = (m.Width - 1) * m.Height :=
    wrap64_eq _ (by omega) (by omega)
  have hwh : wrap64 (m.Width * m.Height) = m.Width * m.Height :=
    wrap64_eq _ (by omega) (by omega)
  have hwh2 : wrap64 (m.Width * m.Height * 2) = m.Width * m.Height * 2 :=
    wrap64_eq _ (by omega) (by omega)
  have hs : wrap64 (m.Width + m.Height) = m.Width + m.Height :=
    wrap64_eq _ (by omega) (by omega)
  have ht2 : wrap64 (m.Width * m.Height * 2 - (m.Width + m.Height)) =
      m.Width * m.Height * 2 - (m.Width + m.Height) := wrap64_eq _ (by omega) (by omega)
  unfold getSeparatedCells64 getSeparatedCells
  simp only [hd, ht1, hwh, hwh2, hs, ht2]
  by_cases hneg : wid < 0
  · simp only [hneg, if_true]
  · simp only [hneg, if_false]
    by_cases hv : wid < (m.Width - 1) * m.Height
    · simp only [hv, if_true]
      by_cases hz : m.Width - 1 = 0
      · simp only [hz, if_true]
      · simp only [hz, if_false]
        have hdpos : 0 < m.Width - 1 := by omega
        obtain ⟨b1, b2, b3, b4, _⟩ :=
          tdiv_tmod_bounds (m.Width - 1) m.Height wid hdpos (not_lt.mp hneg) hv
        have hrw0 : 0 ≤ Int.tdiv wid (m.Width - 1) * m.Width := mul_nonneg b3 (by omega)
        have hrw1 : Int.tdiv wid (m.Width - 1) * m.Width ≤ (m.Height - 1) * m.Width :=
          mul_le_mul_of_nonneg_right (by omega) (by omega)
        have hexp : (m.Height - 1) * m.Width = m.Width * m.Height - m.Width := by ring
        have e1 : wrap64 (Int.tdiv wid (m.Width - 1)) = Int.tdiv wid (m.Width - 1) :=
          wrap64_eq _ (by omega) (by omega)
        have e2 : wrap64 (Int.tdiv wid (m.Width - 1) * m.Width) =
            Int.tdiv wid (m.Width - 1) * m.Width := wrap64_eq _ (by omega) (by omega)
        have e3 : wrap64 (Int.tmod wid (m.Width - 1) + Int.tdiv wid (m.Width - 1) * m.Width) =
            Int.tmod wid (m.Width - 1) + Int.tdiv wid (m.Width - 1) * m.Width :=
          wrap64_eq _ (by omega) (by omega)
        have e4 : wrap64 (Int.tmod wid (m.Width - 1) + Int.tdiv wid (m.Width - 1) * m.Width
            + 1) = Int.tmod wid (m.Width - 1) + Int.tdiv wid (m.Width - 1) * m.Width + 1 :=
          wrap64_eq _ (by omega) (by omega)
        rw [e1, e2, e3, e4]
    · simp only [hv, if_false]
      by_cases hh2 : wid < m.Width * m.Height * 2 - (m.Width + m.Height)
      · simp only [hh2, if_true]
        have e1 : wrap64 (wid - (m.Width - 1) * m.Height) = wid - (m.Width - 1) * m.Height :=
          wrap64_eq _ (by omega) (by omega)
        have e2 : wrap64 (wid - (m.Width - 1) * m.Height + m.Width) =
            wid - (m.Width - 1) * m.Height + m.Width := wrap64_eq _ (by omega) (by omega)
        rw [e1, e2]
      · simp only [hh2, if_false]

/-- Division by zero does not occur in `getSeparatedCells` on 64-bit integers,
whatever the maze: the branch that divides is entered only for
`0 ≤ wid < (w-1)*h`, which a zero divisor `w-1` makes empty. -/
theorem getSeparatedCells64_no_divideByZero (m : MazeData) (wid : Int) :
    getSeparatedCells64 m wid ≠ .error .divideByZero := by
  unfold getSeparatedCells64
  by_cases hneg : wid < 0
  · simp [hneg]
  · simp only [hneg, if_false]
    by_cases hz : wrap64 (m.Width - 1) = 0
    · have ht1 : wrap64 (wrap64 (m.Width - 1) * m.Height) = 0 := by
        rw [hz, zero_mul]
        decide
      have : ¬ wid < 0 := hneg
      simp only [ht1, this, if_false]
      split <;> simp
    · simp only [hz, if_false]
      split
      · simp
      · split <;> simp

theorem make64_eq {α : Type} (elemSize : Int) (zero : α) (n : Int) (h0 : 0 ≤ n)
    (h1 : n * elemSize ≤ maxAlloc) : make64 elemSize zero n = make zero n := by
  unfold make64 make
  have c1 : ¬ (n < 0 ∨ n * elemSize > maxAlloc) := by omega
  have c2 : ¬ n < 0 := by omega
  rw [if_neg c1, if_neg c2]

/-- For `w, h ≥ 1` whose slices fit the allocation limit, `NewMaze` computes on
64-bit integers what it computes on integers. -/
theorem NewMaze64_eq (w h : Int) (hw : 1 ≤ w) (hh : 1 ≤ h) (hfit : w * h * 24 ≤ maxAlloc) :
    NewMaze64 w h = NewMaze w h := by
  obtain ⟨g1, g2, g3, g4⟩ := grid_sizes w h hw hh
  unfold maxAlloc at hfit
  have hwh : wrap64 (w * h) = w * h := wrap64_eq _ (by omega) (by omega)
  have hwh2 : wrap64 (w * h * 2) = w * h * 2 := wrap64_eq _ (by omega) (by omega)
  have hs : wrap64 (w + h) = w + h := wrap64_eq _ (by omega) (by omega)
  have ht2 : wrap64 (w * h * 2 - (w + h)) = w * h * 2 - (w + h) :=
    wrap64_eq _ (by omega) (by omega)
  have m1 : make64 8 (0 : Int) (w * h) = make 0 (w * h) :=
    make64_eq 8 0 (w * h) (by omega) (by unfold maxAlloc; omega)
  have m2 : make64 8 (0 : Int) (w * h * 2 - (w + h)) = make 0 (w * h * 2 - (w + h)) :=
    make64_eq 8 0 _ (by omega) (by unfold maxAlloc; omega)
  have m3 : make64 24 ([] : List Int) (w * h) = make [] (w * h) :=
    make64_eq 24 [] (w * h) (by omega) (by unfold maxAlloc; omega)
  unfold NewMaze64 NewMaze
  simp only [hwh, hwh2, hs, ht2, m1, m2, m3]

theorem margeArea64_eq (m : MazeData) (hw : 1 ≤ m.Width) (hh : 1 ≤ m.Height)
    (hfit : m.Width * m.Height * 2 < 9223372036854775808) (oldAid newAid : Int) :
    margeArea64 m oldAid newAid = margeArea m oldAid newAid := by
  obtain ⟨g1, g2, g3, g4⟩ := grid_sizes m.Width m.Height hw hh
  have hwh : wrap64 (m.Width * m.Height) = m.Width * m.Height :=
    wrap64_eq _ (by omega) (by omega)
  unfold margeArea64 margeArea
  simp only [hwh]

theorem updateAreas64_eq (m : MazeData) (hw : 1 ≤ m.Width) (hh : 1 ≤ m.Height)
    (hfit : m.Width * m.Height * 2 < 9223372036854775808) (cid1 cid2 : Int) :
    updateAreas64 m cid1 cid2 = updateAreas m cid1 cid2 := by
  unfold updateAreas64 updateAreas
  simp only [margeArea64_eq m hw hh hfit]

/-- On a grid whose sizes do not wrap around, `removeWall` computes on 64-bit
integers what it computes on integers. -/
theorem removeWall64_eq (m : MazeData) (hw : 1 ≤ m.Width) (hh : 1 ≤ m.Height)
    (hfit : m.Width * m.Height * 2 < 9223372036854775808) (wid : Int) :
    removeWall64 m wid = removeWall m wid := by
  unfold removeWall64 removeWall
  simp only [getSeparatedCells64_eq m hw hh hfit, updateAreas64_eq m hw hh hfit]

theorem isAllSameArea64_eq (m : MazeData) (hw : 1 ≤ m.Width) (hh : 1 ≤ m.Height)
    (hfit : m.Width * m.Height * 2 < 9223372036854775808) :
    isAllSameArea64 m = isAllSameArea m := by
  obtain ⟨g1, g2, g3, g4⟩ := grid_sizes m.Width m.Height hw hh
  have hwh : wrap64 (m.Width * m.Height) = m.Width * m.Height :=
    wrap64_eq _ (by omega) (by omega)
  unfold isAllSameArea64 isAllSameArea
  rw [hwh]

/-- A `removeWall` call that returns on a well-formed state was given a wall
index in range and returns a well-formed state. -/
theorem removeWall_wf (w h : Int) (m m1 : MazeData) (hwf : WF w h m) (wid : Int)
    (hrm : removeWall m wid = .ok m1) : WF w h m1 := by
  have hrange : 0 ≤ wid ∧ wid < w * h * 2 - (w + h) := by
    unfold removeWall at hrm
    cases hidx : index m.Walls wid with
    | error e => simp [hidx] at hrm
    | ok wall =>
      obtain ⟨h0, hg⟩ := (index_eq_ok _ _ _).mp hidx
      obtain ⟨hlt, _⟩ := List.getElem?_eq_some.mp hg
      have := hwf.wallsLen
      omega
  rcases removeWall_cases w h m m1 hwf wid hrange.1 hrange.2 hrm with e | ⟨c1, c2, a1, a2, hs, e⟩
  · rw [e]; exact hwf
  · rw [e]; exact merged_wf w h m hwf wid c1 c2 a1 a2 hs

theorem BuildLoop64_eq (w h : Int) (rnd : Nat → Int) (numWalls : Int)
    (hfit : w * h * 2 < 9223372036854775808) :
    ∀ (fuel : Nat) (m : MazeData) (counter : Int) (k : Nat), WF w h m → 0 ≤ counter →
      counter < 9223372036854775808 →
      BuildLoop64 rnd numWalls fuel m counter k = BuildLoop rnd numWalls fuel m counter k := by
  intro fuel
  induction fuel with
  | zero => intro m counter k _ _ _; rfl
  | succ fuel ih =>
    intro m counter k hwf hc0 hc1
    have hw : 1 ≤ m.Width := by rw [hwf.width]; exact hwf.wpos
    have hh : 1 ≤ m.Height := by rw [hwf.height]; exact hwf.hpos
    have hf : m.Width * m.Height * 2 < 9223372036854775808 := by
      rw [hwf.width, hwf.height]; exact hfit
    have hcnt : wrap64 (counter - 1) = counter - 1 := wrap64_eq _ (by omega) (by omega)
    rw [BuildLoop64, BuildLoop]
    simp only [isAllSameArea64_eq m hw hh hf, removeWall64_eq m hw hh hf, hcnt]
    cases isAllSameArea m with
    | error e => rfl
    | ok b =>
      cases b with
      | true => rfl
      | false =>
        simp only []
        cases Intn rnd k numWalls with
        | error e => rfl
        | ok wid =>
          simp only []
          cases hrm : removeWall m wid with
          | error e => rfl
          | ok m1 =>
            simp only []
            by_cases hz : counter - 1 < 0
            · simp only [hz, if_true]
            · simp only [hz, if_false]
              exact ih m1 (counter - 1) (k + 1) (removeWall_wf w h m m1 hwf wid hrm) (by omega)
                (by omega)

/-- On a well-formed maze whose counter `w*h*10` does not wrap around, `Build`
computes on 64-bit integers what it computes on integers. -/
theorem Build64_eq (w h : Int) (rnd : Nat → Int) (m : MazeData) (hwf : WF w h m)
    (hfit : w * h * 10 < 9223372036854775808) : Build64 m rnd = Build m rnd := by
  have hpos := cellCount_pos w h hwf.wpos hwf.hpos
  have hwh : wrap64 (w * h) = w * h := wrap64_eq _ (by omega) (by omega)
  have hc : wrap64 (w * h * 10) = w * h * 10 := wrap64_eq _ (by omega) (by omega)
  have hc1 : wrap64 (w * h * 10 - 1) = w * h * 10 - 1 := wrap64_eq _ (by omega) (by omega)
  unfold Build64 Build
  simp only [hwf.width, hwf.height, hwh, hc, hc1]
  have hfuel : (w * h * 10 - 1 + 1).toNat + 2 = (w * h * 10 + 1).toNat + 1 := by omega
  rw [hfuel]
  exact BuildLoop64_eq w h rnd _ (by omega) _ m _ 0 hwf (by omega) hfit

theorem afterDraws64_eq (w h : Int) (rnd : Nat → Int)
    (hfit : w * h * 2 < 9223372036854775808) :
    ∀ (j : Nat) (m : MazeData) (k : Nat), WF w h m →
      afterDraws64 rnd j m k = afterDraws rnd j m k := by
  intro j
  induction j with
  | zero => intro m k _; rfl
  | succ j ih =>
    intro m k hwf
    have hw : 1 ≤ m.Width := by rw [hwf.width]; exact hwf.wpos
    have hh : 1 ≤ m.Height := by rw [hwf.height]; exact hwf.hpos
    have hf : m.Width * m.Height * 2 < 9223372036854775808 := by
      rw [hwf.width, hwf.height]; exact hfit
    rw [afterDraws64, afterDraws]
    simp only [removeWall64_eq m hw hh hf]
    cases hrm : removeWall m (rnd k) with
    | error e => rfl
    | ok m1 => exact ih m1 (k + 1) (removeWall_wf w h m m1 hwf _ hrm)

/-- A maze that `NewMaze` returns on 64-bit integers, for sizes that do not
wrap around, fits the allocation limit. -/
theorem NewMaze64_ok_fit (w h : Int) (m0 : MazeData)
    (hfit : w * h * 2 < 9223372036854775808) (h0 : NewMaze64 w h = .ok m0) :
    1 ≤ w ∧ 1 ≤ h ∧ w * h * 24 ≤ maxAlloc := by
  have hwh : 1 ≤ w ∧ 1 ≤ h := by
    by_contra hc
    have : w < 1 ∨ h < 1 := by omega
    simp [NewMaze64, this] at h0
  obtain ⟨hw, hh⟩ := hwh
  refine ⟨hw, hh, ?_⟩
  obtain ⟨g1, g2, g3, g4⟩ := grid_sizes w h hw hh
  have hwhe : wrap64 (w * h) = w * h := wrap64_eq _ (by omega) (by omega)
  by_contra hbig
  have hm3 : make64 24 ([] : List Int) (w * h) = .error .makeNegativeLen := by
    unfold make64
    rw [if_pos (Or.inr (by omega))]
  have g : ¬ (w < 1 ∨ h < 1) := by omega
  unfold NewMaze64 at h0
  simp only [g, if_false, hwhe, hm3] at h0
  split at h0
  · simp at h0
  · split at h0
    · simp at h0
    · split at h0 <;> simp at h0

/-- The maze that the program on 64-bit integers starts from, on a grid whose
sizes do not wrap around, is a state of `Reach`. -/
theorem Reach_NewMaze64 (w h : Int) (m0 : MazeData) (hfit : w * h * 2 < 9223372036854775808)
    (h0 : NewMaze64 w h = .ok m0) : Reach w h m0 := by
  obtain ⟨hw, hh, hall⟩ := NewMaze64_ok_fit w h m0 hfit h0
  rw [NewMaze64_eq w h hw hh hall] at h0
  exact Reach.init h0

/-- A `removeWall` call of the program on 64-bit integers, on a grid whose sizes
do not wrap around, leads from a state of `Reach` to a state of `Reach`. -/
theorem Reach_removeWall64 (w h : Int) (m m1 : MazeData) (wid : Int)
    (hfit : w * h * 2 < 9223372036854775808) (hr : Reach w h m)
    (hrm : removeWall64 m wid = .ok m1) : Reach w h m1 := by
  have hwf := Reach_wf w h m hr
  have hw : 1 ≤ m.Width := by rw [hwf.width]; exact hwf.wpos
  have hh : 1 ≤ m.Height := by rw [hwf.height]; exact hwf.hpos
  have hf : m.Width * m.Height * 2 < 9223372036854775808 := by
    rw [hwf.width, hwf.height]; exact hfit
  rw [removeWall64_eq m hw hh hf] at hrm
  have hrange : 0 ≤ wid ∧ wid < w * h * 2 - (w + h) := by
    have hrm2 := hrm
    unfold removeWall at hrm2
    cases hidx : index m.Walls wid with
    | error e => simp [hidx] at hrm2
    | ok wall =>
      obtain ⟨h0, hg⟩ := (index_eq_ok _ _ _).mp hidx
      obtain ⟨hlt, _⟩ := List.getElem?_eq_some.mp hg
      have := hwf.wallsLen
      omega
  exact Reach.step hr hrange.1 hrange.2 hrm

theorem BuildLoop64_fuel (rnd : Nat → Int) (numWalls : Int) :
    ∀ (fuel : Nat) (m : MazeData) (counter : Int) (k : Nat),
      (wrap64 (counter - 1) + 1).toNat + 2 ≤ fuel →
      BuildLoop64 rnd numWalls fuel m counter k ≠ none := by
  intro fuel
  induction fuel with
  | zero => intro m counter k hf; omega
  | succ fuel ih =>
    intro m counter k hf
    unfold BuildLoop64
    cases hsame : isAllSameArea64 m with
    | error e => simp
    | ok b =>
      cases b with
      | true => simp
      | false =>
        simp only []
        cases hdraw : Intn rnd k numWalls with
        | error e => simp
        | ok wid =>
          simp only []
          cases hrm : removeWall64 m wid with
          | error e => simp
          | ok m1 =>
            simp only []
            by_cases hc : wrap64 (counter - 1) < 0
            · simp [hc]
            · simp only [hc, if_false]
              have hr := wrap64_range (counter - 1)
              have he : wrap64 (wrap64 (counter - 1) - 1) = wrap64 (counter - 1) - 1 :=
                wrap64_eq _ (by omega) (by omega)
              exact ih m1 _ (k + 1) (by rw [he]; omega)

/-- On 64-bit integers too the fuel that `Build` supplies never runs out: on
every maze and every random source `Build64` halts. -/
theorem Build64_fuel_suffices (m : MazeData) (rnd : Nat → Int) : Build64 m rnd ≠ none :=
  BuildLoop64_fuel rnd _ _ m _ 0 (le_refl _)

/-! ## The geometry of the walls, on 64-bit integers -/

/-- C8, as the code refutes it: on `Width = 2^63 - 1`, `Height = 2^63 - 3` the
sizes wrap around (`NewMaze` returns this maze with 3 cells and 10 walls), wall
index 0 is in range, and `getSeparatedCells(0)` returns
`(9223372036854775802, -7)`: not two cells of the grid. -/
theorem getSeparatedCells64_adjacent_fails :
    ((1 : Int) ≤ 9223372036854775807 ∧ (1 : Int) ≤ 9223372036854775805 ∧
      0 < wallCount ⟨9223372036854775807, 9223372036854775805, [], [], []⟩ ∧
      getSeparatedCells64 ⟨9223372036854775807, 9223372036854775805, [], [], []⟩ 0 =
        .ok (9223372036854775802, -7)) ∧
    ¬ ∃ cid1 cid2 : Int,
      getSeparatedCells64 ⟨9223372036854775807, 9223372036854775805, [], [], []⟩ 0 =
        .ok (cid1, cid2) ∧ 0 ≤ cid1 ∧ 0 ≤ cid2 := by
  refine ⟨by decide, ?_⟩
  rintro ⟨c1, c2, hg, _, h2⟩
  have hval : getSeparatedCells64 ⟨9223372036854775807, 9223372036854775805, [], [], []⟩ 0 =
      .ok (9223372036854775802, -7) := by decide
  rw [hval] at hg
  simp only [Except.ok.injEq, Prod.mk.injEq] at hg
  omega

/-- C8, amended: for `Width, Height ≥ 1` with `Width*Height*2 < 2^63` (the sizes
do not wrap around) and a wall index `wid` in `[0, wallCount)`,
`getSeparatedCells(wid)` returns two distinct cells `(cid1, cid2)`, both in
`[0, Width*Height)`, that are adjacent in the grid: for
`wid < (Width-1)*Height` they lie in the same row with `cid2 = cid1 + 1` and
`cid1` not in the last column, and otherwise they lie in the same column with
`cid2 = cid1 + Width`. -/
theorem getSeparatedCells64_adjacent (m : MazeData) (hw : 1 ≤ m.Width) (hh : 1 ≤ m.Height)
    (hfit : m.Width * m.Height * 2 < 9223372036854775808)
    (wid : Int) (h0 : 0 ≤ wid) (h1 : wid < wallCount m) :
    ∃ cid1 cid2 : Int, getSeparatedCells64 m wid = .ok (cid1, cid2) ∧ cid1 ≠ cid2 ∧
      0 ≤ cid1 ∧ cid1 < cellCount m ∧ 0 ≤ cid2 ∧ cid2 < cellCount m ∧
      (wid < (m.Width - 1) * m.Height →
        cid2 = cid1 + 1 ∧ cid1 / m.Width = cid2 / m.Width ∧ cid1 % m.Width ≠ m.Width - 1) ∧
      (¬ wid < (m.Width - 1) * m.Height →
        cid2 = cid1 + m.Width ∧ cid1 % m.Width = cid2 % m.Width) := by
  rw [getSeparatedCells64_eq m hw hh hfit]
  exact getSeparatedCells_adjacent m hw hh wid h0 h1

theorem getSeparatedCells64_adjacent_witness :
    ∃ cid1 cid2 : Int, getSeparatedCells64 ⟨3, 2, [], [], []⟩ 3 = .ok (cid1, cid2) ∧
      cid1 ≠ cid2 ∧ 0 ≤ cid1 ∧ cid1 < cellCount ⟨3, 2, [], [], []⟩ ∧ 0 ≤ cid2 ∧
      cid2 < cellCount ⟨3, 2, [], [], []⟩ ∧
      ((3 : Int) < (3 - 1) * 2 → cid2 = cid1 + 1 ∧ cid1 / 3 = cid2 / 3 ∧ cid1 % 3 ≠ 3 - 1) ∧
      (¬ (3 : Int) < (3 - 1) * 2 → cid2 = cid1 + 3 ∧ cid1 % 3 = cid2 % 3) :=
  getSeparatedCells64_adjacent ⟨3, 2, [], [], []⟩ (by decide) (by decide) (by decide) 3
    (by decide) (by decide)

/-- C10, as the code refutes it: on `Width = 2^62`, `Height = 4` the bounds that
`getSeparatedCells` computes wrap around (`t1 = -4`, `t2 < 0`), and wall index 5,
which is in `[0, wallCount)`, makes it panic. -/
theorem getSeparatedCells64_panics_iff_fails :
    ((1 : Int) ≤ 4611686018427387904 ∧ (1 : Int) ≤ 4 ∧
      getSeparatedCells64 ⟨4611686018427387904, 4, [], [], []⟩ 5 = .error .widTooLarge) ∧
    ¬ ((∃ e : Panic, getSeparatedCells64 ⟨4611686018427387904, 4, [], [], []⟩ 5 = .error e) ↔
      ((5 : Int) < 0 ∨ wallCount ⟨4611686018427387904, 4, [], [], []⟩ ≤ 5)) := by
  refine ⟨by decide, ?_⟩
  intro hiff
  have hval : getSeparatedCells64 ⟨4611686018427387904, 4, [], [], []⟩ 5 =
      .error .widTooLarge := by decide
  have hcase := hiff.mp ⟨_, hval⟩
  revert hcase
  decide

/-- C10, amended: for `Width, Height ≥ 1` with `Width*Height*2 < 2^63` (the
sizes do not wrap around) and every integer `wid`, `getSeparatedCells(wid)`
panics if and only if `wid < 0` or `wid ≥ wallCount`; the panic is never a
division by zero (in particular not when `Width = 1`). -/
theorem getSeparatedCells64_panics_iff (m : MazeData) (hw : 1 ≤ m.Width) (hh : 1 ≤ m.Height)
    (hfit : m.Width * m.Height * 2 < 9223372036854775808) (wid : Int) :
    ((∃ e : Panic, getSeparatedCells64 m wid = .error e) ↔ (wid < 0 ∨ wallCount m ≤ wid)) ∧
      getSeparatedCells64 m wid ≠ .error .divideByZero := by
  refine ⟨?_, getSeparatedCells64_no_divideByZero m wid⟩
  rw [getSeparatedCells64_eq m hw hh hfit]
  exact (getSeparatedCells_panics_iff m hw hh wid).1

theorem getSeparatedCells64_panics_iff_witness :
    ((∃ e : Panic, getSeparatedCells64 ⟨1, 3, [], [], []⟩ 2 = .error e) ↔
        ((2 : Int) < 0 ∨ wallCount ⟨1, 3, [], [], []⟩ ≤ 2)) ∧
      getSeparatedCells64 ⟨1, 3, [], [], []⟩ 2 ≠ .error .divideByZero :=
  getSeparatedCells64_panics_iff ⟨1, 3, [], [], []⟩ (by decide) (by decide) (by decide) 2

/-- C19, as the code refutes it: on `Width = 2^63 - 1`, `Height = 2^63 - 3` (the
maze that `NewMaze` returns with 3 cells and 10 walls) cells 0 and 1 are adjacent
in row 0, and no wall index makes `getSeparatedCells` return `(0, 1)`. -/
theorem adjacent_cells_have_wall64_fails :
    ((1 : Int) ≤ 9223372036854775807 ∧ (0 : Int) ≤ 0 ∧
      (1 : Int) < cellCount ⟨9223372036854775807, 9223372036854775805, [], [], []⟩ ∧
      (1 : Int) = 0 + 1 ∧ (0 : Int) / 9223372036854775807 = 1 / 9223372036854775807) ∧
    ¬ ∃ wid : Int,
      getSeparatedCells64 ⟨9223372036854775807, 9223372036854775805, [], [], []⟩ wid =
        .ok (0, 1) := by
  refine ⟨by decide, ?_⟩
  rintro ⟨wid, hg⟩
  have hd : wrap64 (9223372036854775807 - 1) = 9223372036854775806 := by decide
  have ht1 : wrap64 (9223372036854775806 * 9223372036854775805) = -9223372036854775802 := by
    decide
  have ht2 : wrap64 (wrap64 (wrap64 (9223372036854775807 * 9223372036854775805) * 2) -
      wrap64 (9223372036854775807 + 9223372036854775805)) = 10 := by decide
  unfold getSeparatedCells64 at hg
  simp only [hd, ht1, ht2] at hg
  by_cases hneg : wid < 0
  · simp [hneg] at hg
  · have hv : ¬ wid < -9223372036854775802 := by omega
    simp only [hneg, hv, if_false] at hg
    by_cases h10 : wid < 10
    · simp only [h10, if_true, Except.ok.injEq, Prod.mk.injEq] at hg
      have := hg.1
      unfold wrap64 at this
      omega
    · simp [h10] at hg

/-- C19, amended: for `Width ≥ 1` with `Width*Height*2 < 2^63` (the sizes do not
wrap around; `Height ≥ 1` follows from the cells being in the grid) and two
cells `a`, `b` of the grid that are adjacent, `b` being the right neighbour of
`a` (`b = a + 1` in the same row) or the cell below `a` (`b = a + Width`),
exactly one wall index in `[0, wallCount)` has
`getSeparatedCells(wid) = (a, b)`; and
`wallCount = (Width-1)*Height + Width*(Height-1)`. -/
theorem adjacent_cells_have_wall64 (m : MazeData) (hw : 1 ≤ m.Width)
    (hfit : m.Width * m.Height * 2 < 9223372036854775808)
    (a b : Int) (a0 : 0 ≤ a) (b1 : b < cellCount m)
    (hadj : (b = a + 1 ∧ a / m.Width = b / m.Width) ∨ b = a + m.Width) :
    wallCount m = (m.Width - 1) * m.Height + m.Width * (m.Height - 1) ∧
      ∃! wid : Int, 0 ≤ wid ∧ wid < wallCount m ∧ getSeparatedCells64 m wid = .ok (a, b) := by
  have hh : 1 ≤ m.Height := by
    by_contra hc
    have hle : m.Width * m.Height ≤ 0 := mul_nonpos_of_nonneg_of_nonpos (by omega) (by omega)
    unfold cellCount at b1
    rcases hadj with ⟨e, _⟩ | e <;> omega
  have hold := adjacent_cells_have_wall m hw a b a0 b1 hadj
  simp only [getSeparatedCells64_eq m hw hh hfit]
  exact hold

theorem adjacent_cells_have_wall64_witness :
    wallCount ⟨3, 2, [], [], []⟩ = (3 - 1) * 2 + 3 * (2 - 1) ∧
      ∃! wid : Int, 0 ≤ wid ∧ wid < wallCount ⟨3, 2, [], [], []⟩ ∧
        getSeparatedCells64 ⟨3, 2, [], [], []⟩ wid = .ok (1, 4) :=
  adjacent_cells_have_wall64 ⟨3, 2, [], [], []⟩ (by decide) (by decide) 1 4 (by decide)
    (by decide) (Or.inr (by decide))

/-! ## `NewMaze` on 64-bit integers -/

/-- C11, as the code refutes it: `NewMaze(2^32, 2^32)` panics although both
arguments are at least 1: `w*h` wraps around to 0 and the length of `Walls` to
`-2^33`, which `make` refuses. -/
theorem NewMaze64_panics_iff_fails :
    NewMaze64 4294967296 4294967296 = .error .makeNegativeLen ∧
    ¬ ((∃ e : Panic, NewMaze64 4294967296 4294967296 = .error e) ↔
      ((4294967296 : Int) < 1 ∨ (4294967296 : Int) < 1)) := by
  have hval : NewMaze64 4294967296 4294967296 = .error .makeNegativeLen := by decide
  refine ⟨hval, ?_⟩
  intro hiff
  have hcase := hiff.mp ⟨_, hval⟩
  revert hcase
  decide

/-- C11, amended: for all integers `w` and `h` such that, when both are at least
1, the slices fit the allocation limit of `make` (`w*h*24 ≤ 2^48` bytes, which
excludes a wrap-around of the sizes), `NewMaze(w, h)` panics if and only if
`w < 1` or `h < 1`, and then with its own panic, raised before any slice is
made; in particular `NewMaze(0, 5)` and `NewMaze(5, -1)` both fail. -/
theorem NewMaze64_panics_iff (w h : Int) (hfit : 1 ≤ w → 1 ≤ h → w * h * 24 ≤ maxAlloc) :
    ((∃ e : Panic, NewMaze64 w h = .error e) ↔ (w < 1 ∨ h < 1)) ∧
      ((w < 1 ∨ h < 1) → NewMaze64 w h = .error .tooSmall) ∧
      NewMaze64 0 5 = .error .tooSmall ∧ NewMaze64 5 (-1) = .error .tooSmall := by
  have hsmall : (w < 1 ∨ h < 1) → NewMaze64 w h = .error .tooSmall := by
    intro hc
    unfold NewMaze64
    rw [if_pos hc]
  refine ⟨⟨?_, fun hc => ⟨_, hsmall hc⟩⟩, hsmall, by decide, by decide⟩
  rintro ⟨e, he⟩
  by_contra hc
  have hw : 1 ≤ w := by omega
  have hh : 1 ≤ h := by omega
  rw [NewMaze64_eq w h hw hh (hfit hw hh), NewMaze_eq w h hw hh] at he
  simp at he

theorem NewMaze64_panics_iff_witness :
    ((∃ e : Panic, NewMaze64 3 2 = .error e) ↔ ((3 : Int) < 1 ∨ (2 : Int) < 1)) ∧
      (((3 : Int) < 1 ∨ (2 : Int) < 1) → NewMaze64 3 2 = .error .tooSmall) ∧
      NewMaze64 0 5 = .error .tooSmall ∧ NewMaze64 5 (-1) = .error .tooSmall :=
  NewMaze64_panics_iff 3 2 (fun _ _ => by decide)

/-- C12, as the code refutes it: for `w = h = 2^32`, both at least 1, `NewMaze`
returns no maze. -/
theorem NewMaze64_result_fails :
    ((1 : Int) ≤ 4294967296) ∧ ¬ ∃ m : MazeData, NewMaze64 4294967296 4294967296 = .ok m := by
  refine ⟨by decide, ?_⟩
  rintro ⟨m, hm⟩
  have hval : NewMaze64 4294967296 4294967296 = .error .makeNegativeLen := by decide
  rw [hval] at hm
  simp at hm

/-- C12, amended: for `w, h ≥ 1` whose slices fit the allocation limit of `make`
(`w*h*24 ≤ 2^48` bytes, which excludes a wrap-around of the sizes),
`NewMaze(w, h)` returns a maze with `Width = w`, `Height = h`, `Areas` of length
`w*h` with `Areas[i] = i` for every `i`, `Walls` of length `w*h*2 - (w+h)` with
every wall present (0), and `Paths` of length `w*h` with every entry empty. -/
theorem NewMaze64_result (w h : Int) (hw : 1 ≤ w) (hh : 1 ≤ h)
    (hfit : w * h * 24 ≤ maxAlloc) :
    ∃ m : MazeData, NewMaze64 w h = .ok m ∧ m.Width = w ∧ m.Height = h ∧
      (m.Areas.length : Int) = w * h ∧
      (∀ i : Int, 0 ≤ i → i < w * h → index m.Areas i = .ok i) ∧
      (m.Walls.length : Int) = w * h * 2 - (w + h) ∧ (∀ x ∈ m.Walls, x = 0) ∧
      (m.Paths.length : Int) = w * h ∧ (∀ p ∈ m.Paths, p = []) := by
  rw [NewMaze64_eq w h hw hh hfit]
  exact NewMaze_result w h hw hh

theorem NewMaze64_result_witness :
    ∃ m : MazeData, NewMaze64 3 2 = .ok m ∧ m.Width = 3 ∧ m.Height = 2 ∧
      (m.Areas.length : Int) = 3 * 2 ∧
      (∀ i : Int, 0 ≤ i → i < 3 * 2 → index m.Areas i = .ok i) ∧
      (m.Walls.length : Int) = 3 * 2 * 2 - (3 + 2) ∧ (∀ x ∈ m.Walls, x = 0) ∧
      (m.Paths.length : Int) = 3 * 2 ∧ (∀ p ∈ m.Paths, p = []) :=
  NewMaze64_result 3 2 (by decide) (by decide) (by decide)

/-! ## `Build` on 64-bit integers -/

theorem ConnectedAfter64_iff (w h : Int) (rnd : Nat → Int) (m0 : MazeData) (hwf : WF w h m0)
    (hfit : w * h * 2 < 9223372036854775808) (j : Nat) :
    ConnectedAfter64 rnd m0 j ↔ ConnectedAfter rnd m0 j := by
  unfold ConnectedAfter64 ConnectedAfter
  rw [afterDraws64_eq w h rnd hfit j m0 0 hwf]

/-- C14, as the code refutes it: `NewMaze(2^63 - 1, 2^63 - 3)` returns a maze of
3 cells and 10 walls, the sizes having wrapped around; on it `Build`, drawing
wall index 0, panics with an index out of range at its first draw: it neither
returns nor raises the iteration-cap panic after `N + 1` draws. -/
theorem Build64_halts_fails :
    (NewMaze64 9223372036854775807 9223372036854775805 =
      .ok ⟨9223372036854775807, 9223372036854775805, [0, 1, 2],
        [0, 0, 0, 0, 0, 0, 0, 0, 0, 0], [[], [], []]⟩ ∧
    Build64 ⟨9223372036854775807, 9223372036854775805, [0, 1, 2],
        [0, 0, 0, 0, 0, 0, 0, 0, 0, 0], [[], [], []]⟩ (fun _ => 0) =
      some (.error .indexOutOfRange, 1)) ∧
    ¬ ((∃ (k : Nat) (m : MazeData),
        Build64 ⟨9223372036854775807, 9223372036854775805, [0, 1, 2],
          [0, 0, 0, 0, 0, 0, 0, 0, 0, 0], [[], [], []]⟩ (fun _ => 0) = some (.ok m, k)) ∨
      (∃ k : Nat,
        Build64 ⟨9223372036854775807, 9223372036854775805, [0, 1, 2],
          [0, 0, 0, 0, 0, 0, 0, 0, 0, 0], [[], [], []]⟩ (fun _ => 0) =
            some (.error .tooLargeLoop, k))) := by
  have hval : Build64 ⟨9223372036854775807, 9223372036854775805, [0, 1, 2],
      [0, 0, 0, 0, 0, 0, 0, 0, 0, 0], [[], [], []]⟩ (fun _ => 0) =
      some (.error .indexOutOfRange, 1) := by decide
  refine ⟨⟨by decide, hval⟩, ?_⟩
  rintro (⟨k, m, hb⟩ | ⟨k, hb⟩) <;> rw [hval] at hb <;> simp at hb

/-- C14, amended: for `w, h` with `w*h*2 < 2^63` (the sizes do not wrap around),
`Build`, run on the maze of `NewMaze(w, h)` with cap `N = w*h*10` and a random
source whose draws lie in `[0, wallCount)` (whenever that range is not empty),
always halts, in one of two ways.  Either the grid is fully connected after some
`k ≤ N` draws, and then `Build` returns successfully the maze reached after the
smallest such `k`, having made exactly `k` draws, and that maze is fully
connected.  Or the grid is fully connected after no `k ≤ N` draws, and then
`Build` panics with the iteration-cap panic after exactly `N + 1` draws. -/
theorem Build64_halts (w h : Int) (rnd : Nat → Int) (m0 : MazeData)
    (hfit : w * h * 2 < 9223372036854775808) (h0 : NewMaze64 w h = .ok m0)
    (hrnd : ∀ j, 0 < w * h * 2 - (w + h) → 0 ≤ rnd j ∧ rnd j < w * h * 2 - (w + h)) :
    (∃ (k : Nat) (m : MazeData), (k : Int) ≤ w * h * 10 ∧ afterDraws64 rnd k m0 0 = .ok m ∧
        FullyConnected m ∧ (∀ j, j < k → ¬ ConnectedAfter64 rnd m0 j) ∧
        Build64 m0 rnd = some (.ok m, k)) ∨
      ((∀ k : Nat, (k : Int) ≤ w * h * 10 → ¬ ConnectedAfter64 rnd m0 k) ∧
        Build64 m0 rnd = some (.error .tooLargeLoop, (w * h * 10).toNat + 1)) := by
  obtain ⟨hw, hh, hall⟩ := NewMaze64_ok_fit w h m0 hfit h0
  rw [NewMaze64_eq w h hw hh hall] at h0
  have hwf := NewMaze_wf w h m0 h0
  have h10 : w * h * 10 < 9223372036854775808 := by
    unfold maxAlloc at hall
    omega
  rw [Build64_eq w h rnd m0 hwf h10]
  simp only [ConnectedAfter64_iff w h rnd m0 hwf hfit, afterDraws64_eq w h rnd hfit _ m0 0 hwf]
  exact Build_halts w h rnd m0 h0 hrnd

theorem Build64_halts_witness :
    (∃ (k : Nat) (m : MazeData), (k : Int) ≤ 2 * 2 * 10 ∧
        afterDraws64 (fun j => (j : Int) % 4) k
          ⟨2, 2, [0, 1, 2, 3], [0, 0, 0, 0], [[], [], [], []]⟩ 0 = .ok m ∧
        FullyConnected m ∧
        (∀ j, j < k → ¬ ConnectedAfter64 (fun j => (j : Int) % 4)
          ⟨2, 2, [0, 1, 2, 3], [0, 0, 0, 0], [[], [], [], []]⟩ j) ∧
        Build64 ⟨2, 2, [0, 1, 2, 3], [0, 0, 0, 0], [[], [], [], []]⟩ (fun j => (j : Int) % 4) =
          some (.ok m, k)) ∨
      ((∀ k : Nat, (k : Int) ≤ 2 * 2 * 10 → ¬ ConnectedAfter64 (fun j => (j : Int) % 4)
          ⟨2, 2, [0, 1, 2, 3], [0, 0, 0, 0], [[], [], [], []]⟩ k) ∧
        Build64 ⟨2, 2, [0, 1, 2, 3], [0, 0, 0, 0], [[], [], [], []]⟩
            (fun j => (j : Int) % 4) =
          some (.error .tooLargeLoop, ((2 : Int) * 2 * 10).toNat + 1)) :=
  Build64_halts 2 2 (fun j => (j : Int) % 4)
    ⟨2, 2, [0, 1, 2, 3], [0, 0, 0, 0], [[], [], [], []]⟩ (by decide) (by decide)
    (fun j _ => by
      show 0 ≤ (j : Int) % 4 ∧ (j : Int) % 4 < 2 * 2 * 2 - (2 + 2)
      omega)

/-- C16, as the code refutes it: on the maze of 3 cells and 10 walls that
`NewMaze(2^63 - 1, 2^63 - 3)` returns, `Build`, drawing wall index 3, which is
in `[0, wallCount)`, indexes `Areas` out of bounds at its first draw: a panic
other than the iteration-cap panic. -/
theorem Build64_safe_fails :
    (NewMaze64 9223372036854775807 9223372036854775805 =
      .ok ⟨9223372036854775807, 9223372036854775805, [0, 1, 2],
        [0, 0, 0, 0, 0, 0, 0, 0, 0, 0], [[], [], []]⟩ ∧
    getSeparatedCells64 ⟨9223372036854775807, 9223372036854775805, [0, 1, 2],
        [0, 0, 0, 0, 0, 0, 0, 0, 0, 0], [[], [], []]⟩ 3 = .ok (9223372036854775805, -4) ∧
    Build64 ⟨9223372036854775807, 9223372036854775805, [0, 1, 2],
        [0, 0, 0, 0, 0, 0, 0, 0, 0, 0], [[], [], []]⟩ (fun _ => 3) =
      some (.error .indexOutOfRange, 1)) ∧
    ¬ ∃ (r : Except Panic MazeData) (k : Nat),
      Build64 ⟨9223372036854775807, 9223372036854775805, [0, 1, 2],
        [0, 0, 0, 0, 0, 0, 0, 0, 0, 0], [[], [], []]⟩ (fun _ => 3) = some (r, k) ∧
      ((∃ m : MazeData, r = .ok m) ∨ r = .error .tooLargeLoop) := by
  have hval : Build64 ⟨9223372036854775807, 9223372036854775805, [0, 1, 2],
      [0, 0, 0, 0, 0, 0, 0, 0, 0, 0], [[], [], []]⟩ (fun _ => 3) =
      some (.error .indexOutOfRange, 1) := by decide
  refine ⟨⟨by decide, by decide, hval⟩, ?_⟩
  rintro ⟨r, k, hb, hr⟩
  rw [hval] at hb
  simp only [Option.some.injEq, Prod.mk.injEq] at hb
  rcases hr with ⟨m, e⟩ | e <;> rw [e] at hb <;> simp at hb

/-- C16, amended: for `w, h` with `w*h*2 < 2^63` (the sizes do not wrap around),
`Build`, run on the maze of `NewMaze(w, h)` with a random source whose draws lie
in `[0, wallCount)` (whenever that range is not empty), halts and raises no
panic other than the iteration-cap panic: no slice access is out of bounds,
`getSeparatedCells` and `margeArea` do not panic, and `rand.Intn` is not called
on an empty range; a draw is made only when `wallCount > 0`. -/
theorem Build64_safe (w h : Int) (rnd : Nat → Int) (m0 : MazeData)
    (hfit : w * h * 2 < 9223372036854775808) (h0 : NewMaze64 w h = .ok m0)
    (hrnd : ∀ j, 0 < w * h * 2 - (w + h) → 0 ≤ rnd j ∧ rnd j < w * h * 2 - (w + h)) :
    ∃ (r : Except Panic MazeData) (k : Nat), Build64 m0 rnd = some (r, k) ∧
      ((∃ m : MazeData, r = .ok m) ∨ r = .error .tooLargeLoop) ∧
      (0 < k → 0 < w * h * 2 - (w + h)) := by
  obtain ⟨hw, hh, hall⟩ := NewMaze64_ok_fit w h m0 hfit h0
  rw [NewMaze64_eq w h hw hh hall] at h0
  have hwf := NewMaze_wf w h m0 h0
  have h10 : w * h * 10 < 9223372036854775808 := by
    unfold maxAlloc at hall
    omega
  rw [Build64_eq w h rnd m0 hwf h10]
  exact Build_safe w h rnd m0 h0 hrnd

theorem Build64_safe_witness :
    ∃ (r : Except Panic MazeData) (k : Nat),
      Build64 ⟨1, 2, [0, 1], [0], [[], []]⟩ (fun _ => 0) = some (r, k) ∧
      ((∃ m : MazeData, r = .ok m) ∨ r = .error .tooLargeLoop) ∧
      (0 < k → (0 : Int) < 1 * 2 * 2 - (1 + 2)) :=
  Build64_safe 1 2 (fun _ => 0) ⟨1, 2, [0, 1], [0], [[], []]⟩ (by decide) (by decide)
    (fun _ _ => by
      show (0 : Int) ≤ 0 ∧ (0 : Int) < 1 * 2 * 2 - (1 + 2)
      decide)

end Maze
